import Mathlib

/-!
# Verification of the dice in-memory engine core

A shallow embedding, in Lean 4, of the core of the `dice` repository:

* `internal/store/store.go` — the generic key/value store with its
  expiry side table (`Store.Put`, `Get`, `Delete`, `GetExpiry`, `SetExpiry`);
* `internal/datastructures/sortedsets/sortedset.go` — the skip-list backed
  sorted set (`ZAdd`, `ZRem`, `ZScore`, `ZRank`, `ZRevRank`, `ZRange`, …);
* `internal/datastructures/list/list.go` — the doubly linked list
  (`LPop`, `RPop` and the internal `append`/`delete` helpers).

Modelling conventions:

* Go maps (`swiss.Map` and built-in maps) are modelled as association lists
  whose keys are kept unique; the store/sorted set never iterate over these
  maps except for `ZAdd`'s argument map, which is modelled as an explicitly
  ordered list of pairs (quantifying over it covers every Go map iteration
  order).
* Pointer-linked heap structures (skip-list nodes, list nodes) are modelled
  as an append-only arena `nodes : List …`; a pointer is an `Option Nat`
  index into the arena (`none` = `nil` / the header sentinel).  Taking the
  address of a local variable (as `Store.Put` does with `&Value`) is
  modelled by drawing a fresh address from an allocation counter.
* `float64` scores are modelled as `Int`: the skip-list algorithm only uses
  `<`/`==` on scores, and the claims under verification only concern that
  total-order fragment of `float64`.
* `int`/`int64` values that can be negative are modelled as `Int`;
  `uint64` conversions wrap modulo `2^64`.
* Go `panic`/nil-pointer dereference is modelled by an `Option` result
  (`none` = crash).
-/

/-! ## Association lists: the model of Go map `Get` / `Put` / `Delete` -/

/-- Lookup in an association list; models Go map access `m[k]` /
`m.Get(k)` (the boolean "ok" result is `(alookup …).isSome`). -/
def alookup {κ α : Type} [DecidableEq κ] (k : κ) : List (κ × α) → Option α
  | [] => none
  | (k', v) :: rest => if k = k' then some v else alookup k rest

/-- Insert-or-replace; models Go map update `m[k] = v` / `m.Put(k, v)`. -/
def ainsert {κ α : Type} [DecidableEq κ] (k : κ) (v : α) : List (κ × α) → List (κ × α)
  | [] => [(k, v)]
  | (k', v') :: rest => if k = k' then (k, v) :: rest else (k', v') :: ainsert k v rest

/-- Key removal; models Go `delete(m, k)` / `m.Delete(k)`. -/
def aerase {κ α : Type} [DecidableEq κ] (k : κ) : List (κ × α) → List (κ × α)
  | [] => []
  | (k', v') :: rest => if k = k' then rest else (k', v') :: aerase k rest

theorem alookup_ainsert_self {κ α : Type} [DecidableEq κ] (k : κ) (v : α)
    (l : List (κ × α)) : alookup k (ainsert k v l) = some v := by
  induction l with
  | nil => simp [ainsert, alookup]
  | cons p rest ih =>
      obtain ⟨a, b⟩ := p
      by_cases h : k = a
      · simp [ainsert, h, alookup]
      · simp [ainsert, h, alookup, ih]

theorem alookup_ainsert_ne {κ α : Type} [DecidableEq κ] {k k' : κ} (v : α)
    (l : List (κ × α)) (h : k' ≠ k) : alookup k' (ainsert k v l) = alookup k' l := by
  induction l with
  | nil => simp [ainsert, alookup, h]
  | cons p rest ih =>
      obtain ⟨a, b⟩ := p
      by_cases hk : k = a
      · subst hk
        simp [ainsert, alookup, if_neg h]
      · by_cases hk' : k' = a
        · simp [ainsert, hk, alookup, hk']
        · simp [ainsert, hk, alookup, hk', ih]

theorem mem_keys_of_alookup_some {κ α : Type} [DecidableEq κ] {k : κ} {v : α}
    {l : List (κ × α)} (h : alookup k l = some v) : (k, v) ∈ l := by
  induction l with
  | nil => simp [alookup] at h
  | cons p rest ih =>
      obtain ⟨a, b⟩ := p
      by_cases hk : k = a
      · simp only [alookup, if_pos hk] at h
        cases h
        subst hk
        exact List.mem_cons_self _ _
      · simp only [alookup, if_neg hk] at h
        exact List.mem_cons_of_mem _ (ih h)

theorem key_mem_of_alookup_some {κ α : Type} [DecidableEq κ] {k : κ} {v : α}
    {l : List (κ × α)} (h : alookup k l = some v) : k ∈ l.map Prod.fst := by
  have := mem_keys_of_alookup_some h
  exact List.mem_map_of_mem Prod.fst this

theorem alookup_eq_none_of_not_mem {κ α : Type} [DecidableEq κ] {k : κ}
    {l : List (κ × α)} (h : k ∉ l.map Prod.fst) : alookup k l = none := by
  cases hres : alookup k l with
  | none => rfl
  | some v => exact absurd (key_mem_of_alookup_some hres) h

theorem alookup_isSome_of_mem_keys {κ α : Type} [DecidableEq κ] {k : κ}
    {l : List (κ × α)} (h : k ∈ l.map Prod.fst) : (alookup k l).isSome := by
  induction l with
  | nil => simp at h
  | cons p rest ih =>
      obtain ⟨a, b⟩ := p
      by_cases hk : k = a
      · simp [alookup, hk]
      · simp only [List.map_cons, List.mem_cons] at h
        rcases h with h | h
        · exact absurd h hk
        · simp [alookup, hk, ih h]

theorem alookup_aerase_self {κ α : Type} [DecidableEq κ] (k : κ)
    (l : List (κ × α)) (hnd : (l.map Prod.fst).Nodup) :
    alookup k (aerase k l) = none := by
  induction l with
  | nil => simp [aerase, alookup]
  | cons p rest ih =>
      obtain ⟨a, b⟩ := p
      simp only [List.map_cons, List.nodup_cons] at hnd
      by_cases h : k = a
      · simp only [aerase, if_pos h]
        apply alookup_eq_none_of_not_mem
        rw [h]
        exact hnd.1
      · simp [aerase, h, alookup, ih hnd.2]

theorem alookup_aerase_ne {κ α : Type} [DecidableEq κ] {k k' : κ}
    (l : List (κ × α)) (h : k' ≠ k) : alookup k' (aerase k l) = alookup k' l := by
  induction l with
  | nil => simp [aerase]
  | cons p rest ih =>
      obtain ⟨a, b⟩ := p
      by_cases hk : k = a
      · subst hk
        simp [aerase, alookup, if_neg h]
      · by_cases hk' : k' = a
        · simp [aerase, hk, alookup, hk']
        · simp [aerase, hk, alookup, hk', ih]

theorem mem_keys_ainsert {κ α : Type} [DecidableEq κ] {x k : κ} (v : α)
    (l : List (κ × α)) :
    x ∈ (ainsert k v l).map Prod.fst ↔ x = k ∨ x ∈ l.map Prod.fst := by
  induction l with
  | nil => simp [ainsert]
  | cons p rest ih =>
      obtain ⟨a, b⟩ := p
      by_cases hk : k = a
      · subst hk
        have hred : ainsert k v ((k, b) :: rest) = (k, v) :: rest := by
          simp [ainsert]
        rw [hred]
        simp only [List.map_cons, List.mem_cons]
        tauto
      · have hred : ainsert k v ((a, b) :: rest) = (a, b) :: ainsert k v rest := by
          simp [ainsert, hk]
        rw [hred]
        simp only [List.map_cons, List.mem_cons, ih]
        tauto

theorem keys_ainsert_nodup {κ α : Type} [DecidableEq κ] (k : κ) (v : α)
    {l : List (κ × α)} (h : (l.map Prod.fst).Nodup) :
    ((ainsert k v l).map Prod.fst).Nodup := by
  induction l with
  | nil => simp [ainsert]
  | cons p rest ih =>
      obtain ⟨a, b⟩ := p
      simp only [List.map_cons, List.nodup_cons] at h
      by_cases hk : k = a
      · subst hk
        simpa [ainsert] using h
      · simp only [ainsert, if_neg hk, List.map_cons, List.nodup_cons]
        refine ⟨?_, ih h.2⟩
        intro hcon
        rcases (mem_keys_ainsert v rest).mp hcon with h1 | h1
        · exact hk h1.symm
        · exact h.1 h1

/-! ## The store (`internal/store/store.go`)

`Store[T]` holds a `swiss.Map[string, T]` of values and a side table
`expires : swiss.Map[*T, uint64]` keyed by *pointers*.  `Put` stores the
expiry under `&Value` — the address of its local parameter — and
`GetExpiry` looks it up under `&val` — the address of a freshly created
local copy.  Addresses of distinct live allocations never coincide in Go,
so we model addresses by a monotone allocation counter `nextAddr`: every
address stored in `expires` was drawn from the counter, and the transient
address taken by `GetExpiry` is the (never stored) current counter value. -/

/-- A stored value.  The concrete collections (`Hash`, `List`,
`SortedSet`, …) are irrelevant to the store-level claims, so the payload is
opaque.  `lastAccessedAt` models the `BaseDataStructure` timestamp. -/
structure Obj where
  payload : Nat
  lastAccessedAt : Nat
deriving DecidableEq

/-- Modelled from the spec: `BaseDataStructure.UpdateLastAccessedAt` (the
`internal/datastructures` package is not part of the provided sources) —
§3/§4.1: "stamps `value`'s last-accessed time to now". -/
def Obj.updateLastAccessedAt (o : Obj) (now : Nat) : Obj :=
  { o with lastAccessedAt := now }

/-- The zero value returned by a Go map lookup miss. -/
def Obj.zero : Obj := ⟨0, 0⟩

/-- `uint64(i)` for an `int64` argument: wrap modulo `2^64`. -/
def u64 (i : Int) : Nat := (i % ((2 : Int) ^ 64)).toNat

structure GoStore where
  /-- `store *swiss.Map[string, T]` -/
  store : List (String × Obj)
  /-- `expires *swiss.Map[*T, uint64]` — keyed by addresses. -/
  expires : List (Nat × Nat)
  /-- Allocation counter: all addresses ever stored in `expires` are
  `< nextAddr`; a fresh local address is `≥ nextAddr`. -/
  nextAddr : Nat
deriving DecidableEq

/-- `NewStore` (store.go:24). -/
def GoStore.new : GoStore := ⟨[], [], 0⟩

/-- `Store.Put` (store.go:32-38).  `Value.UpdateLastAccessedAt()`;
`s.store.Put(key, Value)`; if `expDurationMs > 0` then
`s.expires.Put(&Value, uint64(expDurationMs))` — note: the *raw duration*
is stored (not `now + duration`), under a freshly taken address. -/
def GoStore.put (s : GoStore) (now : Nat) (key : String) (value : Obj)
    (expDurationMs : Int) : GoStore :=
  let value := value.updateLastAccessedAt now
  let st := ainsert key value s.store
  if expDurationMs > 0 then
    { store := st
      expires := ainsert s.nextAddr (u64 expDurationMs) s.expires
      nextAddr := s.nextAddr + 1 }
  else
    { s with store := st }

/-- `Store.Get` (store.go:44-51).  The stored values are pointer-like
(`DSInterface`), so `value.UpdateLastAccessedAt()` mutates the shared
object: the refresh is visible in the store afterwards. -/
def GoStore.get (s : GoStore) (now : Nat) (key : String) : (Obj × Bool) × GoStore :=
  match alookup key s.store with
  | some v =>
      let v' := v.updateLastAccessedAt now
      ((v', true), { s with store := ainsert key v' s.store })
  | none => ((Obj.zero, false), s)

/-- `Store.Delete` (store.go:53-60): removes the entry from `store` only;
the `expires` table is not touched. -/
def GoStore.delete (s : GoStore) (key : String) : Bool × GoStore :=
  match alookup key s.store with
  | some _ => (true, { s with store := aerase key s.store })
  | none => (false, s)

/-- `Store.GetExpiry` (store.go:62-68): `val, exists := s.store.Get(key)`,
then `s.expires.Get(&val)` — `&val` is the address of a brand-new local
copy, modelled as the fresh address `s.nextAddr`. -/
def GoStore.getExpiry (s : GoStore) (key : String) : Nat × Bool :=
  match alookup key s.store with
  | some _ =>
      match alookup s.nextAddr s.expires with
      | some d => (d, true)
      | none => (0, false)
  | none => (0, false)

/-- `Store.SetExpiry` (store.go:70-75): stores
`uint64(now) + uint64(expDurationMs)` under the address of the local copy
`obj` (again a fresh address). -/
def GoStore.setExpiry (s : GoStore) (now : Nat) (key : String)
    (expDurationMs : Int) : GoStore :=
  match alookup key s.store with
  | some _ =>
      { s with
        expires := ainsert s.nextAddr ((now % 2 ^ 64 + u64 expDurationMs) % 2 ^ 64) s.expires
        nextAddr := s.nextAddr + 1 }
  | none => s

/-- Store well-formedness: every address in the expiry table was drawn
from the allocation counter, hence is `< nextAddr` (in Go: addresses of
live allocations are pairwise distinct, and a freshly created local's
address differs from every stored one). -/
def GoStore.Wf (s : GoStore) : Prop :=
  ∀ p ∈ s.expires, p.1 < s.nextAddr

instance (s : GoStore) : Decidable s.Wf := by
  unfold GoStore.Wf
  infer_instance

theorem alookup_fresh_none {s : GoStore} (h : s.Wf) :
    alookup s.nextAddr s.expires = none := by
  cases hres : alookup s.nextAddr s.expires with
  | none => rfl
  | some d =>
      exfalso
      have hm := mem_keys_of_alookup_some hres
      exact absurd (h _ hm) (lt_irrefl _)

theorem getExpiry_eq_false {s : GoStore} (h : s.Wf) (key : String) :
    s.getExpiry key = (0, false) := by
  unfold GoStore.getExpiry
  cases halo : alookup key s.store with
  | none => rfl
  | some v => simp [alookup_fresh_none h]

/-! ### Store claims -/

/-- **C1** (code bug).  The claim says `Put(k, v, d)` with `d > 0` followed by
an immediate `GetExpiry(k)` returns `found = true` with deadline `now + d`.
The code stores the *raw duration* (not `now + d`) under the address of the
local parameter `&Value`, and `GetExpiry` looks it up under the address of a
fresh local copy `&val`, which never matches.  Evaluating the model at the
failing input `Put("k", v, 1000)` at `now = 100`: `GetExpiry("k")` returns
`(0, false)`, and the (unreachable) expiry record holds `1000`, not `1100`. -/
theorem store_put_then_getExpiry_misses :
    GoStore.getExpiry (GoStore.put GoStore.new 100 "k" ⟨7, 0⟩ 1000) "k" = (0, false) ∧
    (GoStore.put GoStore.new 100 "k" ⟨7, 0⟩ 1000).expires = [(0, 1000)] := by
  exact ⟨rfl, rfl⟩

/-- **C2** (counterexample).  A store where the only recorded expiry value is
`1000`, read at time `now = 2000` (so the recorded deadline, read as an
absolute time, lies in the past): the claim says `Get` must return
`found = false`, but the code returns `found = true` — `Get` performs no
expiry filtering at all. -/
theorem store_get_expired_counterexample :
    ((GoStore.get (GoStore.put GoStore.new 100 "k" ⟨7, 0⟩ 1000) 2000 "k").1.2 = true) ∧
    (GoStore.put GoStore.new 100 "k" ⟨7, 0⟩ 1000).expires = [(0, 1000)] := by
  exact ⟨rfl, rfl⟩

/-- **C2** (amended).  `Store.Get` never consults the expiry table: for every
key present in the underlying map it returns the stored value with
`found = true` and refreshes its last-accessed timestamp (visibly, since
values are pointer-like), even if an associated expiry record's deadline
lies in the past; for an absent key it returns `found = false` and leaves
the store unchanged. -/
theorem store_get_no_expiry_filtering (s : GoStore) (now : Nat) (k : String) :
    (∀ v, alookup k s.store = some v →
      s.get now k = ((v.updateLastAccessedAt now, true),
        { s with store := ainsert k (v.updateLastAccessedAt now) s.store })) ∧
    (alookup k s.store = none → s.get now k = ((Obj.zero, false), s)) := by
  constructor
  · intro v hv
    simp [GoStore.get, hv]
  · intro hv
    simp [GoStore.get, hv]

/-- Witness for `store_get_no_expiry_filtering` at the concrete expired-key
input of the counterexample. -/
theorem store_get_no_expiry_filtering_witness :
    GoStore.get (GoStore.put GoStore.new 100 "k" ⟨7, 0⟩ 1000) 2000 "k" =
      ((⟨7, 2000⟩, true),
        { store := [("k", ⟨7, 2000⟩)], expires := [(0, 1000)], nextAddr := 1 }) := by
  have h := (store_get_no_expiry_filtering
    (GoStore.put GoStore.new 100 "k" ⟨7, 0⟩ 1000) 2000 "k").1 ⟨7, 100⟩ rfl
  exact h.trans rfl

/-- **C3** (counterexample).  After `Put("k", v, 1000)` followed by
`Delete("k")`, the expiry record installed by the `Put` is still in the
expiry table: `Delete` does not touch `expires`, contradicting the claim
that no expiry record for the key remains. -/
theorem store_delete_leaves_expiry_record :
    ((GoStore.delete (GoStore.put GoStore.new 100 "k" ⟨7, 0⟩ 1000) "k").2).expires
      = [(0, 1000)] := rfl

/-- **C3** (amended).  `Delete` removes the entry from the key map but leaves
the expiry table untouched (the stale record merely stays unreachable);
after `Delete(k)`, `GetExpiry(k)` returns `found = false` (the key is gone
from the map); `Delete` returns `true` iff the key existed; and a second
`Delete` with no intervening `Put` returns `false` and leaves the store
unchanged. -/
theorem store_delete_amended (s : GoStore) (k : String)
    (hnd : (s.store.map Prod.fst).Nodup) :
    (s.delete k).1 = (alookup k s.store).isSome ∧
    ((s.delete k).2).expires = s.expires ∧
    ((s.delete k).2).getExpiry k = (0, false) ∧
    ((s.delete k).2).delete k = (false, (s.delete k).2) := by
  cases hres : alookup k s.store with
  | none =>
      have hd : s.delete k = (false, s) := by
        simp [GoStore.delete, hres]
      rw [hd]
      refine ⟨by simp [hres], rfl, ?_, by simp [GoStore.delete, hres]⟩
      simp [GoStore.getExpiry, hres]
  | some v =>
      have hd : s.delete k = (true, { s with store := aerase k s.store }) := by
        simp [GoStore.delete, hres]
      have herase : alookup k (aerase k s.store) = none := alookup_aerase_self k s.store hnd
      rw [hd]
      refine ⟨by simp [hres], rfl, ?_, ?_⟩
      · simp [GoStore.getExpiry, herase]
      · simp [GoStore.delete, herase]

/-- Witness for `store_delete_amended` after a `Put` with a TTL. -/
theorem store_delete_amended_witness :
    ((GoStore.put GoStore.new 100 "k" ⟨7, 0⟩ 1000).delete "k").1 = true ∧
    (((GoStore.put GoStore.new 100 "k" ⟨7, 0⟩ 1000).delete "k").2).expires = [(0, 1000)] ∧
    (((GoStore.put GoStore.new 100 "k" ⟨7, 0⟩ 1000).delete "k").2).getExpiry "k" = (0, false) ∧
    (((GoStore.put GoStore.new 100 "k" ⟨7, 0⟩ 1000).delete "k").2).delete "k"
      = (false, ((GoStore.put GoStore.new 100 "k" ⟨7, 0⟩ 1000).delete "k").2) := by
  have h := store_delete_amended (GoStore.put GoStore.new 100 "k" ⟨7, 0⟩ 1000) "k" (by decide)
  exact ⟨h.1.trans rfl, h.2.1.trans rfl, h.2.2.1, h.2.2.2⟩

/-- **C4** (counterexample).  `Put("k", v1, 1000)` then `Put("k", v2, 0)`:
the claim says the second `Put` clears any previous deadline for the key,
but the record installed by the first `Put` is still in the expiry table —
a `Put` with non-positive duration does not touch `expires` at all. -/
theorem store_put_zero_keeps_old_record :
    (GoStore.put (GoStore.put GoStore.new 100 "k" ⟨7, 0⟩ 1000) 200 "k" ⟨8, 0⟩ 0).expires
      = [(0, 1000)] := rfl

/-- **C4** (amended).  For `d ≤ 0`, `Put(k, v, d)` records no expiry deadline
and leaves the expiry table exactly as it was (previous records are not
cleared, they merely stay unreachable); a subsequent `GetExpiry(k)` still
returns `found = false` — even if an earlier `Put` or `SetExpiry` on `k`
had installed a positive deadline — because expiry records are keyed by
unreachable addresses. -/
theorem store_put_nonpositive_amended (s : GoStore) (now : Nat) (k : String)
    (v : Obj) (d : Int) (hd : d ≤ 0) (hwf : s.Wf) :
    (s.put now k v d).expires = s.expires ∧
    (s.put now k v d).getExpiry k = (0, false) := by
  have hnp : ¬ d > 0 := not_lt.mpr hd
  constructor
  · simp [GoStore.put, hnp]
  · simp [GoStore.put, hnp, GoStore.getExpiry, alookup_ainsert_self,
      alookup_fresh_none hwf]

/-- Witness for `store_put_nonpositive_amended`: the key first receives a
positive deadline via `Put("k", v, 1000)`, then `Put("k", v2, 0)`;
`GetExpiry` returns `found = false` and the expiry table is unchanged. -/
theorem store_put_nonpositive_amended_witness :
    (GoStore.put (GoStore.put GoStore.new 100 "k" ⟨7, 0⟩ 1000) 200 "k" ⟨8, 0⟩ 0).expires
      = (GoStore.put GoStore.new 100 "k" ⟨7, 0⟩ 1000).expires ∧
    (GoStore.put (GoStore.put GoStore.new 100 "k" ⟨7, 0⟩ 1000) 200 "k" ⟨8, 0⟩ 0).getExpiry "k"
      = (0, false) :=
  store_put_nonpositive_amended (GoStore.put GoStore.new 100 "k" ⟨7, 0⟩ 1000)
    200 "k" ⟨8, 0⟩ 0 (by decide) (by decide)

/-! ## The doubly linked list (`internal/datastructures/list/list.go`)

Nodes live in an append-only arena; `ListNode` pointers are arena indices
(`Option Nat`, `none` = `nil`). -/

structure LNode (α : Type) where
  element : α
  next : Option Nat
  prev : Option Nat
deriving DecidableEq

structure GoList (α : Type) where
  nodes : List (LNode α)
  size : Int
  head : Option Nat
  tail : Option Nat
deriving DecidableEq

/-- In-place update of one arena slot (Go: mutating a node through a
pointer). -/
def listModify {α : Type} (l : List α) (n : Nat) (f : α → α) : List α :=
  match l, n with
  | [], _ => []
  | a :: rest, 0 => f a :: rest
  | a :: rest, m + 1 => a :: listModify rest m f

theorem get_eq_listModify_self {α : Type} (l : List α) (n : Nat) (f : α → α) :
    (listModify l n f).get? n = (l.get? n).map f := by
  induction l generalizing n with
  | nil => simp [listModify]
  | cons a rest ih =>
      cases n with
      | zero => simp [listModify]
      | succ m => simpa [listModify] using ih m

theorem get_eq_listModify_ne {α : Type} (l : List α) {n m : Nat} (f : α → α)
    (h : n ≠ m) : (listModify l m f).get? n = l.get? n := by
  induction l generalizing n m with
  | nil => simp [listModify]
  | cons a rest ih =>
      cases m with
      | zero =>
          cases n with
          | zero => exact absurd rfl h
          | succ k => simp [listModify]
      | succ m' =>
          cases n with
          | zero => simp [listModify]
          | succ k =>
              simp only [listModify, List.get?]
              exact ih (fun hc => h (by rw [hc]))

theorem length_listModify {α : Type} (l : List α) (n : Nat) (f : α → α) :
    (listModify l n f).length = l.length := by
  induction l generalizing n with
  | nil => rfl
  | cons a rest ih =>
      cases n with
      | zero => rfl
      | succ m => simpa [listModify] using ih m

def nodeAt {α : Type} (b : GoList α) (n : Nat) : Option (LNode α) := b.nodes.get? n

def nextOf {α : Type} (b : GoList α) (n : Nat) : Option Nat :=
  match b.nodes.get? n with
  | some nd => nd.next
  | none => none

def prevOf {α : Type} (b : GoList α) (n : Nat) : Option Nat :=
  match b.nodes.get? n with
  | some nd => nd.prev
  | none => none

def elemOf {α : Type} [Inhabited α] (b : GoList α) (n : Nat) : α :=
  match b.nodes.get? n with
  | some nd => nd.element
  | none => default

/-- `NewLists` (list.go:50-56). -/
def GoList.newLists {α : Type} : GoList α := ⟨[], 0, none, none⟩

/-- `newNode` + `append` (list.go:58-63, 220-230): link a freshly allocated
node in at the tail. -/
def GoList.appendNode {α : Type} (b : GoList α) (el : α) : GoList α :=
  let nid := b.nodes.length
  let ns0 := b.nodes ++ [⟨el, none, b.tail⟩]
  let ns1 := match b.tail with
    | some t => listModify ns0 t (fun nd => { nd with next := some nid })
    | none => ns0
  { nodes := ns1
    size := b.size + 1
    head := match b.head with
      | none => some nid
      | some h => some h
    tail := some nid }

/-- `newNode` + `prepend` (list.go:58-63, 232-242): link a freshly
allocated node in at the head. -/
def GoList.prependNode {α : Type} (b : GoList α) (el : α) : GoList α :=
  let nid := b.nodes.length
  let ns0 := b.nodes ++ [⟨el, b.head, none⟩]
  let ns1 := match b.head with
    | some h => listModify ns0 h (fun nd => { nd with prev := some nid })
    | none => ns0
  { nodes := ns1
    size := b.size + 1
    head := some nid
    tail := match b.tail with
      | none => some nid
      | some t => some t }

/-- `LPush` (list.go:65-70): appends each element at the tail. -/
def GoList.lpush {α : Type} (b : GoList α) (els : List α) : GoList α :=
  els.foldl GoList.appendNode b

/-- `RPush` (list.go:72-77): prepends each element at the head. -/
def GoList.rpush {α : Type} (b : GoList α) (els : List α) : GoList α :=
  els.foldl GoList.prependNode b

/-- `delete` (list.go:244-262).  The Go code dereferences `bn`'s fields;
an arena miss (impossible on well-formed lists) leaves the list unchanged. -/
def GoList.deleteNode {α : Type} (b : GoList α) (nid : Nat) : GoList α :=
  match b.nodes.get? nid with
  | none => b
  | some nd =>
      let b1 := if b.head = some nid then { b with head := nd.next } else b
      let b2 := if b1.tail = some nid then { b1 with tail := nd.prev } else b1
      let b3 := match nd.prev with
        | some p => { b2 with nodes := listModify b2.nodes p (fun x => { x with next := nd.next }) }
        | none => b2
      let b4 := match nd.next with
        | some q => { b3 with nodes := listModify b3.nodes q (fun x => { x with prev := nd.prev }) }
        | none => b3
      { b4 with size := b4.size - 1 }

/-- `LPop` (list.go:111-115): `el := b.head.element; b.delete(b.head);
return el, b.size == 0, nil`.  `none` models the nil-pointer dereference
crash on an empty list; the `Option String` component is the returned
`error`, always `nil` on the non-crashing path. -/
def GoList.lpop {α : Type} (b : GoList α) : Option (α × Bool × Option String × GoList α) :=
  match b.head with
  | none => none
  | some h =>
      match b.nodes.get? h with
      | none => none
      | some nd =>
          let b' := b.deleteNode h
          some (nd.element, b'.size == 0, none, b')

/-- `RPop` (list.go:117-121): same with `b.tail`. -/
def GoList.rpop {α : Type} (b : GoList α) : Option (α × Bool × Option String × GoList α) :=
  match b.tail with
  | none => none
  | some t =>
      match b.nodes.get? t with
      | none => none
      | some nd =>
          let b' := b.deleteNode t
          some (nd.element, b'.size == 0, none, b')

/-- The doubly-linked chain discipline along `ids`, threading the expected
`prev` pointer. -/
def linksOk {α : Type} (b : GoList α) : Option Nat → List Nat → Bool
  | _, [] => true
  | p, n :: rest =>
      (prevOf b n == p) && (nextOf b n == rest.head?) && linksOk b (some n) rest

/-- `b` is a well-formed doubly linked list whose nodes, in order, are
`ids`. -/
def Represents {α : Type} (b : GoList α) (ids : List Nat) : Prop :=
  (∀ n ∈ ids, n < b.nodes.length) ∧
  ids.Nodup ∧
  b.head = ids.head? ∧
  b.tail = ids.getLast? ∧
  b.size = (ids.length : Int) ∧
  linksOk b none ids = true

instance {α : Type} (b : GoList α) (ids : List Nat) : Decidable (Represents b ids) := by
  unfold Represents
  infer_instance

theorem linksOk_cons_iff {α : Type} (b : GoList α) (p : Option Nat) (n : Nat)
    (rest : List Nat) :
    linksOk b p (n :: rest) = true ↔
      prevOf b n = p ∧ nextOf b n = rest.head? ∧ linksOk b (some n) rest = true := by
  simp [linksOk, Bool.and_eq_true, beq_iff_eq, and_assoc]

theorem linksOk_congr {α : Type} (b b' : GoList α)
    (h : ∀ n, b'.nodes.get? n = b.nodes.get? n) :
    ∀ (l : List Nat) (p : Option Nat), linksOk b' p l = linksOk b p l := by
  intro l
  induction l with
  | nil => intro p; rfl
  | cons n rest ih =>
      intro p
      have hp : prevOf b' n = prevOf b n := by
        unfold prevOf
        rw [h n]
      have hn : nextOf b' n = nextOf b n := by
        unfold nextOf
        rw [h n]
      simp [linksOk, hp, hn, ih (some n)]

theorem linksOk_congr_of_not_mem {α : Type} (b b' : GoList α) (m : Nat)
    (h : ∀ n, n ≠ m → b'.nodes.get? n = b.nodes.get? n) :
    ∀ (l : List Nat) (p : Option Nat), m ∉ l → linksOk b' p l = linksOk b p l := by
  intro l
  induction l with
  | nil => intro p _; rfl
  | cons n rest ih =>
      intro p hm
      have hne : n ≠ m := fun hc => hm (by simp [hc])
      have hp : prevOf b' n = prevOf b n := by
        unfold prevOf
        rw [h n hne]
      have hn : nextOf b' n = nextOf b n := by
        unfold nextOf
        rw [h n hne]
      have hrest : m ∉ rest := fun hc => hm (List.mem_cons_of_mem _ hc)
      simp [linksOk, hp, hn, ih (some n) hrest]

theorem linksOk_last_fields {α : Type} (b : GoList α) (x : Nat) :
    ∀ (l : List Nat) (p : Option Nat), linksOk b p (l ++ [x]) = true →
      nextOf b x = none ∧
      prevOf b x = (match l.getLast? with | none => p | some y => some y) := by
  intro l
  induction l with
  | nil =>
      intro p h
      rw [List.nil_append] at h
      rcases (linksOk_cons_iff b p x []).mp h with ⟨hp, hn, _⟩
      exact ⟨by simpa using hn, by simpa using hp⟩
  | cons a l2 ih =>
      intro p h
      rw [List.cons_append] at h
      rcases (linksOk_cons_iff b p a (l2 ++ [x])).mp h with ⟨_, _, htl⟩
      have hres := ih (some a) htl
      refine ⟨hres.1, ?_⟩
      rw [hres.2]
      cases hl2 : l2.getLast? with
      | none =>
          have : l2 = [] := by
            cases l2 with
            | nil => rfl
            | cons c cs => simp [List.getLast?_concat] at hl2
          subst this
          rfl
      | some y =>
          have : (a :: l2).getLast? = some y := by
            cases l2 with
            | nil => simp at hl2
            | cons c cs => rw [List.getLast?_cons_cons, hl2]
          rw [this]

theorem linksOk_drop_last {α : Type} (b F : GoList α) (x plast : Nat)
    (hF : F.nodes = listModify b.nodes plast (fun nd => { nd with next := none })) :
    ∀ (l : List Nat) (p : Option Nat), l.Nodup → l.getLast? = some plast →
      linksOk b p (l ++ [x]) = true → linksOk F p l = true := by
  intro l
  induction l with
  | nil => intro p _ hlast _; simp at hlast
  | cons a l2 ih =>
      intro p hnd hlast h
      rw [List.cons_append] at h
      rcases (linksOk_cons_iff b p a (l2 ++ [x])).mp h with ⟨hp, hn, htl⟩
      rcases List.nodup_cons.mp hnd with ⟨hm, hnd2⟩
      cases hl2 : l2 with
      | nil =>
          subst hl2
          have ha : a = plast := by simpa using hlast
          subst ha
          refine (linksOk_cons_iff F p a []).mpr ⟨?_, ?_, rfl⟩
          · unfold prevOf at hp ⊢
            rw [hF, get_eq_listModify_self]
            cases hb : b.nodes.get? a with
            | none => rw [hb] at hp; simpa using hp
            | some nd => rw [hb] at hp; simpa using hp
          · unfold nextOf
            rw [hF, get_eq_listModify_self]
            cases hb : b.nodes.get? a with
            | none => rfl
            | some nd => rfl
      | cons c cs =>
          subst hl2
          have hlast2 : (c :: cs).getLast? = some plast := by
            rw [List.getLast?_cons_cons] at hlast
            exact hlast
          have haplast : a ≠ plast := by
            intro hc
            subst hc
            exact hm (List.mem_of_mem_getLast? hlast2)
          refine (linksOk_cons_iff F p a (c :: cs)).mpr ⟨?_, ?_, ?_⟩
          · unfold prevOf at hp ⊢
            rw [hF, get_eq_listModify_ne _ _ haplast]
            exact hp
          · unfold nextOf at hn ⊢
            rw [hF, get_eq_listModify_ne _ _ haplast]
            simpa using hn
          · exact ih (some a) hnd2 hlast2 htl

theorem lpop_spec_aux {α : Type} [Inhabited α] (b : GoList α) (nid : Nat)
    (rest : List Nat) (hrep : Represents b (nid :: rest)) :
    ∃ b', b.lpop = some (elemOf b nid, rest.isEmpty, none, b') ∧ Represents b' rest := by
  obtain ⟨hval, hnodup, hhead, htail, hsize, hlinks⟩ := hrep
  have hlt : nid < b.nodes.length := hval nid (List.mem_cons_self _ _)
  have hnd : b.nodes.get? nid = some (b.nodes.get ⟨nid, hlt⟩) := List.get?_eq_get hlt
  set nd := b.nodes.get ⟨nid, hlt⟩ with hnddef
  have hndE : b.nodes[nid]? = some nd := by
    rw [← List.get?_eq_getElem?]
    exact hnd
  rcases (linksOk_cons_iff b none nid rest).mp hlinks with ⟨hprev, hnext, htl⟩
  have hprev' : nd.prev = none := by
    unfold prevOf at hprev
    rw [hnd] at hprev
    exact hprev
  have hnext' : nd.next = rest.head? := by
    unfold nextOf at hnext
    rw [hnd] at hnext
    exact hnext
  have hheadnid : b.head = some nid := by simpa using hhead
  have helem : elemOf b nid = nd.element := by
    unfold elemOf
    rw [hnd]
  cases rest with
  | nil =>
      have htailnid : b.tail = some nid := by simpa using htail
      have hnextnone : nd.next = none := by simpa using hnext'
      have hdel : b.deleteNode nid =
          { nodes := b.nodes, size := b.size - 1, head := none, tail := none } := by
        simp [GoList.deleteNode, hnd, hndE, hheadnid, htailnid, hprev', hnextnone]
      refine ⟨b.deleteNode nid, ?_, ?_⟩
      · have hsz : ((b.deleteNode nid).size == 0) = true := by
          rw [hdel]
          simp only [List.length_cons, List.length_nil] at hsize
          simp [hsize]
        unfold GoList.lpop
        simp only [hheadnid]
        simp only [hnd]
        simp [helem, hsz]
      · rw [hdel]
        refine ⟨by simp, by simp, rfl, rfl, ?_, rfl⟩
        simp only [List.length_cons, List.length_nil] at hsize
        simp [hsize]
  | cons r0 r2 =>
      have hnextr0 : nd.next = some r0 := by simpa using hnext'
      have hgl : ∃ y, (r0 :: r2).getLast? = some y := by
        have := (List.getLast?_isSome (l := r0 :: r2)).mpr (by simp)
        exact Option.isSome_iff_exists.mp this
      obtain ⟨y, hy⟩ := hgl
      have hymem : y ∈ r0 :: r2 := List.mem_of_mem_getLast? hy
      have hnidnotin : nid ∉ r0 :: r2 := (List.nodup_cons.mp hnodup).1
      have htailne : b.tail ≠ some nid := by
        rw [htail, List.getLast?_cons_cons, hy]
        intro hc
        cases hc
        exact hnidnotin hymem
      have hdel : b.deleteNode nid =
          { nodes := listModify b.nodes r0 (fun x => { x with prev := nd.prev })
            size := b.size - 1
            head := some r0
            tail := b.tail } := by
        simp [GoList.deleteNode, hnd, hndE, hheadnid, htailne, hprev', hnextr0]
      have hr0lt : r0 < b.nodes.length := hval r0 (by simp)
      have hr0nd : b.nodes.get? r0 = some (b.nodes.get ⟨r0, hr0lt⟩) := List.get?_eq_get hr0lt
      refine ⟨b.deleteNode nid, ?_, ?_⟩
      · have hsz : ((b.deleteNode nid).size == 0) = false := by
          rw [hdel]
          simp only [List.length_cons] at hsize
          simp only [hsize]
          simp only [beq_eq_false_iff_ne, ne_eq]
          intro hc
          omega
        unfold GoList.lpop
        simp only [hheadnid]
        simp only [hnd]
        simp [helem, hsz]
      · rcases (linksOk_cons_iff b (some nid) r0 r2).mp htl with ⟨_, hnextr0b, htl2⟩
        have hr2nodup := (List.nodup_cons.mp hnodup).2
        have hr0notr2 : r0 ∉ r2 := (List.nodup_cons.mp hr2nodup).1
        refine ⟨?_, hr2nodup, ?_, ?_, ?_, ?_⟩
        · intro n hn
          rw [hdel]
          simp only [length_listModify]
          exact hval n (List.mem_cons_of_mem _ hn)
        · rw [hdel]
          simp
        · rw [hdel]
          rw [htail, List.getLast?_cons_cons]
        · rw [hdel]
          simp only [List.length_cons] at hsize ⊢
          rw [hsize]
          push_cast
          ring
        · refine (linksOk_cons_iff (b.deleteNode nid) none r0 r2).mpr ⟨?_, ?_, ?_⟩
          · unfold prevOf
            rw [hdel]
            simp only
            rw [get_eq_listModify_self, hr0nd]
            simp [hprev']
          · unfold nextOf
            rw [hdel]
            simp only
            rw [get_eq_listModify_self, hr0nd]
            unfold nextOf at hnextr0b
            rw [hr0nd] at hnextr0b
            simpa using hnextr0b
          · have hcong := linksOk_congr_of_not_mem b (b.deleteNode nid) r0
              (by
                intro n hn
                rw [hdel]
                simp only
                exact get_eq_listModify_ne _ _ hn) r2 (some r0) hr0notr2
            rw [hcong]
            exact htl2

theorem rpop_spec_aux {α : Type} [Inhabited α] (b : GoList α) (nid : Nat)
    (pre : List Nat) (hrep : Represents b (pre ++ [nid])) :
    ∃ b', b.rpop = some (elemOf b nid, pre.isEmpty, none, b') ∧ Represents b' pre := by
  obtain ⟨hval, hnodup, hhead, htail, hsize, hlinks⟩ := hrep
  have hlt : nid < b.nodes.length := hval nid (by simp)
  have hnd : b.nodes.get? nid = some (b.nodes.get ⟨nid, hlt⟩) := List.get?_eq_get hlt
  set nd := b.nodes.get ⟨nid, hlt⟩ with hnddef
  have hndE : b.nodes[nid]? = some nd := by
    rw [← List.get?_eq_getElem?]
    exact hnd
  have htailnid : b.tail = some nid := by
    rw [htail, List.getLast?_concat]
  rcases linksOk_last_fields b nid pre none hlinks with ⟨hnextn, hprevn⟩
  have hnext' : nd.next = none := by
    unfold nextOf at hnextn
    rw [hnd] at hnextn
    exact hnextn
  have hprev' : nd.prev = (match pre.getLast? with | none => none | some y => some y) := by
    unfold prevOf at hprevn
    rw [hnd] at hprevn
    exact hprevn
  have helem : elemOf b nid = nd.element := by
    unfold elemOf
    rw [hnd]
  rcases List.nodup_append.mp hnodup with ⟨hndpre, _, hdisj⟩
  have hnidpre : nid ∉ pre := by
    intro hc
    exact hdisj hc (by simp)
  cases pre with
  | nil =>
      have hprevnone : nd.prev = none := by simpa using hprev'
      have hheadnid : b.head = some nid := by simpa using hhead
      have hdel : b.deleteNode nid =
          { nodes := b.nodes, size := b.size - 1, head := none, tail := none } := by
        simp [GoList.deleteNode, hnd, hndE, hheadnid, htailnid, hprevnone, hnext']
      refine ⟨b.deleteNode nid, ?_, ?_⟩
      · have hsz : ((b.deleteNode nid).size == 0) = true := by
          rw [hdel]
          simp only [List.nil_append, List.length_cons, List.length_nil] at hsize
          simp [hsize]
        unfold GoList.rpop
        simp only [htailnid]
        simp only [hnd]
        simp [helem, hsz]
      · rw [hdel]
        refine ⟨by simp, by simp, rfl, rfl, ?_, rfl⟩
        simp only [List.nil_append, List.length_cons, List.length_nil] at hsize
        simp [hsize]
  | cons p0 p2 =>
      have hgl : ∃ plast, (p0 :: p2).getLast? = some plast := by
        have := (List.getLast?_isSome (l := p0 :: p2)).mpr (by simp)
        exact Option.isSome_iff_exists.mp this
      obtain ⟨plast, hplast⟩ := hgl
      have hplastmem : plast ∈ p0 :: p2 := List.mem_of_mem_getLast? hplast
      have hprevplast : nd.prev = some plast := by
        rw [hprev', hplast]
      have hheadp0 : b.head = some p0 := by
        rw [hhead]
        rfl
      have hheadne : b.head ≠ some nid := by
        rw [hheadp0]
        intro hc
        cases hc
        exact hnidpre (by simp)
      have hdel : b.deleteNode nid =
          { nodes := listModify b.nodes plast (fun x => { x with next := nd.next })
            size := b.size - 1
            head := b.head
            tail := some plast } := by
        simp [GoList.deleteNode, hnd, hndE, hheadne, htailnid, hprevplast, hnext']
      refine ⟨b.deleteNode nid, ?_, ?_⟩
      · have hsz : ((b.deleteNode nid).size == 0) = false := by
          rw [hdel]
          simp only [List.length_append, List.length_cons] at hsize
          simp only [hsize]
          simp only [beq_eq_false_iff_ne, ne_eq]
          intro hc
          omega
        unfold GoList.rpop
        simp only [htailnid]
        simp only [hnd]
        simp [helem, hsz]
      · refine ⟨?_, hndpre, ?_, ?_, ?_, ?_⟩
        · intro n hn
          rw [hdel]
          simp only [length_listModify]
          exact hval n (List.mem_append_left _ hn)
        · rw [hdel]
          simp [hheadp0]
        · rw [hdel]
          simp [hplast]
        · rw [hdel]
          simp only [List.length_append, List.length_cons, List.length_nil] at hsize
          simp only [hsize, List.length_cons]
          push_cast
          ring
        · have hF : (b.deleteNode nid).nodes
              = listModify b.nodes plast (fun x => { x with next := none }) := by
            rw [hdel]
            simp only [hnext']
          exact linksOk_drop_last b (b.deleteNode nid) nid plast hF
            (p0 :: p2) none hndpre hplast hlinks

/-- **C10**.  `LPop`/`RPop` are total only on non-empty lists: on a
well-formed list representing the node sequence `ids`,

* if `ids` is empty both operations dereference a nil node
  (`head`/`tail` is `nil`; the model returns `none` for the crash);
* on a non-empty list, `LPop` removes and returns the head element
  (`RPop` the tail element), the returned `error` is `nil`, and the
  boolean flag is `true` exactly when the list became empty
  (the remainder is `[]`) — the new state again represents the remainder. -/
theorem list_lpop_rpop_spec {α : Type} [Inhabited α] (b : GoList α) (ids : List Nat)
    (hrep : Represents b ids) :
    (ids = [] → b.lpop = none ∧ b.rpop = none) ∧
    (∀ nid rest, ids = nid :: rest →
      ∃ b', b.lpop = some (elemOf b nid, rest.isEmpty, none, b') ∧ Represents b' rest) ∧
    (∀ pre nid, ids = pre ++ [nid] →
      ∃ b', b.rpop = some (elemOf b nid, pre.isEmpty, none, b') ∧ Represents b' pre) := by
  refine ⟨?_, ?_, ?_⟩
  · intro hnil
    subst hnil
    have hh : b.head = none := by simpa using hrep.2.2.1
    have ht : b.tail = none := by simpa using hrep.2.2.2.1
    constructor
    · unfold GoList.lpop
      rw [hh]
    · unfold GoList.rpop
      rw [ht]
  · intro nid rest hids
    subst hids
    exact lpop_spec_aux b nid rest hrep
  · intro pre nid hids
    subst hids
    exact rpop_spec_aux b nid pre hrep

/-- Witness for `list_lpop_rpop_spec`: the two-element list built by
`LPush(["x", "y"])` (which appends at the tail), whose node sequence is
`[0, 1]`; `LPop` returns the head element `x` with flag `false`, error
`nil`, and the remaining list represents `[1]`. -/
theorem list_lpop_rpop_spec_witness :
    ∃ b', GoList.lpop (GoList.lpush GoList.newLists ['x', 'y'])
        = some ('x', false, none, b') ∧ Represents b' [1] := by
  have h := (list_lpop_rpop_spec (GoList.lpush GoList.newLists ['x', 'y'])
    [0, 1] (by decide)).2.1 0 [1] rfl
  exact h

/-! ## The sorted set (`internal/datastructures/sortedsets/sortedset.go`)

Skip-list nodes live in an append-only arena; a node pointer is an
`Option Nat` arena index, with `none` standing for the header sentinel
(whose `member`/`score` fields are never read by the algorithm).  The
member type `T` is any linear order (Go: `constraints.Ordered`); `float64`
scores are modelled as `Int` (only `<`/`==` are used on them).  The seeded
`rand.Rand` is modelled by a pre-drawn stream `rnd` of levels: Go's
`randomLevel` always yields a level in `1..32`, so theorems quantify over
all streams with entries in that range (an exhausted stream draws 1). -/

abbrev maxLevel : Nat := 32

structure SLNode (T : Type) where
  member : T
  score : Int
  forward : List (Option Nat)
deriving DecidableEq

structure SortedSet (T : Type) where
  dict : List (T × Nat)
  nodes : List (SLNode T)
  headForward : List (Option Nat)
  level : Nat
  length : Int
  rnd : List Nat
deriving DecidableEq

/-- `NewSortedSet` (sortedset.go:56-63): empty dict, header with
`maxLevel` nil forward pointers, level 1, and a freshly seeded generator
(the pre-drawn stream). -/
def NewSortedSet {T : Type} (rnd : List Nat) : SortedSet T :=
  { dict := []
    nodes := []
    headForward := List.replicate maxLevel none
    level := 1
    length := 0
    rnd := rnd }

def nodeScore {T : Type} (ss : SortedSet T) (n : Nat) : Int :=
  match ss.nodes.get? n with
  | some nd => nd.score
  | none => 0

def nodeMember {T : Type} [Inhabited T] (ss : SortedSet T) (n : Nat) : T :=
  match ss.nodes.get? n with
  | some nd => nd.member
  | none => default

def nodeKey {T : Type} [Inhabited T] (ss : SortedSet T) (n : Nat) : Int × T :=
  (nodeScore ss n, nodeMember ss n)

/-- `x.forward[i]` where `x` is the header (`none`) or a node. -/
def fwd {T : Type} (ss : SortedSet T) (p : Option Nat) (i : Nat) : Option Nat :=
  match p with
  | none => (ss.headForward.get? i).getD none
  | some n =>
      match ss.nodes.get? n with
      | some nd => (nd.forward.get? i).getD none
      | none => none

/-- `x.forward[i] = q`. -/
def setFwd {T : Type} (ss : SortedSet T) (p : Option Nat) (i : Nat) (q : Option Nat) :
    SortedSet T :=
  match p with
  | none => { ss with headForward := ss.headForward.set i q }
  | some n =>
      { ss with nodes := listModify ss.nodes n (fun nd => { nd with forward := nd.forward.set i q }) }

/-- The comparison used throughout the skip list:
`a.score < score || (a.score == score && a.member < member)` —
strict lexicographic order on `(score, member)`. -/
def keyLt {T : Type} [LinearOrder T] (a b : Int × T) : Prop :=
  a.1 < b.1 ∨ (a.1 = b.1 ∧ a.2 < b.2)

instance {T : Type} [LinearOrder T] (a b : Int × T) : Decidable (keyLt a b) := by
  unfold keyLt
  infer_instance

/-- Search fuel: any simple chain visits each arena slot at most once. -/
def fuelOf {T : Type} (ss : SortedSet T) : Nat := ss.nodes.length + 1

/-- The inner `for x.forward[i] != nil && (…) { x = x.forward[i] }` walk of
`insertNode`/`deleteNode`/`findNodeIndex` at one level. -/
def searchLevel {T : Type} [LinearOrder T] [Inhabited T] (ss : SortedSet T)
    (key : Int × T) (i : Nat) : Nat → Option Nat → Option Nat
  | 0, x => x
  | fuel + 1, x =>
      match fwd ss x i with
      | none => x
      | some y => if keyLt (nodeKey ss y) key then searchLevel ss key i fuel (some y) else x

/-- `[n-1, n-2, …, 0]`: the levels in the order the outer search loop
visits them. -/
def downFrom : Nat → List Nat
  | 0 => []
  | n + 1 => n :: downFrom n

/-- Run `searchLevel` over a sequence of levels, threading `x` (the outer
loop of the search). -/
def descend {T : Type} [LinearOrder T] [Inhabited T] (ss : SortedSet T)
    (key : Int × T) : Option Nat → List Nat → Option Nat
  | x, [] => x
  | x, i :: rest => descend ss key (searchLevel ss key i (fuelOf ss) x) rest

/-- `update[i]` of the search in `insertNode`/`deleteNode`: the value of
`x` after walking levels `ss.level - 1, …, i` down from the header.  For
`i ≥ ss.level` this is the header itself, matching `insertNode`'s
`update[i] = ss.header` for newly raised levels. -/
def updAt {T : Type} [LinearOrder T] [Inhabited T] (ss : SortedSet T)
    (key : Int × T) (i : Nat) : Option Nat :=
  descend ss key none ((downFrom ss.level).take (ss.level - i))

/-- `randomLevel` (sortedset.go:66-72): draw the next level from the
stream. -/
def randomLevel {T : Type} (ss : SortedSet T) : Nat × SortedSet T :=
  (ss.rnd.headD 1, { ss with rnd := ss.rnd.tail })

/-- `insertNode` (sortedset.go:195-223). -/
def insertNode {T : Type} [LinearOrder T] [Inhabited T] (ss : SortedSet T)
    (score : Int) (member : T) : SortedSet T :=
  let key := (score, member)
  let upd : Nat → Option Nat := fun i => updAt ss key i
  let drawn := randomLevel ss
  let lvl := drawn.1
  let ss0 := drawn.2
  let nid := ss0.nodes.length
  let ss1 : SortedSet T :=
    { ss0 with
      nodes := ss0.nodes ++ [{ member := member, score := score, forward := List.replicate lvl none }]
      level := max ss0.level lvl }
  let ss2 := (List.range lvl).foldl
    (fun acc i =>
      let f := fwd acc (upd i) i
      setFwd (setFwd acc (some nid) i f) (upd i) i (some nid)) ss1
  { ss2 with dict := ainsert member nid ss2.dict, length := ss2.length + 1 }

/-- The `for ss.level > 1 && ss.header.forward[ss.level-1] == nil` loop of
`deleteNode`. -/
def shrinkLevel {T : Type} (ss : SortedSet T) : Nat → Nat
  | 0 => 0
  | 1 => 1
  | l + 2 => if fwd ss none (l + 1) = none then shrinkLevel ss (l + 1) else l + 2

/-- `deleteNode` (sortedset.go:225-249). -/
def deleteNode {T : Type} [LinearOrder T] [Inhabited T] (ss : SortedSet T)
    (nid : Nat) : SortedSet T :=
  let key := nodeKey ss nid
  let upd : Nat → Option Nat := fun i => updAt ss key i
  let ss2 := (List.range ss.level).foldl
    (fun acc i =>
      if fwd acc (upd i) i = some nid then setFwd acc (upd i) i (fwd acc (some nid) i)
      else acc) ss
  let ss3 := { ss2 with level := shrinkLevel ss2 ss2.level }
  { ss3 with dict := aerase (nodeMember ss nid) ss3.dict, length := ss3.length - 1 }

/-- `ZAdd` (sortedset.go:75-94).  The Go argument is a map; its iteration
order is modelled by quantifying over the list of pairs. -/
def ZAdd {T : Type} [LinearOrder T] [Inhabited T] (ss : SortedSet T)
    (memberScores : List (T × Int)) : SortedSet T × Nat :=
  memberScores.foldl
    (fun acc p =>
      match alookup p.1 acc.1.dict with
      | some nid =>
          if nodeScore acc.1 nid ≠ p.2 then
            (insertNode (deleteNode acc.1 nid) p.2 p.1, acc.2)
          else acc
      | none => (insertNode acc.1 p.2 p.1, acc.2 + 1))
    (ss, 0)

/-- `ZRem` (sortedset.go:97-110). -/
def ZRem {T : Type} [LinearOrder T] [Inhabited T] (ss : SortedSet T)
    (members : List T) : SortedSet T × Nat :=
  members.foldl
    (fun acc m =>
      match alookup m acc.1.dict with
      | some nid => (deleteNode acc.1 nid, acc.2 + 1)
      | none => acc)
    (ss, 0)

/-- `ZScore` (sortedset.go:113-122). -/
def ZScore {T : Type} [LinearOrder T] [Inhabited T] (ss : SortedSet T)
    (member : T) : Int × Bool :=
  match alookup member ss.dict with
  | none => (0, false)
  | some nid => (nodeScore ss nid, true)

/-- The walk of `findNodeIndex`, counting only the moves taken at level 0
(`if i == 0 { rank++ }`). -/
def searchLevelSteps {T : Type} [LinearOrder T] [Inhabited T] (ss : SortedSet T)
    (key : Int × T) (i : Nat) : Nat → Option Nat → Nat → Option Nat × Nat
  | 0, x, c => (x, c)
  | fuel + 1, x, c =>
      match fwd ss x i with
      | none => (x, c)
      | some y =>
          if keyLt (nodeKey ss y) key then searchLevelSteps ss key i fuel (some y) (c + 1)
          else (x, c)

/-- `findNodeIndex` (sortedset.go:251-276): descend to level 0 (the walks
at levels `ss.level-1 … 1` do not touch `rank`), then count level-0 moves;
`-1` when the landing position's successor is not the node. -/
def findNodeIndex {T : Type} [LinearOrder T] [Inhabited T] (ss : SortedSet T)
    (nid : Nat) : Int :=
  let key := nodeKey ss nid
  let x0 := updAt ss key 1
  let res := searchLevelSteps ss key 0 (fuelOf ss) x0 0
  if fwd ss res.1 0 = some nid then (res.2 : Int) else -1

/-- `ZRank` (sortedset.go:125-140). -/
def ZRank {T : Type} [LinearOrder T] [Inhabited T] (ss : SortedSet T)
    (member : T) : Int × Bool :=
  match alookup member ss.dict with
  | none => (0, false)
  | some nid =>
      let index := findNodeIndex ss nid
      if index = -1 then (0, false) else (index, true)

/-- `ZRevRank` (sortedset.go:176-193): `revRank = ss.length - index - 1`. -/
def ZRevRank {T : Type} [LinearOrder T] [Inhabited T] (ss : SortedSet T)
    (member : T) : Int × Bool :=
  match alookup member ss.dict with
  | none => (0, false)
  | some nid =>
      let index := findNodeIndex ss nid
      if index = -1 then (0, false) else (ss.length - index - 1, true)

/-- `ZCard` (sortedset.go:168-173). -/
def ZCard {T : Type} (ss : SortedSet T) : Int := ss.length

/-- `adjustRangeIndices` (sortedset.go:278-292). -/
def adjustRangeIndices (start stop length : Int) : Int × Int :=
  let start1 := if start < 0 then length + start else start
  let stop1 := if stop < 0 then length + stop else stop
  let start2 := if start1 < 0 then 0 else start1
  let stop2 := if stop1 ≥ length then length - 1 else stop1
  (start2, stop2)

/-- The `for i := 0; x != nil && i <= stop; i++` collection loop of
`ZRange`; `[]interface{}` mixing members and scores is `List (T ⊕ Int)`. -/
def zrangeLoop {T : Type} [Inhabited T] (ss : SortedSet T) (start stop : Int)
    (withScores : Bool) : Nat → Option Nat → Int → List (T ⊕ Int)
  | 0, _, _ => []
  | fuel + 1, x, i =>
      match x with
      | none => []
      | some nid =>
          if i ≤ stop then
            (if start ≤ i then
              Sum.inl (nodeMember ss nid) ::
                (if withScores then [Sum.inr (nodeScore ss nid)] else [])
            else []) ++ zrangeLoop ss start stop withScores fuel (fwd ss (some nid) 0) (i + 1)
          else []

/-- `ZRange` (sortedset.go:143-165). -/
def ZRange {T : Type} [LinearOrder T] [Inhabited T] (ss : SortedSet T)
    (start stop : Int) (withScores : Bool) : List (T ⊕ Int) :=
  let p := adjustRangeIndices start stop ss.length
  if p.1 > p.2 ∨ p.1 ≥ ss.length then []
  else zrangeLoop ss p.1 p.2 withScores (fuelOf ss) (fwd ss none 0) 0

/-- One command against the sorted set: the claims quantify over arbitrary
sequences of `ZAdd`/`ZRem` calls. -/
inductive SSOp (T : Type) where
  | add (pairs : List (T × Int)) : SSOp T
  | rem (members : List T) : SSOp T

def applyOp {T : Type} [LinearOrder T] [Inhabited T] (ss : SortedSet T) :
    SSOp T → SortedSet T
  | SSOp.add pairs => (ZAdd ss pairs).1
  | SSOp.rem members => (ZRem ss members).1

def applyOps {T : Type} [LinearOrder T] [Inhabited T] (ss : SortedSet T)
    (ops : List (SSOp T)) : SortedSet T :=
  ops.foldl applyOp ss

/-- The level-`i` pointer chain starting below `x` (the in-order traversal
when `i = 0` and `x` is the header). -/
def chainFrom {T : Type} (ss : SortedSet T) (i : Nat) : Nat → Option Nat → List Nat
  | 0, _ => []
  | fuel + 1, x =>
      match fwd ss x i with
      | none => []
      | some y => y :: chainFrom ss i fuel (some y)

/-- The level-`i` traversal from the header. -/
def chain {T : Type} (ss : SortedSet T) (i : Nat) : List Nat :=
  chainFrom ss i (fuelOf ss) none

/-! ### Order facts about the skip-list key comparison -/

theorem keyLt_irrefl {T : Type} [LinearOrder T] (a : Int × T) : ¬ keyLt a a := by
  rintro (h | ⟨_, h⟩) <;> exact lt_irrefl _ h

theorem keyLt_trans {T : Type} [LinearOrder T] {a b c : Int × T}
    (h1 : keyLt a b) (h2 : keyLt b c) : keyLt a c := by
  rcases h1 with h1 | ⟨h1e, h1m⟩ <;> rcases h2 with h2 | ⟨h2e, h2m⟩
  · exact Or.inl (lt_trans h1 h2)
  · exact Or.inl (h2e ▸ h1)
  · exact Or.inl (h1e ▸ h2)
  · exact Or.inr ⟨h1e.trans h2e, lt_trans h1m h2m⟩

theorem keyLt_ne {T : Type} [LinearOrder T] {a b : Int × T} (h : keyLt a b) : a ≠ b := by
  intro hc
  subst hc
  exact keyLt_irrefl a h

theorem keyLt_total {T : Type} [LinearOrder T] {a b : Int × T}
    (h1 : ¬ keyLt a b) (h2 : a ≠ b) : keyLt b a := by
  rcases lt_trichotomy a.1 b.1 with hs | hs | hs
  · exact absurd (Or.inl hs) h1
  · rcases lt_trichotomy a.2 b.2 with hm | hm | hm
    · exact absurd (Or.inr ⟨hs, hm⟩) h1
    · exact absurd (Prod.ext hs hm) h2
    · exact Or.inr ⟨hs.symm, hm⟩
  · exact Or.inl hs

theorem keyLt_asymm {T : Type} [LinearOrder T] {a b : Int × T}
    (h : keyLt a b) : ¬ keyLt b a := by
  intro h2
  exact keyLt_irrefl a (keyLt_trans h h2)

/-! ### Frame lemmas for `setFwd` -/

/-- The number of forward pointers a node participates in
(`len(node.forward)`, the node's level). -/
def nodeLevel {T : Type} (ss : SortedSet T) (n : Nat) : Nat :=
  match ss.nodes.get? n with
  | some nd => nd.forward.length
  | none => 0

theorem setFwd_nodes_length {T : Type} (ss : SortedSet T) (p : Option Nat) (i : Nat)
    (q : Option Nat) : (setFwd ss p i q).nodes.length = ss.nodes.length := by
  cases p with
  | none => rfl
  | some n => simp [setFwd, length_listModify]

theorem setFwd_headForward_length {T : Type} (ss : SortedSet T) (p : Option Nat) (i : Nat)
    (q : Option Nat) : (setFwd ss p i q).headForward.length = ss.headForward.length := by
  cases p with
  | none => simp [setFwd]
  | some n => rfl

theorem setFwd_dict {T : Type} (ss : SortedSet T) (p : Option Nat) (i : Nat)
    (q : Option Nat) : (setFwd ss p i q).dict = ss.dict := by
  cases p <;> rfl

theorem setFwd_level {T : Type} (ss : SortedSet T) (p : Option Nat) (i : Nat)
    (q : Option Nat) : (setFwd ss p i q).level = ss.level := by
  cases p <;> rfl

theorem setFwd_length {T : Type} (ss : SortedSet T) (p : Option Nat) (i : Nat)
    (q : Option Nat) : (setFwd ss p i q).length = ss.length := by
  cases p <;> rfl

theorem setFwd_rnd {T : Type} (ss : SortedSet T) (p : Option Nat) (i : Nat)
    (q : Option Nat) : (setFwd ss p i q).rnd = ss.rnd := by
  cases p <;> rfl

theorem get_set_self {α : Type} (l : List α) (i : Nat) (a : α) (h : i < l.length) :
    (l.set i a).get? i = some a := by
  rw [List.get?_set_eq]
  rw [List.get?_eq_get h]
  rfl

theorem get_set_other {α : Type} (l : List α) {i j : Nat} (a : α) (h : j ≠ i) :
    (l.set i a).get? j = l.get? j :=
  List.get?_set_ne _ _ (Ne.symm h)

theorem get_nodes_setFwd_other {T : Type} (ss : SortedSet T) (p : Option Nat) (i : Nat)
    (q : Option Nat) (n : Nat) (h : p ≠ some n) :
    (setFwd ss p i q).nodes.get? n = ss.nodes.get? n := by
  cases p with
  | none => rfl
  | some m =>
      have hnm : n ≠ m := fun hc => h (by rw [hc])
      simp only [setFwd]
      exact get_eq_listModify_ne _ _ hnm

theorem nodeScore_setFwd {T : Type} (ss : SortedSet T) (p : Option Nat) (i : Nat)
    (q : Option Nat) (n : Nat) : nodeScore (setFwd ss p i q) n = nodeScore ss n := by
  cases p with
  | none => rfl
  | some m =>
      unfold nodeScore
      simp only [setFwd]
      by_cases hnm : n = m
      · subst hnm
        rw [get_eq_listModify_self]
        cases ss.nodes.get? n <;> rfl
      · rw [get_eq_listModify_ne _ _ hnm]

theorem nodeMember_setFwd {T : Type} [Inhabited T] (ss : SortedSet T) (p : Option Nat)
    (i : Nat) (q : Option Nat) (n : Nat) :
    nodeMember (setFwd ss p i q) n = nodeMember ss n := by
  cases p with
  | none => rfl
  | some m =>
      unfold nodeMember
      simp only [setFwd]
      by_cases hnm : n = m
      · subst hnm
        rw [get_eq_listModify_self]
        cases ss.nodes.get? n <;> rfl
      · rw [get_eq_listModify_ne _ _ hnm]

theorem nodeKey_setFwd {T : Type} [Inhabited T] (ss : SortedSet T) (p : Option Nat)
    (i : Nat) (q : Option Nat) (n : Nat) :
    nodeKey (setFwd ss p i q) n = nodeKey ss n := by
  unfold nodeKey
  rw [nodeScore_setFwd, nodeMember_setFwd]

theorem nodeLevel_setFwd {T : Type} (ss : SortedSet T) (p : Option Nat) (i : Nat)
    (q : Option Nat) (n : Nat) : nodeLevel (setFwd ss p i q) n = nodeLevel ss n := by
  cases p with
  | none => rfl
  | some m =>
      unfold nodeLevel
      simp only [setFwd]
      by_cases hnm : n = m
      · subst hnm
        rw [get_eq_listModify_self]
        cases ss.nodes.get? n with
        | none => rfl
        | some nd =>
            show (nd.forward.set i q).length = nd.forward.length
            exact List.length_set _ _ _
      · rw [get_eq_listModify_ne _ _ hnm]

/-- Writing slot `(p, i)` does not change any other slot `(p', i')`. -/
theorem fwd_setFwd_other {T : Type} (ss : SortedSet T) {p p' : Option Nat} {i i' : Nat}
    (q : Option Nat) (h : p' ≠ p ∨ i' ≠ i) :
    fwd (setFwd ss p i q) p' i' = fwd ss p' i' := by
  cases p with
  | none =>
      cases p' with
      | none =>
          have hii : i' ≠ i := by
            rcases h with h | h
            · exact absurd rfl h
            · exact h
          simp only [fwd, setFwd]
          rw [get_set_other _ _ hii]
      | some n => rfl
  | some m =>
      cases p' with
      | none => rfl
      | some n =>
          by_cases hnm : n = m
          · subst hnm
            have hii : i' ≠ i := by
              rcases h with h | h
              · exact absurd rfl h
              · exact h
            simp only [fwd, setFwd]
            rw [get_eq_listModify_self]
            cases hb : ss.nodes.get? n with
            | none => rfl
            | some nd =>
                show ((nd.forward.set i q).get? i').getD none = (nd.forward.get? i').getD none
                rw [get_set_other _ _ hii]
          · simp only [fwd, setFwd]
            rw [get_eq_listModify_ne _ _ hnm]

/-- Writing slot `(p, i)` in range makes `fwd` read back the written
value. -/
theorem fwd_setFwd_self {T : Type} (ss : SortedSet T) (p : Option Nat) (i : Nat)
    (q : Option Nat)
    (hin : match p with
      | none => i < ss.headForward.length
      | some n => n < ss.nodes.length ∧ i < nodeLevel ss n) :
    fwd (setFwd ss p i q) p i = q := by
  cases p with
  | none =>
      simp only [fwd, setFwd]
      rw [get_set_self _ _ _ hin]
      rfl
  | some n =>
      obtain ⟨hn, hi⟩ := hin
      simp only [fwd, setFwd]
      rw [get_eq_listModify_self]
      have hg : ss.nodes.get? n = some (ss.nodes.get ⟨n, hn⟩) := List.get?_eq_get hn
      rw [hg]
      unfold nodeLevel at hi
      rw [hg] at hi
      show (((ss.nodes.get ⟨n, hn⟩).forward.set i q).get? i).getD none = q
      rw [get_set_self _ _ _ hi]
      rfl

/-! ### Chain segments

`Seg ss i x l z`: starting at pointer `x`, following `forward[i]` visits
exactly the nodes `l` and ends at pointer `z` (the last visited node, or
`x` itself when `l = []`).  `NodeChain ss i x l` additionally requires the
walk to terminate (`fwd z i = none`); `NodeChain ss i none l` says the full
level-`i` list from the header is `l`. -/

inductive Seg {T : Type} (ss : SortedSet T) (i : Nat) :
    Option Nat → List Nat → Option Nat → Prop
  | nil {x : Option Nat} : Seg ss i x [] x
  | cons {x : Option Nat} {y : Nat} {l : List Nat} {z : Option Nat} :
      fwd ss x i = some y → Seg ss i (some y) l z → Seg ss i x (y :: l) z

def NodeChain {T : Type} (ss : SortedSet T) (i : Nat) (x : Option Nat) (l : List Nat) : Prop :=
  ∃ z, Seg ss i x l z ∧ fwd ss z i = none

def ptrAfter (x : Option Nat) (l : List Nat) : Option Nat :=
  match l.getLast? with
  | none => x
  | some a => some a

theorem ptrAfter_nil (x : Option Nat) : ptrAfter x [] = x := rfl

theorem ptrAfter_cons (x : Option Nat) (y : Nat) (l : List Nat) :
    ptrAfter x (y :: l) = ptrAfter (some y) l := by
  unfold ptrAfter
  cases hl : l with
  | nil => rfl
  | cons c cs =>
      rw [List.getLast?_cons_cons]
      cases hgl : (c :: cs).getLast? with
      | none => simp at hgl
      | some a => rfl

theorem ptrAfter_append (x : Option Nat) (l1 l2 : List Nat) :
    ptrAfter x (l1 ++ l2) = ptrAfter (ptrAfter x l1) l2 := by
  induction l1 generalizing x with
  | nil => rfl
  | cons y l ih =>
      rw [List.cons_append, ptrAfter_cons, ptrAfter_cons]
      exact ih (some y)

theorem seg_nil_inv {T : Type} {ss : SortedSet T} {i : Nat} {x z : Option Nat}
    (h : Seg ss i x [] z) : z = x := by
  cases h
  rfl

theorem seg_cons_inv {T : Type} {ss : SortedSet T} {i : Nat} {x z : Option Nat}
    {y : Nat} {l : List Nat} (h : Seg ss i x (y :: l) z) :
    fwd ss x i = some y ∧ Seg ss i (some y) l z := by
  cases h with
  | cons hf hs => exact ⟨hf, hs⟩

theorem seg_last {T : Type} {ss : SortedSet T} {i : Nat} :
    ∀ {l : List Nat} {x z : Option Nat}, Seg ss i x l z → z = ptrAfter x l := by
  intro l
  induction l with
  | nil =>
      intro x z h
      rw [seg_nil_inv h, ptrAfter_nil]
  | cons y l2 ih =>
      intro x z h
      rcases seg_cons_inv h with ⟨_, hs⟩
      rw [ptrAfter_cons]
      exact ih hs

theorem seg_append {T : Type} {ss : SortedSet T} {i : Nat} :
    ∀ {l1 l2 : List Nat} {x y z : Option Nat},
      Seg ss i x l1 y → Seg ss i y l2 z → Seg ss i x (l1 ++ l2) z := by
  intro l1
  induction l1 with
  | nil =>
      intro l2 x y z h1 h2
      rw [seg_nil_inv h1] at h2
      exact h2
  | cons a l ih =>
      intro l2 x y z h1 h2
      rcases seg_cons_inv h1 with ⟨hf, hs⟩
      exact Seg.cons hf (ih hs h2)

theorem seg_split {T : Type} {ss : SortedSet T} {i : Nat} :
    ∀ {l1 l2 : List Nat} {x z : Option Nat},
      Seg ss i x (l1 ++ l2) z → ∃ y, Seg ss i x l1 y ∧ Seg ss i y l2 z := by
  intro l1
  induction l1 with
  | nil =>
      intro l2 x z h
      exact ⟨x, Seg.nil, h⟩
  | cons a l ih =>
      intro l2 x z h
      rcases seg_cons_inv h with ⟨hf, hs⟩
      rcases ih hs with ⟨y, hy1, hy2⟩
      exact ⟨y, Seg.cons hf hy1, hy2⟩

theorem seg_mem_valid {T : Type} {ss : SortedSet T} {i : Nat} :
    ∀ {l : List Nat} {x z : Option Nat}, Seg ss i x l z →
      ∀ n ∈ l, ∃ p, fwd ss p i = some n := by
  intro l
  induction l with
  | nil => intro x z _ n hn; simp at hn
  | cons a l2 ih =>
      intro x z h n hn
      rcases seg_cons_inv h with ⟨hf, hs⟩
      rcases List.mem_cons.mp hn with hn | hn
      · exact ⟨x, hn ▸ hf⟩
      · exact ih hs n hn

theorem isChain_determ {T : Type} {ss : SortedSet T} {i : Nat} :
    ∀ {l l' : List Nat} {x : Option Nat},
      NodeChain ss i x l → NodeChain ss i x l' → l = l' := by
  intro l
  induction l with
  | nil =>
      intro l' x ⟨z, hs, hz⟩ ⟨z', hs', hz'⟩
      rw [seg_nil_inv hs] at hz
      cases l' with
      | nil => rfl
      | cons a l2 =>
          rcases seg_cons_inv hs' with ⟨hf, _⟩
          rw [hz] at hf
          cases hf
  | cons a l2 ih =>
      intro l' x ⟨z, hs, hz⟩ ⟨z', hs', hz'⟩
      rcases seg_cons_inv hs with ⟨hf, hrest⟩
      cases l' with
      | nil =>
          rw [seg_nil_inv hs'] at hz'
          rw [hz'] at hf
          cases hf
      | cons b l2' =>
          rcases seg_cons_inv hs' with ⟨hf', hrest'⟩
          rw [hf] at hf'
          cases hf'
          rw [ih ⟨z, hrest, hz⟩ ⟨z', hrest', hz'⟩]

theorem chainFrom_eq_of_isChain {T : Type} {ss : SortedSet T} {i : Nat} :
    ∀ {l : List Nat} {x : Option Nat} {fuel : Nat},
      NodeChain ss i x l → l.length < fuel → chainFrom ss i fuel x = l := by
  intro l
  induction l with
  | nil =>
      intro x fuel ⟨z, hs, hz⟩ hfuel
      rw [seg_nil_inv hs] at hz
      cases fuel with
      | zero => omega
      | succ f =>
          unfold chainFrom
          rw [hz]
  | cons a l2 ih =>
      intro x fuel ⟨z, hs, hz⟩ hfuel
      rcases seg_cons_inv hs with ⟨hf, hrest⟩
      cases fuel with
      | zero => simp at hfuel
      | succ f =>
          unfold chainFrom
          rw [hf]
          have hl2 : chainFrom ss i f (some a) = l2 := by
            apply ih ⟨z, hrest, hz⟩
            simp at hfuel
            omega
          show a :: chainFrom ss i f (some a) = a :: l2
          rw [hl2]

/-- Transfer a segment to a state whose level-`i` pointers agree at every
pointer the walk reads (the start and every visited node except the
last). -/
theorem seg_congr {T : Type} {S ss : SortedSet T} {i : Nat} :
    ∀ {l : List Nat} {x z : Option Nat}, Seg ss i x l z → l.Nodup →
      fwd S x i = fwd ss x i →
      (∀ n ∈ l, some n ≠ z → fwd S (some n) i = fwd ss (some n) i) →
      Seg S i x l z := by
  intro l
  induction l with
  | nil =>
      intro x z h _ _ _
      rw [seg_nil_inv h]
      exact Seg.nil
  | cons y l2 ih =>
      intro x z h hnd hx hmid
      rcases seg_cons_inv h with ⟨hf, hs⟩
      refine Seg.cons (by rw [hx, hf]) ?_
      cases hl2 : l2 with
      | nil =>
          subst hl2
          rw [seg_nil_inv hs]
          exact Seg.nil
      | cons c cs =>
          subst hl2
          have hzlast : z = some ((c :: cs).getLast (by simp)) := by
            rw [seg_last hs]
            unfold ptrAfter
            rw [List.getLast?_eq_getLast (c :: cs) (by simp)]
          have hymem : y ∉ c :: cs := (List.nodup_cons.mp hnd).1
          have hyne : some y ≠ z := by
            rw [hzlast]
            intro hc
            cases hc
            exact hymem (List.getLast_mem _)
          refine ih hs (List.nodup_cons.mp hnd).2 ?_ ?_
          · exact hmid y (by simp) hyne
          · intro n hn hnz
            exact hmid n (List.mem_cons_of_mem _ hn) hnz

/-! ### Search correctness -/

/-- "strictly below the search key", as the skip-list comparison decides
it. -/
def keyPred {T : Type} [LinearOrder T] [Inhabited T] (ss : SortedSet T)
    (key : Int × T) : Nat → Bool :=
  fun n => decide (keyLt (nodeKey ss n) key)

theorem takeWhile_append_sat {α : Type} (p : α → Bool) :
    ∀ (l1 l2 : List α), (∀ a ∈ l1, p a = true) →
      List.takeWhile p (l1 ++ l2) = l1 ++ List.takeWhile p l2 := by
  intro l1
  induction l1 with
  | nil => intro l2 _; rfl
  | cons a l ih =>
      intro l2 hsat
      rw [List.cons_append, List.takeWhile_cons, hsat a (by simp)]
      rw [ih l2 (fun b hb => hsat b (by simp [hb]))]
      rfl

theorem nodup_bounded_length {l : List Nat} {N : Nat} (hnd : l.Nodup)
    (hb : ∀ n ∈ l, n < N) : l.length ≤ N := by
  have h1 : l.toFinset.card = l.length := List.toFinset_card_of_nodup hnd
  have h2 : l.toFinset ⊆ Finset.range N := by
    intro a ha
    rw [List.mem_toFinset] at ha
    rw [Finset.mem_range]
    exact hb a ha
  have := Finset.card_le_card h2
  rw [h1, Finset.card_range] at this
  exact this

/-- The one-level walk from `x` along the chain `B` lands on the last node
of `B` that is strictly below the key (or stays at `x`). -/
theorem searchLevel_eq {T : Type} [LinearOrder T] [Inhabited T] (ss : SortedSet T)
    (key : Int × T) (i : Nat) :
    ∀ (B : List Nat) (x : Option Nat) (fuel : Nat),
      NodeChain ss i x B → B.length < fuel →
      searchLevel ss key i fuel x = ptrAfter x (B.takeWhile (keyPred ss key)) := by
  intro B
  induction B with
  | nil =>
      intro x fuel ⟨z, hs, hz⟩ hfuel
      rw [seg_nil_inv hs] at hz
      cases fuel with
      | zero => omega
      | succ f =>
          unfold searchLevel
          rw [hz]
          rfl
  | cons y B2 ih =>
      intro x fuel ⟨z, hs, hz⟩ hfuel
      rcases seg_cons_inv hs with ⟨hf, hrest⟩
      cases fuel with
      | zero => simp at hfuel
      | succ f =>
          unfold searchLevel
          rw [hf]
          show (if keyLt (nodeKey ss y) key then searchLevel ss key i f (some y) else x)
            = ptrAfter x (List.takeWhile (keyPred ss key) (y :: B2))
          by_cases hp : keyLt (nodeKey ss y) key
          · rw [if_pos hp]
            have hstep : searchLevel ss key i f (some y)
                = ptrAfter (some y) (B2.takeWhile (keyPred ss key)) := by
              apply ih (some y) f ⟨z, hrest, hz⟩
              simp at hfuel
              omega
            rw [hstep, List.takeWhile_cons]
            have hpt : keyPred ss key y = true := by
              unfold keyPred
              exact decide_eq_true hp
            rw [hpt]
            simp [ptrAfter_cons]
          · rw [if_neg hp, List.takeWhile_cons]
            have hpf : keyPred ss key y = false := by
              unfold keyPred
              exact decide_eq_false hp
            rw [hpf]
            simp [ptrAfter_nil]

theorem searchLevelSteps_fst {T : Type} [LinearOrder T] [Inhabited T] (ss : SortedSet T)
    (key : Int × T) (i : Nat) :
    ∀ (fuel : Nat) (x : Option Nat) (c : Nat),
      (searchLevelSteps ss key i fuel x c).1 = searchLevel ss key i fuel x := by
  intro fuel
  induction fuel with
  | zero => intro x c; rfl
  | succ f ih =>
      intro x c
      unfold searchLevelSteps searchLevel
      cases hf : fwd ss x i with
      | none => rfl
      | some y =>
          show (if keyLt (nodeKey ss y) key
              then searchLevelSteps ss key i f (some y) (c + 1) else (x, c)).1
            = (if keyLt (nodeKey ss y) key then searchLevel ss key i f (some y) else x)
          by_cases hp : keyLt (nodeKey ss y) key
          · rw [if_pos hp, if_pos hp]
            exact ih (some y) (c + 1)
          · rw [if_neg hp, if_neg hp]

theorem descend_append {T : Type} [LinearOrder T] [Inhabited T] (ss : SortedSet T)
    (key : Int × T) :
    ∀ (l1 l2 : List Nat) (x : Option Nat),
      descend ss key x (l1 ++ l2) = descend ss key (descend ss key x l1) l2 := by
  intro l1
  induction l1 with
  | nil => intro l2 x; rfl
  | cons i l ih =>
      intro l2 x
      rw [List.cons_append]
      show descend ss key (searchLevel ss key i (fuelOf ss) x) (l ++ l2)
        = descend ss key (descend ss key (searchLevel ss key i (fuelOf ss) x) l) l2
      exact ih l2 _

theorem downFrom_length : ∀ n : Nat, (downFrom n).length = n := by
  intro n
  induction n with
  | zero => rfl
  | succ m ih => simp [downFrom, ih]

theorem downFrom_take_succ : ∀ (n i : Nat), i < n →
    (downFrom n).take (n - i) = (downFrom n).take (n - (i + 1)) ++ [i] := by
  intro n
  induction n with
  | zero => intro i h; omega
  | succ m ih =>
      intro i h
      by_cases him : i = m
      · subst him
        have e1 : i + 1 - i = 1 := by omega
        have e2 : i + 1 - (i + 1) = 0 := by omega
        rw [e1, e2]
        show (i :: downFrom i).take 1 = (i :: downFrom i).take 0 ++ [i]
        rfl
      · have hilt : i < m := by omega
        have e1 : m + 1 - i = (m - i) + 1 := by omega
        have e2 : m + 1 - (i + 1) = (m - (i + 1)) + 1 := by omega
        rw [e1, e2]
        show (m :: downFrom m).take ((m - i) + 1)
          = (m :: downFrom m).take ((m - (i + 1)) + 1) ++ [i]
        rw [List.take_succ_cons, List.take_succ_cons]
        rw [ih i hilt]
        rw [List.cons_append]

theorem updAt_above {T : Type} [LinearOrder T] [Inhabited T] (ss : SortedSet T)
    (key : Int × T) (i : Nat) (hi : ss.level ≤ i) : updAt ss key i = none := by
  unfold updAt
  have : ss.level - i = 0 := by omega
  rw [this]
  rfl

theorem updAt_top {T : Type} [LinearOrder T] [Inhabited T] (ss : SortedSet T)
    (key : Int × T) (hlevel : 1 ≤ ss.level) :
    updAt ss key (ss.level - 1)
      = searchLevel ss key (ss.level - 1) (fuelOf ss) none := by
  unfold updAt
  have e1 : ss.level - (ss.level - 1) = 1 := by omega
  rw [e1]
  obtain ⟨m, hm⟩ : ∃ m, ss.level = m + 1 := ⟨ss.level - 1, by omega⟩
  rw [hm]
  have e2 : m + 1 - 1 = m := by omega
  rw [e2]
  show descend ss key (searchLevel ss key m (fuelOf ss) none) [] = _
  rfl

theorem updAt_step {T : Type} [LinearOrder T] [Inhabited T] (ss : SortedSet T)
    (key : Int × T) (i : Nat) (hi : i + 1 < ss.level) :
    updAt ss key i = searchLevel ss key i (fuelOf ss) (updAt ss key (i + 1)) := by
  unfold updAt
  rw [downFrom_take_succ ss.level i (by omega)]
  rw [descend_append]
  show descend ss key (searchLevel ss key i (fuelOf ss) _) [] = _
  rfl

/-! ### The well-formedness invariant -/

/-- One level of the skip list is a terminated chain from the header,
strictly ascending in `(score, member)`, through valid arena slots each
participating in this level. -/
def ChainOk {T : Type} [LinearOrder T] [Inhabited T] (ss : SortedSet T)
    (i : Nat) (l : List Nat) : Prop :=
  NodeChain ss i none l ∧
  l.Pairwise (fun a b => keyLt (nodeKey ss a) (nodeKey ss b)) ∧
  (∀ n ∈ l, n < ss.nodes.length ∧ i < nodeLevel ss n)

/-- The member index and the level-0 list agree. -/
def DictOk {T : Type} [LinearOrder T] [Inhabited T] (ss : SortedSet T)
    (l0 : List Nat) : Prop :=
  (ss.dict.map Prod.fst).Nodup ∧
  (∀ n ∈ l0, alookup (nodeMember ss n) ss.dict = some n) ∧
  (∀ m nid, alookup m ss.dict = some nid → nid ∈ l0 ∧ nodeMember ss nid = m)

/-- Well-formedness of the sorted set, witnessed by the per-level node
lists `ls` (`ls 0` is the level-0 in-order traversal). -/
structure WfAux {T : Type} [LinearOrder T] [Inhabited T] (ss : SortedSet T)
    (ls : Nat → List Nat) : Prop where
  levelPos : 1 ≤ ss.level
  levelLe : ss.level ≤ maxLevel
  headLen : ss.headForward.length = maxLevel
  rndOk : ∀ lv ∈ ss.rnd, 1 ≤ lv ∧ lv ≤ maxLevel
  headAbove : ∀ i, ss.level ≤ i → fwd ss none i = none
  chainsOk : ∀ i, i < ss.level → ChainOk ss i (ls i)
  subChain : ∀ i, i + 1 < ss.level → ∀ n, n ∈ ls (i + 1) → n ∈ ls i
  lengthEq : ss.length = (((ls 0).length : Nat) : Int)
  dictOk : DictOk ss (ls 0)

def Wf {T : Type} [LinearOrder T] [Inhabited T] (ss : SortedSet T) : Prop :=
  ∃ ls, WfAux ss ls

theorem chainOk_nodup {T : Type} [LinearOrder T] [Inhabited T] {ss : SortedSet T}
    {i : Nat} {l : List Nat} (h : ChainOk ss i l) : l.Nodup := by
  apply List.Pairwise.imp ?_ h.2.1
  intro a b hab hcon
  subst hcon
  exact keyLt_irrefl _ hab

theorem chain_eq_of_chainOk {T : Type} [LinearOrder T] [Inhabited T] {ss : SortedSet T}
    {i : Nat} {l : List Nat} (h : ChainOk ss i l) : chain ss i = l := by
  unfold chain
  apply chainFrom_eq_of_isChain h.1
  have hlen : l.length ≤ ss.nodes.length :=
    nodup_bounded_length (chainOk_nodup h) (fun n hn => (h.2.2 n hn).1)
  unfold fuelOf
  omega

theorem ls_subset_zero {T : Type} [LinearOrder T] [Inhabited T] {ss : SortedSet T}
    {ls : Nat → List Nat} (W : WfAux ss ls) :
    ∀ i, i < ss.level → ∀ n, n ∈ ls i → n ∈ ls 0 := by
  intro i
  induction i with
  | zero => intro _ n hn; exact hn
  | succ j ih =>
      intro hi n hn
      exact ih (by omega) n (W.subChain j hi n hn)

theorem member_inj_on_l0 {T : Type} [LinearOrder T] [Inhabited T] {ss : SortedSet T}
    {ls : Nat → List Nat} (W : WfAux ss ls) :
    ∀ a ∈ ls 0, ∀ b ∈ ls 0, nodeMember ss a = nodeMember ss b → a = b := by
  intro a ha b hb hm
  have h1 := W.dictOk.2.1 a ha
  have h2 := W.dictOk.2.1 b hb
  rw [hm] at h1
  rw [h1] at h2
  exact (Option.some.injEq _ _).mp h2

theorem key_inj_on_l0 {T : Type} [LinearOrder T] [Inhabited T] {ss : SortedSet T}
    {ls : Nat → List Nat} (W : WfAux ss ls) :
    ∀ a ∈ ls 0, ∀ b ∈ ls 0, nodeKey ss a = nodeKey ss b → a = b := by
  intro a ha b hb hk
  apply member_inj_on_l0 W a ha b hb
  have := congrArg Prod.snd hk
  exact this

theorem members_l0_nodup {T : Type} [LinearOrder T] [Inhabited T] {ss : SortedSet T}
    {ls : Nat → List Nat} (W : WfAux ss ls) :
    ((ls 0).map (nodeMember ss)).Nodup := by
  have hnd : (ls 0).Nodup := chainOk_nodup (W.chainsOk 0 (by have := W.levelPos; omega))
  rw [List.nodup_map_iff_inj_on hnd]
  exact member_inj_on_l0 W

theorem chainOk_len_lt_fuel {T : Type} [LinearOrder T] [Inhabited T] {ss : SortedSet T}
    {i : Nat} {l : List Nat} (h : ChainOk ss i l) : l.length < fuelOf ss := by
  have := nodup_bounded_length (chainOk_nodup h) (fun n hn => (h.2.2 n hn).1)
  unfold fuelOf
  omega

/-- Walking one level from any position that is a `< key` node of that
level's chain (or the header) lands on the level's true predecessor of
`key`. -/
theorem walk_compose {T : Type} [LinearOrder T] [Inhabited T] {ss : SortedSet T}
    {i : Nat} {li : List Nat} (hok : ChainOk ss i li) (key : Int × T)
    {x : Option Nat}
    (hx : x = none ∨ ∃ q, x = some q ∧ q ∈ li ∧ keyLt (nodeKey ss q) key) :
    searchLevel ss key i (fuelOf ss) x
      = ptrAfter none (li.takeWhile (keyPred ss key)) := by
  rcases hx with hx | ⟨q, hxq, hqmem, hqlt⟩
  · subst hx
    exact searchLevel_eq ss key i li none (fuelOf ss) hok.1 (chainOk_len_lt_fuel hok)
  · subst hxq
    obtain ⟨C, D, hCD⟩ := List.append_of_mem hqmem
    obtain ⟨z, hseg, hz⟩ := hok.1
    rw [hCD] at hseg
    obtain ⟨y1, hsegC, hsegQD⟩ := seg_split hseg
    obtain ⟨hfy1, hsegD⟩ := seg_cons_inv hsegQD
    have hchD : NodeChain ss i (some q) D := ⟨z, hsegD, hz⟩
    have hDlen : D.length < fuelOf ss := by
      have := chainOk_len_lt_fuel hok
      rw [hCD] at this
      simp only [List.length_append, List.length_cons] at this
      omega
    rw [searchLevel_eq ss key i D (some q) (fuelOf ss) hchD hDlen]
    have hpw := hok.2.1
    rw [hCD] at hpw
    rcases List.pairwise_append.mp hpw with ⟨_, _, hcross⟩
    have hsat : ∀ a ∈ C ++ [q], keyPred ss key a = true := by
      intro a ha
      rcases List.mem_append.mp ha with ha | ha
      · have hcq : keyLt (nodeKey ss a) (nodeKey ss q) :=
          hcross a ha q (List.mem_cons_self _ _)
        unfold keyPred
        exact decide_eq_true (keyLt_trans hcq hqlt)
      · have : a = q := by simpa using ha
        subst this
        unfold keyPred
        exact decide_eq_true hqlt
    have hli : li = (C ++ [q]) ++ D := by
      rw [hCD]
      simp
    rw [hli, takeWhile_append_sat _ _ _ hsat, ptrAfter_append]
    have hlast : ptrAfter none (C ++ [q]) = some q := by
      unfold ptrAfter
      rw [List.getLast?_concat]
    rw [hlast]

/-- `update[i]` of the search is the pointer to the last level-`i` node
strictly below the key (the header if there is none). -/
theorem updAt_spec {T : Type} [LinearOrder T] [Inhabited T] {ss : SortedSet T}
    {ls : Nat → List Nat} (W : WfAux ss ls) (key : Int × T) :
    ∀ i, i < ss.level →
      updAt ss key i = ptrAfter none ((ls i).takeWhile (keyPred ss key)) := by
  have main : ∀ d i, i < ss.level → ss.level - 1 - i = d →
      updAt ss key i = ptrAfter none ((ls i).takeWhile (keyPred ss key)) := by
    intro d
    induction d with
    | zero =>
        intro i hi hd
        have hieq : i = ss.level - 1 := by omega
        subst hieq
        rw [updAt_top ss key W.levelPos]
        exact walk_compose (W.chainsOk _ hi) key (Or.inl rfl)
    | succ d ih =>
        intro i hi hd
        have hi1 : i + 1 < ss.level := by omega
        rw [updAt_step ss key i hi1]
        have hprev := ih (i + 1) hi1 (by omega)
        apply walk_compose (W.chainsOk i (by omega)) key
        rw [hprev]
        cases hgl : ((ls (i + 1)).takeWhile (keyPred ss key)).getLast? with
        | none =>
            left
            unfold ptrAfter
            rw [hgl]
        | some a =>
            right
            refine ⟨a, ?_, ?_, ?_⟩
            · unfold ptrAfter
              rw [hgl]
            · have hatw : a ∈ (ls (i + 1)).takeWhile (keyPred ss key) :=
                List.mem_of_mem_getLast? hgl
              have hamem : a ∈ ls (i + 1) :=
                (List.takeWhile_sublist _).subset hatw
              exact W.subChain i hi1 a hamem
            · have hatw : a ∈ (ls (i + 1)).takeWhile (keyPred ss key) :=
                List.mem_of_mem_getLast? hgl
              have := List.mem_takeWhile_imp hatw
              unfold keyPred at this
              exact of_decide_eq_true this
  intro i hi
  exact main (ss.level - 1 - i) i hi rfl

/-- The successor of `update[i]` at level `i` is the first level-`i` node
not strictly below the key. -/
theorem fwd_updAt {T : Type} [LinearOrder T] [Inhabited T] {ss : SortedSet T}
    {ls : Nat → List Nat} (W : WfAux ss ls) (key : Int × T) (i : Nat)
    (hi : i < ss.level) :
    fwd ss (updAt ss key i) i = ((ls i).dropWhile (keyPred ss key)).head? := by
  obtain ⟨z, hseg, hz⟩ := (W.chainsOk i hi).1
  have hsplit : ls i = (ls i).takeWhile (keyPred ss key) ++ (ls i).dropWhile (keyPred ss key) :=
    (List.takeWhile_append_dropWhile _ _).symm
  rw [updAt_spec W key i hi]
  rw [hsplit] at hseg
  obtain ⟨y, hsegTw, hsegDw⟩ := seg_split hseg
  have hy : y = ptrAfter none ((ls i).takeWhile (keyPred ss key)) := seg_last hsegTw
  cases hdw : (ls i).dropWhile (keyPred ss key) with
  | nil =>
      rw [hdw] at hsegDw
      rw [seg_nil_inv hsegDw] at hz
      rw [← hy, hz]
      rfl
  | cons d0 ds =>
      rw [hdw] at hsegDw
      obtain ⟨hfy, _⟩ := seg_cons_inv hsegDw
      rw [← hy, hfy]
      rfl

theorem updAt_valid {T : Type} [LinearOrder T] [Inhabited T] {ss : SortedSet T}
    {ls : Nat → List Nat} (W : WfAux ss ls) (key : Int × T) (j : Nat) :
    updAt ss key j = none ∨
    ∃ m, updAt ss key j = some m ∧ m < ss.nodes.length ∧ j < nodeLevel ss m ∧
      m ∈ ls j ∧ j < ss.level ∧ keyLt (nodeKey ss m) key := by
  by_cases hj : j < ss.level
  · rw [updAt_spec W key j hj]
    cases hgl : ((ls j).takeWhile (keyPred ss key)).getLast? with
    | none =>
        left
        unfold ptrAfter
        rw [hgl]
    | some m =>
        right
        have hmtw : m ∈ (ls j).takeWhile (keyPred ss key) := List.mem_of_mem_getLast? hgl
        have hmem : m ∈ ls j := (List.takeWhile_sublist _).subset hmtw
        have hvalid := (W.chainsOk j hj).2.2 m hmem
        refine ⟨m, ?_, hvalid.1, hvalid.2, hmem, hj, ?_⟩
        · unfold ptrAfter
          rw [hgl]
        · have := List.mem_takeWhile_imp hmtw
          unfold keyPred at this
          exact of_decide_eq_true this
  · left
    exact updAt_above _ _ _ (by omega)

/-- Characterisation of the relinking fold of `insertNode`: after the
fold, `update[i].forward[i] = newNode` and `newNode.forward[i]`
holds the old `update[i].forward[i]`, for each `i < lvl`; every other
slot, and every non-pointer field, is untouched. -/
theorem insert_fold_spec {T : Type} [LinearOrder T] [Inhabited T]
    (ss1 : SortedSet T) (upd : Nat → Option Nat) (nid : Nat) (lvl : Nat)
    (hnid : nid + 1 = ss1.nodes.length)
    (hnidlevel : nodeLevel ss1 nid = lvl)
    (hhf : lvl ≤ ss1.headForward.length)
    (hupd : ∀ j, j < lvl → upd j = none ∨
      ∃ m, upd j = some m ∧ m < nid ∧ j < nodeLevel ss1 m) :
    ∀ j, j ≤ lvl →
    (((List.range j).foldl (fun acc i =>
        setFwd (setFwd acc (some nid) i (fwd acc (upd i) i)) (upd i) i (some nid)) ss1).nodes.length = ss1.nodes.length ∧
     ((List.range j).foldl (fun acc i =>
        setFwd (setFwd acc (some nid) i (fwd acc (upd i) i)) (upd i) i (some nid)) ss1).headForward.length = ss1.headForward.length ∧
     ((List.range j).foldl (fun acc i =>
        setFwd (setFwd acc (some nid) i (fwd acc (upd i) i)) (upd i) i (some nid)) ss1).dict = ss1.dict ∧
     ((List.range j).foldl (fun acc i =>
        setFwd (setFwd acc (some nid) i (fwd acc (upd i) i)) (upd i) i (some nid)) ss1).level = ss1.level ∧
     ((List.range j).foldl (fun acc i =>
        setFwd (setFwd acc (some nid) i (fwd acc (upd i) i)) (upd i) i (some nid)) ss1).length = ss1.length ∧
     ((List.range j).foldl (fun acc i =>
        setFwd (setFwd acc (some nid) i (fwd acc (upd i) i)) (upd i) i (some nid)) ss1).rnd = ss1.rnd) ∧
    (∀ n, nodeKey ((List.range j).foldl (fun acc i =>
        setFwd (setFwd acc (some nid) i (fwd acc (upd i) i)) (upd i) i (some nid)) ss1) n = nodeKey ss1 n) ∧
    (∀ n, nodeLevel ((List.range j).foldl (fun acc i =>
        setFwd (setFwd acc (some nid) i (fwd acc (upd i) i)) (upd i) i (some nid)) ss1) n = nodeLevel ss1 n) ∧
    (∀ i, i < j → fwd ((List.range j).foldl (fun acc i =>
        setFwd (setFwd acc (some nid) i (fwd acc (upd i) i)) (upd i) i (some nid)) ss1) (upd i) i = some nid ∧
      fwd ((List.range j).foldl (fun acc i =>
        setFwd (setFwd acc (some nid) i (fwd acc (upd i) i)) (upd i) i (some nid)) ss1) (some nid) i = fwd ss1 (upd i) i) ∧
    (∀ p' i', (j ≤ i' ∨ (p' ≠ upd i' ∧ p' ≠ some nid)) →
      fwd ((List.range j).foldl (fun acc i =>
        setFwd (setFwd acc (some nid) i (fwd acc (upd i) i)) (upd i) i (some nid)) ss1) p' i' = fwd ss1 p' i') := by
  intro j
  induction j with
  | zero =>
      intro _
      exact ⟨⟨rfl, rfl, rfl, rfl, rfl, rfl⟩, fun n => rfl, fun n => rfl,
        fun i hi => absurd hi (by omega), fun p' i' _ => rfl⟩
  | succ j ih =>
      intro hj
      have hjlt : j < lvl := by omega
      obtain ⟨hfields, hkeys, hlevels, hdone, hframe⟩ := ih (by omega)
      set acc := (List.range j).foldl (fun acc i =>
        setFwd (setFwd acc (some nid) i (fwd acc (upd i) i)) (upd i) i (some nid)) ss1 with hacc
      have hfoldstep : (List.range (j + 1)).foldl (fun acc i =>
          setFwd (setFwd acc (some nid) i (fwd acc (upd i) i)) (upd i) i (some nid)) ss1
          = setFwd (setFwd acc (some nid) j (fwd acc (upd j) j)) (upd j) j (some nid) := by
        rw [List.range_succ, List.foldl_append]
        rfl
      have hf : fwd acc (upd j) j = fwd ss1 (upd j) j :=
        hframe (upd j) j (Or.inl (by omega))
      set A := setFwd acc (some nid) j (fwd acc (upd j) j) with hA
      set acc' := setFwd A (upd j) j (some nid) with hacc'
      have hupdj_ne_nid : upd j ≠ some nid := by
        rcases hupd j hjlt with h | ⟨m, hm, hmlt, _⟩
        · rw [h]; intro hc; cases hc
        · rw [hm]; intro hc; cases hc; omega
      -- the inner write lands in range
      have hinA : fwd A (some nid) j = fwd acc (upd j) j := by
        apply fwd_setFwd_self
        constructor
        · rw [hfields.1]
          omega
        · rw [hlevels nid, hnidlevel]
          exact hjlt
      -- the outer write lands in range
      have hinAcc' : fwd acc' (upd j) j = some nid := by
        apply fwd_setFwd_self
        rcases hupd j hjlt with h | ⟨m, hm, hmlt, hmlvl⟩
        · rw [h]
          have h1 : A.headForward.length = ss1.headForward.length := by
            rw [hA, setFwd_headForward_length, hfields.2.1]
          rw [h1]
          omega
        · rw [hm]
          constructor
          · have h1 : A.nodes.length = ss1.nodes.length := by
              rw [hA, setFwd_nodes_length, hfields.1]
            rw [h1]
            omega
          · have h1 : nodeLevel A m = nodeLevel ss1 m := by
              rw [hA, nodeLevel_setFwd, hlevels m]
            rw [h1]
            exact hmlvl
      refine ⟨?_, ?_, ?_, ?_, ?_⟩
      · rw [hfoldstep]
        refine ⟨?_, ?_, ?_, ?_, ?_, ?_⟩
        · rw [setFwd_nodes_length, setFwd_nodes_length, hfields.1]
        · rw [setFwd_headForward_length, setFwd_headForward_length, hfields.2.1]
        · rw [setFwd_dict, setFwd_dict, hfields.2.2.1]
        · rw [setFwd_level, setFwd_level, hfields.2.2.2.1]
        · rw [setFwd_length, setFwd_length, hfields.2.2.2.2.1]
        · rw [setFwd_rnd, setFwd_rnd, hfields.2.2.2.2.2]
      · intro n
        rw [hfoldstep]
        rw [nodeKey_setFwd, nodeKey_setFwd, hkeys n]
      · intro n
        rw [hfoldstep]
        rw [nodeLevel_setFwd, nodeLevel_setFwd, hlevels n]
      · intro i0 hi0
        rw [hfoldstep]
        by_cases hij : i0 = j
        · subst hij
          refine ⟨hinAcc', ?_⟩
          have h1 : fwd acc' (some nid) i0 = fwd A (some nid) i0 :=
            fwd_setFwd_other _ _ (Or.inl (Ne.symm hupdj_ne_nid))
          exact (h1.trans hinA).trans hf
        · have hilt : i0 < j := by omega
          have h1 : fwd acc' (upd i0) i0 = fwd A (upd i0) i0 :=
            fwd_setFwd_other _ _ (Or.inr hij)
          have h2 : fwd A (upd i0) i0 = fwd acc (upd i0) i0 :=
            fwd_setFwd_other _ _ (Or.inr hij)
          have h3 : fwd acc' (some nid) i0 = fwd A (some nid) i0 :=
            fwd_setFwd_other _ _ (Or.inr hij)
          have h4 : fwd A (some nid) i0 = fwd acc (some nid) i0 :=
            fwd_setFwd_other _ _ (Or.inr hij)
          exact ⟨(h1.trans h2).trans (hdone i0 hilt).1,
            (h3.trans h4).trans (hdone i0 hilt).2⟩
      · intro p' i' hcond
        rw [hfoldstep]
        by_cases hij : i' = j
        · subst hij
          rcases hcond with hcond | ⟨hc1, hc2⟩
          · omega
          · have h1 : fwd acc' p' i' = fwd A p' i' :=
              fwd_setFwd_other _ _ (Or.inl hc1)
            have h2 : fwd A p' i' = fwd acc p' i' :=
              fwd_setFwd_other _ _ (Or.inl hc2)
            exact (h1.trans h2).trans (hframe p' i' (Or.inl (by omega)))
        · have h1 : fwd acc' p' i' = fwd A p' i' :=
            fwd_setFwd_other _ _ (Or.inr hij)
          have h2 : fwd A p' i' = fwd acc p' i' :=
            fwd_setFwd_other _ _ (Or.inr hij)
          refine (h1.trans h2).trans (hframe p' i' ?_)
          rcases hcond with hcond | hcond
          · exact Or.inl (by omega)
          · exact Or.inr hcond

theorem fwd_extend {T : Type} (ss : SortedSet T) (nd : SLNode T) (L : Nat)
    (r : List Nat) (pp : Option Nat) (i : Nat)
    (hp : ∀ n, pp = some n → n < ss.nodes.length) :
    fwd { ss with nodes := ss.nodes ++ [nd], level := L, rnd := r } pp i = fwd ss pp i := by
  cases pp with
  | none => rfl
  | some n =>
      simp only [fwd]
      rw [List.get?_append (hp n rfl)]

theorem nodeKey_extend {T : Type} [Inhabited T] (ss : SortedSet T) (nd : SLNode T)
    (L : Nat) (r : List Nat) (n : Nat) (hn : n < ss.nodes.length) :
    nodeKey { ss with nodes := ss.nodes ++ [nd], level := L, rnd := r } n = nodeKey ss n := by
  unfold nodeKey nodeScore nodeMember
  rw [List.get?_append hn]

theorem nodeLevel_extend {T : Type} (ss : SortedSet T) (nd : SLNode T)
    (L : Nat) (r : List Nat) (n : Nat) (hn : n < ss.nodes.length) :
    nodeLevel { ss with nodes := ss.nodes ++ [nd], level := L, rnd := r } n = nodeLevel ss n := by
  unfold nodeLevel
  rw [List.get?_append hn]

theorem nodeKey_new {T : Type} [Inhabited T] (ss : SortedSet T) (nd : SLNode T)
    (L : Nat) (r : List Nat) :
    nodeKey { ss with nodes := ss.nodes ++ [nd], level := L, rnd := r } ss.nodes.length
      = (nd.score, nd.member) := by
  unfold nodeKey nodeScore nodeMember
  rw [List.get?_concat_length]

theorem nodeLevel_new {T : Type} (ss : SortedSet T) (nd : SLNode T)
    (L : Nat) (r : List Nat) :
    nodeLevel { ss with nodes := ss.nodes ++ [nd], level := L, rnd := r } ss.nodes.length
      = nd.forward.length := by
  unfold nodeLevel
  rw [List.get?_concat_length]

theorem dropWhile_head_not {α : Type} (p : α → Bool) :
    ∀ (l : List α) (a : α), (l.dropWhile p).head? = some a → p a = false := by
  intro l
  induction l with
  | nil => intro a h; simp [List.dropWhile] at h
  | cons b rest ih =>
      intro a h
      by_cases hb : p b = true
      · rw [List.dropWhile_cons, if_pos hb] at h
        exact ih a h
      · rw [List.dropWhile_cons, if_neg hb] at h
        simp only [List.head?_cons, Option.some.injEq] at h
        subst h
        exact eq_false_of_ne_true hb

theorem mem_parts {α : Type} [DecidableEq α] (p : α → Bool) (l : List α) (x a : α) :
    a ∈ l.takeWhile p ++ x :: l.dropWhile p ↔ a = x ∨ a ∈ l := by
  constructor
  · intro h
    rcases List.mem_append.mp h with h | h
    · exact Or.inr ((List.takeWhile_sublist _).subset h)
    · rcases List.mem_cons.mp h with h | h
      · exact Or.inl h
      · exact Or.inr ((List.dropWhile_sublist _).subset h)
  · intro h
    rcases h with h | h
    · subst h
      exact List.mem_append.mpr (Or.inr (List.mem_cons_self _ _))
    · rcases List.mem_append.mp
        (by rw [List.takeWhile_append_dropWhile]; exact h :
          a ∈ l.takeWhile p ++ l.dropWhile p) with h | h
      · exact List.mem_append.mpr (Or.inl h)
      · exact List.mem_append.mpr (Or.inr (List.mem_cons_of_mem _ h))

theorem pairwise_insert_middle {α : Type} {R : α → α → Prop} {l1 l2 : List α} {x : α}
    (h : (l1 ++ l2).Pairwise R) (h1 : ∀ a ∈ l1, R a x) (h2 : ∀ b ∈ l2, R x b) :
    (l1 ++ x :: l2).Pairwise R := by
  rcases List.pairwise_append.mp h with ⟨hl1, hl2, hcross⟩
  apply List.pairwise_append.mpr
  refine ⟨hl1, ?_, ?_⟩
  · exact List.pairwise_cons.mpr ⟨h2, hl2⟩
  · intro a ha b hb
    rcases List.mem_cons.mp hb with hb | hb
    · exact hb ▸ h1 a ha
    · exact hcross a ha b hb

theorem seg_transfer {T : Type} {S ss : SortedSet T} {i : Nat} {x z : Option Nat}
    {l : List Nat} (hseg : Seg ss i x l z) (hnd : l.Nodup)
    (hx : l ≠ [] → fwd S x i = fwd ss x i)
    (hmid : ∀ n ∈ l, some n ≠ z → fwd S (some n) i = fwd ss (some n) i) :
    Seg S i x l z := by
  cases l with
  | nil =>
      rw [seg_nil_inv hseg]
      exact Seg.nil
  | cons a rest =>
      exact seg_congr hseg hnd (hx (by simp)) hmid

/-- Rebuild a level chain after splicing `nid` in right after the level\'s
predecessor position. -/
theorem build_inserted_chain {T : Type} [LinearOrder T] [Inhabited T]
    {S ss : SortedSet T} {i : Nat} {li : List Nat} {u : Option Nat} {nid : Nat}
    (pr : Nat → Bool)
    (hch : NodeChain ss i none li)
    (hnd : li.Nodup)
    (hvalid : ∀ n ∈ li, n < nid)
    (hu : u = ptrAfter none (li.takeWhile pr))
    (hlink1 : fwd S u i = some nid)
    (hlink2 : fwd S (some nid) i = fwd ss u i)
    (hother : ∀ pp : Option Nat, pp ≠ u → pp ≠ some nid → fwd S pp i = fwd ss pp i) :
    NodeChain S i none (li.takeWhile pr ++ nid :: li.dropWhile pr) := by
  obtain ⟨z, hsegAll, hz⟩ := hch
  rw [← List.takeWhile_append_dropWhile pr li] at hsegAll
  obtain ⟨y, hsegA, hsegB⟩ := seg_split hsegAll
  have hy : y = u := by
    rw [seg_last hsegA, hu]
  subst hy
  have hndAB : (li.takeWhile pr ++ li.dropWhile pr).Nodup := by
    rw [List.takeWhile_append_dropWhile]
    exact hnd
  rcases List.nodup_append.mp hndAB with ⟨hndA, hndB, hdisj⟩
  have hvalidA : ∀ n ∈ li.takeWhile pr, n < nid := fun n hn =>
    hvalid n ((List.takeWhile_sublist _).subset hn)
  have hvalidB : ∀ n ∈ li.dropWhile pr, n < nid := fun n hn =>
    hvalid n ((List.dropWhile_sublist _).subset hn)
  have hune : ∀ n ∈ li.takeWhile pr, some n ≠ y → fwd S (some n) i = fwd ss (some n) i := by
    intro n hn hnu
    refine hother (some n) hnu ?_
    have hlt := hvalidA n hn
    intro hc
    rw [Option.some.injEq] at hc
    omega
  have hSsegA : Seg S i none (li.takeWhile pr) y := by
    refine seg_transfer hsegA hndA ?_ hune
    intro hne
    refine hother none ?_ (by intro hc; cases hc)
    rw [hu]
    unfold ptrAfter
    cases hgl : (li.takeWhile pr).getLast? with
    | none =>
        exfalso
        rw [List.getLast?_eq_getLast _ hne] at hgl
        cases hgl
    | some a => intro hc; cases hc
  have hlinkSeg : Seg S i y [nid] (some nid) := Seg.cons hlink1 Seg.nil
  cases hB : li.dropWhile pr with
  | nil =>
      rw [hB] at hsegB
      have hzy := seg_nil_inv hsegB
      subst hzy
      have hSnid : fwd S (some nid) i = none := by
        rw [hlink2]
        exact hz
      refine ⟨some nid, ?_, hSnid⟩
      have := seg_append hSsegA hlinkSeg
      simpa using this
  | cons b0 B2 =>
      rw [hB] at hsegB
      have hndB2all : (b0 :: B2).Nodup := hB ▸ hndB
      have hdisj2 : (li.takeWhile pr).Disjoint (b0 :: B2) := hB ▸ hdisj
      have hvalidB2 : ∀ n ∈ b0 :: B2, n < nid := hB ▸ hvalidB
      obtain ⟨hfy, hsegB2⟩ := seg_cons_inv hsegB
      have hndB2 := (List.nodup_cons.mp hndB2all).2
      have hb0nid : b0 < nid := hvalidB2 b0 (by simp)
      have hnotu : ∀ n, n ∈ b0 :: B2 → some n ≠ y := by
        intro n hn hc
        rw [hu] at hc
        unfold ptrAfter at hc
        cases hgl : (li.takeWhile pr).getLast? with
        | none => rw [hgl] at hc; cases hc
        | some a =>
            rw [hgl] at hc
            rw [Option.some.injEq] at hc
            subst hc
            have hna : n ∈ li.takeWhile pr := List.mem_of_mem_getLast? hgl
            exact hdisj2 hna hn
      have hSnid : fwd S (some nid) i = some b0 := by
        rw [hlink2, hfy]
      have hSsegB2 : Seg S i (some b0) B2 z := by
        refine seg_transfer hsegB2 hndB2 ?_ ?_
        · intro _
          refine hother (some b0) (hnotu b0 (by simp)) ?_
          intro hc
          rw [Option.some.injEq] at hc
          omega
        · intro n hn _
          have hlt := hvalidB2 n (by simp [hn])
          refine hother (some n) (hnotu n (by simp [hn])) ?_
          intro hc
          rw [Option.some.injEq] at hc
          omega
      have hzS : fwd S z i = none := by
        have hzafter := seg_last hsegB2
        have hzmem : ∃ m, z = some m ∧ m ∈ b0 :: B2 := by
          rw [hzafter]
          unfold ptrAfter
          cases hgl : B2.getLast? with
          | none => exact ⟨b0, rfl, by simp⟩
          | some a =>
              refine ⟨a, rfl, ?_⟩
              exact List.mem_cons_of_mem _ (List.mem_of_mem_getLast? hgl)
        obtain ⟨m, hzm, hmmem⟩ := hzmem
        have hlt := hvalidB2 m hmmem
        rw [hzm]
        rw [hother (some m) (hnotu m hmmem) ?_]
        · rw [← hzm]
          exact hz
        · intro hc
          rw [Option.some.injEq] at hc
          omega
      refine ⟨z, ?_, hzS⟩
      have htail : Seg S i (some nid) (b0 :: B2) z := Seg.cons hSnid hSsegB2
      have := seg_append (seg_append hSsegA hlinkSeg) htail
      simpa using this

/-- Transfer an untouched level chain to the new state. -/
theorem transfer_chain {T : Type} {S ss : SortedSet T} {i : Nat} {li : List Nat}
    (hch : NodeChain ss i none li) (hnd : li.Nodup)
    (hhead : fwd S none i = fwd ss none i)
    (hnodes : ∀ n ∈ li, fwd S (some n) i = fwd ss (some n) i) :
    NodeChain S i none li := by
  obtain ⟨z, hseg, hz⟩ := hch
  have hSseg : Seg S i none li z :=
    seg_transfer hseg hnd (fun _ => hhead) (fun n hn _ => hnodes n hn)
  refine ⟨z, hSseg, ?_⟩
  have hzafter := seg_last hseg
  rw [hzafter]
  unfold ptrAfter
  cases hgl : li.getLast? with
  | none =>
      rw [hhead]
      rw [hzafter] at hz
      unfold ptrAfter at hz
      rw [hgl] at hz
      exact hz
  | some a =>
      rw [hnodes a (List.mem_of_mem_getLast? hgl)]
      rw [hzafter] at hz
      unfold ptrAfter at hz
      rw [hgl] at hz
      exact hz

theorem fwd_extendNe {T : Type} (ss : SortedSet T) (nd : SLNode T) (L : Nat)
    (r : List Nat) (pp : Option Nat) (i : Nat)
    (hp : pp ≠ some ss.nodes.length) :
    fwd { ss with nodes := ss.nodes ++ [nd], level := L, rnd := r } pp i = fwd ss pp i := by
  cases pp with
  | none => rfl
  | some n =>
      by_cases hn : n < ss.nodes.length
      · simp only [fwd]
        rw [List.get?_append hn]
      · have hgt : ss.nodes.length < n := by
          rcases Nat.lt_or_ge ss.nodes.length n with h | h
          · exact h
          · exfalso
            have heq : n = ss.nodes.length := by omega
            exact hp (by rw [heq])
        simp only [fwd]
        have h1 : (ss.nodes ++ [nd]).get? n = none := by
          rw [List.get?_eq_none]
          simp only [List.length_append, List.length_cons, List.length_nil]
          omega
        have h2 : ss.nodes.get? n = none := by
          rw [List.get?_eq_none]
          omega
        rw [h1, h2]

theorem insertNode_preserves {T : Type} [LinearOrder T] [Inhabited T]
    {ss : SortedSet T} {ls : Nat → List Nat} (W : WfAux ss ls)
    (score : Int) (member : T)
    (hfresh : alookup member ss.dict = none) :
    ∃ ls', WfAux (insertNode ss score member) ls' ∧
      ls' 0 = (ls 0).takeWhile (keyPred ss (score, member))
        ++ ss.nodes.length :: (ls 0).dropWhile (keyPred ss (score, member)) ∧
      nodeKey (insertNode ss score member) ss.nodes.length = (score, member) ∧
      (∀ n, n < ss.nodes.length →
        nodeKey (insertNode ss score member) n = nodeKey ss n) ∧
      (insertNode ss score member).dict = ainsert member ss.nodes.length ss.dict ∧
      (insertNode ss score member).length = ss.length + 1 ∧
      (insertNode ss score member).rnd = ss.rnd.tail ∧
      (insertNode ss score member).nodes.length = ss.nodes.length + 1 := by
  set key : Int × T := (score, member) with hkeydef
  set pr : Nat → Bool := keyPred ss key with hprdef
  set lvl : Nat := ss.rnd.headD 1 with hlvldef
  set nid : Nat := ss.nodes.length with hniddef
  set newNd : SLNode T :=
    { member := member, score := score, forward := List.replicate lvl none } with hnewNd
  set ss1 : SortedSet T := { ss with nodes := ss.nodes ++ [newNd], level := max ss.level lvl, rnd := ss.rnd.tail } with hss1
  set S2 : SortedSet T := (List.range lvl).foldl (fun acc i =>
      setFwd (setFwd acc (some nid) i (fwd acc (updAt ss key i) i)) (updAt ss key i) i
        (some nid)) ss1 with hS2
  have hins : insertNode ss score member =
      { S2 with dict := ainsert member nid S2.dict, length := S2.length + 1 } := rfl
  have hlvl : 1 ≤ lvl ∧ lvl ≤ maxLevel := by
    rw [hlvldef]
    cases hr : ss.rnd with
    | nil => exact ⟨le_refl 1, by norm_num [maxLevel]⟩
    | cons a tl =>
        have := W.rndOk a (by rw [hr]; exact List.mem_cons_self _ _)
        simpa using this
  have hnidlen : nid + 1 = ss1.nodes.length := by
    rw [hss1]
    simp [hniddef]
  have hheadlen1 : ss1.headForward.length = maxLevel := W.headLen
  have hnodeLevel_nid : nodeLevel ss1 nid = lvl := by
    have := nodeLevel_new ss newNd (max ss.level lvl) ss.rnd.tail
    rw [hnewNd] at this
    simp only [List.length_replicate] at this
    exact this
  have hfwd1 : ∀ (pp : Option Nat) (i : Nat), pp ≠ some nid →
      fwd ss1 pp i = fwd ss pp i := by
    intro pp i hp
    exact fwd_extendNe ss newNd (max ss.level lvl) ss.rnd.tail pp i hp
  have hkey1 : ∀ n, n < nid → nodeKey ss1 n = nodeKey ss n := by
    intro n hn
    exact nodeKey_extend ss newNd (max ss.level lvl) ss.rnd.tail n hn
  have hkey1nid : nodeKey ss1 nid = key := by
    have := nodeKey_new ss newNd (max ss.level lvl) ss.rnd.tail
    rw [hnewNd] at this
    exact this
  have hlevel1 : ∀ n, n < nid → nodeLevel ss1 n = nodeLevel ss n := by
    intro n hn
    exact nodeLevel_extend ss newNd (max ss.level lvl) ss.rnd.tail n hn
  have hupdOk : ∀ j, j < lvl → updAt ss key j = none ∨
      ∃ m, updAt ss key j = some m ∧ m < nid ∧ j < nodeLevel ss1 m := by
    intro j hj
    rcases updAt_valid W key j with h | ⟨m, hm, hmlt, hmlvl, _, _, _⟩
    · exact Or.inl h
    · right
      refine ⟨m, hm, hmlt, ?_⟩
      rw [hlevel1 m hmlt]
      exact hmlvl
  obtain ⟨hfields, hkeys, hlevels, hdone, hframe⟩ :=
    insert_fold_spec ss1 (updAt ss key) nid lvl hnidlen hnodeLevel_nid
      (by rw [hheadlen1]; exact hlvl.2) hupdOk lvl (le_refl lvl)
  rw [← hS2] at hfields hkeys hlevels hdone hframe
  set F : SortedSet T :=
    { S2 with dict := ainsert member nid S2.dict, length := S2.length + 1 } with hF
  have hfwdF : ∀ pp i, fwd F pp i = fwd S2 pp i := fun _ _ => rfl
  have hkeyF : ∀ n, nodeKey F n = nodeKey S2 n := fun _ => rfl
  have hlevelF : ∀ n, nodeLevel F n = nodeLevel S2 n := fun _ => rfl
  have hFkey_old : ∀ n, n < nid → nodeKey F n = nodeKey ss n := by
    intro n hn
    rw [hkeyF, hkeys, hkey1 n hn]
  have hFkey_nid : nodeKey F nid = key := by
    rw [hkeyF, hkeys, hkey1nid]
  have hFlevel_old : ∀ n, n < nid → nodeLevel F n = nodeLevel ss n := by
    intro n hn
    rw [hlevelF, hlevels, hlevel1 n hn]
  have hFlevel_nid : nodeLevel F nid = lvl := by
    rw [hlevelF, hlevels, hnodeLevel_nid]
  have hFnodes : F.nodes.length = nid + 1 := by
    rw [hF]
    show S2.nodes.length = nid + 1
    rw [hfields.1, ← hnidlen]
  have hFother : ∀ (pp : Option Nat) (i : Nat),
      (lvl ≤ i ∨ (pp ≠ updAt ss key i ∧ pp ≠ some nid)) → pp ≠ some nid →
      fwd F pp i = fwd ss pp i := by
    intro pp i hcond hne
    rw [hfwdF, hframe pp i hcond, hfwd1 pp i hne]
  -- level lists of the old state, extended by the empty list above ss.level
  set lsOld : Nat → List Nat := fun i => if i < ss.level then ls i else [] with hlsOld
  have hlsOldAt : ∀ i, lsOld i = if i < ss.level then ls i else [] := fun _ => rfl
  have hchOld : ∀ i, NodeChain ss i none (lsOld i) := by
    intro i
    rw [hlsOldAt _]
    by_cases hi : i < ss.level
    · rw [if_pos hi]
      exact (W.chainsOk i hi).1
    · rw [if_neg hi]
      exact ⟨none, Seg.nil, W.headAbove i (by omega)⟩
  have hpwOld : ∀ i, (lsOld i).Pairwise (fun a b => keyLt (nodeKey ss a) (nodeKey ss b)) := by
    intro i
    rw [hlsOldAt _]
    by_cases hi : i < ss.level
    · rw [if_pos hi]
      exact (W.chainsOk i hi).2.1
    · rw [if_neg hi]
      exact List.Pairwise.nil
  have hvalidOld : ∀ i, ∀ n ∈ lsOld i, n < nid ∧ i < nodeLevel ss n := by
    intro i n hn
    rw [hlsOldAt _] at hn
    by_cases hi : i < ss.level
    · rw [if_pos hi] at hn
      exact (W.chainsOk i hi).2.2 n hn
    · rw [if_neg hi] at hn
      simp at hn
  have hndOld : ∀ i, (lsOld i).Nodup := by
    intro i
    apply List.Pairwise.imp ?_ (hpwOld i)
    intro a b hab hcon
    subst hcon
    exact keyLt_irrefl _ hab
  have huOld : ∀ i, i < lvl → updAt ss key i = ptrAfter none ((lsOld i).takeWhile pr) := by
    intro i _
    rw [hlsOldAt _]
    by_cases hi : i < ss.level
    · rw [if_pos hi]
      exact updAt_spec W key i hi
    · rw [if_neg hi]
      rw [updAt_above ss key i (by omega)]
      rfl
  -- the new level lists
  set ls' : Nat → List Nat := fun i =>
    if i < lvl then (lsOld i).takeWhile pr ++ nid :: (lsOld i).dropWhile pr
    else ls i with hls'
  have hlsAt : ∀ i, ls' i = if i < lvl then (lsOld i).takeWhile pr ++ nid :: (lsOld i).dropWhile pr else ls i := fun _ => rfl
  have hnewChains : ∀ i, i < lvl →
      NodeChain F i none ((lsOld i).takeWhile pr ++ nid :: (lsOld i).dropWhile pr) := by
    intro i hi
    apply build_inserted_chain pr (hchOld i) (hndOld i)
      (fun n hn => (hvalidOld i n hn).1) (huOld i hi)
    · rw [hfwdF]
      exact (hdone i hi).1
    · rw [hfwdF, (hdone i hi).2]
      rcases hupdOk i hi with h | ⟨m, hm, hmlt, _⟩
      · rw [h]
        exact hfwd1 none i (by intro hc; cases hc)
      · rw [hm]
        apply hfwd1
        intro hc
        rw [Option.some.injEq] at hc
        omega
    · intro pp hp1 hp2
      exact hFother pp i (Or.inr ⟨hp1, hp2⟩) hp2
  have hkeyNotIn : ∀ b ∈ ls 0, nodeKey ss b ≠ key := by
    intro b hb hc
    have hdict := W.dictOk.2.1 b hb
    have hmb : nodeMember ss b = member := congrArg Prod.snd hc
    rw [hmb, hfresh] at hdict
    cases hdict
  have hAlt : ∀ i, ∀ a ∈ (lsOld i).takeWhile pr, keyLt (nodeKey ss a) key := by
    intro i a ha
    have := List.mem_takeWhile_imp ha
    rw [hprdef] at this
    unfold keyPred at this
    exact of_decide_eq_true this
  have hBgt : ∀ i, ∀ b ∈ (lsOld i).dropWhile pr, keyLt key (nodeKey ss b) := by
    intro i b hb
    cases hdw : (lsOld i).dropWhile pr with
    | nil => rw [hdw] at hb; simp at hb
    | cons b0 B2 =>
        have hb0p : pr b0 = false := dropWhile_head_not pr (lsOld i) b0 (by rw [hdw]; rfl)
        have hb0mem : b0 ∈ lsOld i := (List.dropWhile_sublist _).subset (by rw [hdw]; simp)
        have hb0l0 : b0 ∈ ls 0 := by
          rw [hlsOldAt _] at hb0mem
          by_cases hi : i < ss.level
          · rw [if_pos hi] at hb0mem
            exact ls_subset_zero W i hi b0 hb0mem
          · rw [if_neg hi] at hb0mem
            simp at hb0mem
        have hb0key : keyLt key (nodeKey ss b0) := by
          apply keyLt_total
          · intro hcon
            rw [hprdef] at hb0p
            unfold keyPred at hb0p
            rw [decide_eq_true hcon] at hb0p
            cases hb0p
          · exact hkeyNotIn b0 hb0l0
        rw [hdw] at hb
        rcases List.mem_cons.mp hb with hb | hb
        · subst hb
          exact hb0key
        · have hPWdw : ((lsOld i).dropWhile pr).Pairwise
              (fun a b => keyLt (nodeKey ss a) (nodeKey ss b)) :=
            List.Pairwise.sublist (List.dropWhile_sublist _) (hpwOld i)
          rw [hdw] at hPWdw
          rcases List.pairwise_cons.mp hPWdw with ⟨hb0lt, _⟩
          exact keyLt_trans hb0key (hb0lt b hb)
  refine ⟨ls', ?_, ?_, hFkey_nid, hFkey_old, ?_, ?_, ?_, ?_⟩
  -- the seven non-WfAux conclusions come second through last
  pick_goal 2
  · rw [hlsAt _]
    simp only [if_pos (by omega : (0:Nat) < lvl)]
    rw [hlsOldAt _]
    simp only [if_pos (by have := W.levelPos; omega : (0:Nat) < ss.level)]
  pick_goal 2
  · rw [hins, hF]
    show ainsert member nid S2.dict = ainsert member nid ss.dict
    rw [hfields.2.2.1]
  pick_goal 2
  · rw [hins, hF]
    show S2.length + 1 = ss.length + 1
    rw [hfields.2.2.2.2.1]
  pick_goal 2
  · rw [hins, hF]
    show S2.rnd = ss.rnd.tail
    rw [hfields.2.2.2.2.2]
  pick_goal 2
  · rw [hins, hF]
    show S2.nodes.length = nid + 1
    rw [hfields.1, ← hnidlen]
  -- WfAux F ls'
  rw [hins]
  have hFlevel : F.level = max ss.level lvl := by
    rw [hF]
    show S2.level = max ss.level lvl
    rw [hfields.2.2.2.1]
  have hFheadLen : F.headForward.length = maxLevel := by
    rw [hF]
    show S2.headForward.length = maxLevel
    rw [hfields.2.1]
    exact hheadlen1
  have hFrnd : F.rnd = ss.rnd.tail := by
    rw [hF]
    show S2.rnd = ss.rnd.tail
    rw [hfields.2.2.2.2.2]
  have hFdict : F.dict = ainsert member nid ss.dict := by
    rw [hF]
    show ainsert member nid S2.dict = ainsert member nid ss.dict
    rw [hfields.2.2.1]
  have hFlength : F.length = ss.length + 1 := by
    rw [hF]
    show S2.length + 1 = ss.length + 1
    rw [hfields.2.2.2.2.1]
  constructor
  · rw [hFlevel]
    have := W.levelPos
    omega
  · rw [hFlevel]
    have := W.levelLe
    have := hlvl.2
    omega
  · exact hFheadLen
  · rw [hFrnd]
    intro lv hlv
    exact W.rndOk lv (List.mem_of_mem_tail hlv)
  · intro i hi
    rw [hFlevel] at hi
    have hilvl : lvl ≤ i := by omega
    rw [hfwdF, hframe none i (Or.inl hilvl), hfwd1 none i (by intro hc; cases hc)]
    exact W.headAbove i (by omega)
  · intro i hi
    rw [hFlevel] at hi
    rw [hlsAt _]
    by_cases hilvl : i < lvl
    · rw [if_pos hilvl]
      refine ⟨hnewChains i hilvl, ?_, ?_⟩
      · apply pairwise_insert_middle
        · have hpart : (lsOld i).takeWhile pr ++ (lsOld i).dropWhile pr = lsOld i :=
            List.takeWhile_append_dropWhile _ _
          have hpw : ((lsOld i).takeWhile pr ++ (lsOld i).dropWhile pr).Pairwise
              (fun a b => keyLt (nodeKey ss a) (nodeKey ss b)) := by
            rw [hpart]
            exact hpwOld i
          apply List.Pairwise.imp_of_mem ?_ hpw
          intro a b ha hb hab
          have hamem : a ∈ lsOld i := by rw [← hpart]; exact ha
          have hbmem : b ∈ lsOld i := by rw [← hpart]; exact hb
          rw [hFkey_old a (hvalidOld i a hamem).1, hFkey_old b (hvalidOld i b hbmem).1]
          exact hab
        · intro a ha
          have hamem : a ∈ lsOld i := (List.takeWhile_sublist _).subset ha
          rw [hFkey_old a (hvalidOld i a hamem).1, hFkey_nid]
          exact hAlt i a ha
        · intro b hb
          have hbmem : b ∈ lsOld i := (List.dropWhile_sublist _).subset hb
          rw [hFkey_old b (hvalidOld i b hbmem).1, hFkey_nid]
          exact hBgt i b hb
      · intro n hn
        rcases (mem_parts pr (lsOld i) nid n).mp hn with hn | hn
        · subst hn
          rw [hFnodes, hFlevel_nid]
          exact ⟨by omega, hilvl⟩
        · have hv := hvalidOld i n hn
          rw [hFnodes, hFlevel_old n hv.1]
          exact ⟨by omega, by
            by_cases hi2 : i < ss.level
            · exact hv.2
            · exfalso
              rw [hlsOldAt _, if_neg hi2] at hn
              simp at hn⟩
    · rw [if_neg hilvl]
      have hiless : i < ss.level := by omega
      refine ⟨?_, ?_, ?_⟩
      · apply transfer_chain (W.chainsOk i hiless).1
          (chainOk_nodup (W.chainsOk i hiless))
        · exact hFother none i (Or.inl (by omega)) (by intro hc; cases hc)
        · intro n hn
          have hv := (W.chainsOk i hiless).2.2 n hn
          refine hFother (some n) i (Or.inl (by omega)) ?_
          intro hc
          rw [Option.some.injEq] at hc
          omega
      · apply List.Pairwise.imp_of_mem ?_ (W.chainsOk i hiless).2.1
        intro a b ha hb hab
        rw [hFkey_old a ((W.chainsOk i hiless).2.2 a ha).1,
          hFkey_old b ((W.chainsOk i hiless).2.2 b hb).1]
        exact hab
      · intro n hn
        have hv := (W.chainsOk i hiless).2.2 n hn
        rw [hFnodes, hFlevel_old n hv.1]
        exact ⟨by omega, hv.2⟩
  · intro i hi n hn
    rw [hFlevel] at hi
    rw [hlsAt _] at hn
    rw [hlsAt _]
    by_cases hi1 : i + 1 < lvl
    · rw [if_pos hi1] at hn
      rw [if_pos (by omega : i < lvl)]
      rcases (mem_parts pr (lsOld (i + 1)) nid n).mp hn with hn | hn
      · subst hn
        exact (mem_parts pr (lsOld i) nid nid).mpr (Or.inl rfl)
      · have hsub : n ∈ lsOld i := by
          rw [hlsOldAt _] at hn ⊢
          by_cases hj : i + 1 < ss.level
          · rw [if_pos hj] at hn
            rw [if_pos (by omega)]
            exact W.subChain i hj n hn
          · rw [if_neg hj] at hn
            simp at hn
        exact (mem_parts pr (lsOld i) nid n).mpr (Or.inr hsub)
    · rw [if_neg hi1] at hn
      have hi1level : i + 1 < ss.level := by omega
      have hmem : n ∈ ls i := W.subChain i hi1level n hn
      by_cases hilvl : i < lvl
      · rw [if_pos hilvl]
        refine (mem_parts pr (lsOld i) nid n).mpr (Or.inr ?_)
        rw [hlsOldAt _, if_pos (by omega)]
        exact hmem
      · rw [if_neg hilvl]
        exact hmem
  · rw [hFlength, W.lengthEq, hlsAt 0]
    simp only [if_pos (by omega : (0:Nat) < lvl)]
    rw [hlsOldAt _]
    simp only [if_pos (by have := W.levelPos; omega : (0:Nat) < ss.level)]
    have hpart := List.takeWhile_append_dropWhile pr (ls 0)
    have hlen : ((ls 0).takeWhile pr ++ nid :: (ls 0).dropWhile pr).length
        = (ls 0).length + 1 := by
      have := congrArg List.length hpart
      simp only [List.length_append] at this ⊢
      simp only [List.length_cons]
      omega
    rw [hlen]
    push_cast
    ring
  · have hl0' : ls' 0 = (ls 0).takeWhile pr ++ nid :: (ls 0).dropWhile pr := by
      rw [hlsAt _]
      simp only [if_pos (by omega : (0:Nat) < lvl)]
      rw [hlsOldAt _]
      simp only [if_pos (by have := W.levelPos; omega : (0:Nat) < ss.level)]
    rw [hl0']
    unfold DictOk
    rw [hFdict]
    have hmemF : ∀ n, n < nid → nodeMember F n = nodeMember ss n := by
      intro n hn
      have := hFkey_old n hn
      unfold nodeKey at this
      exact congrArg Prod.snd this
    have hmemFnid : nodeMember F nid = member := by
      have := hFkey_nid
      unfold nodeKey at this
      exact congrArg Prod.snd this
    refine ⟨keys_ainsert_nodup member nid W.dictOk.1, ?_, ?_⟩
    · intro n hn
      rcases (mem_parts pr (ls 0) nid n).mp hn with hn | hn
      · subst hn
        rw [hmemFnid]
        exact alookup_ainsert_self member nid ss.dict
      · have hnlt : n < nid := by
          have := (W.chainsOk 0 (by have := W.levelPos; omega)).2.2 n hn
          exact this.1
        rw [hmemF n hnlt]
        have hne : nodeMember ss n ≠ member := by
          intro hc
          have hdict := W.dictOk.2.1 n hn
          rw [hc, hfresh] at hdict
          cases hdict
        rw [alookup_ainsert_ne nid ss.dict hne]
        exact W.dictOk.2.1 n hn
    · intro m q hq
      by_cases hm : m = member
      · rw [hm] at hq
        rw [alookup_ainsert_self member nid ss.dict] at hq
        rw [Option.some.injEq] at hq
        subst hq
        refine ⟨(mem_parts pr (ls 0) nid nid).mpr (Or.inl rfl), ?_⟩
        rw [hmemFnid]
        exact hm.symm
      · rw [alookup_ainsert_ne nid ss.dict hm] at hq
        have hold := W.dictOk.2.2 m q hq
        have hqlt : q < nid :=
          ((W.chainsOk 0 (by have := W.levelPos; omega)).2.2 q hold.1).1
        refine ⟨(mem_parts pr (ls 0) nid q).mpr (Or.inr hold.1), ?_⟩
        rw [hmemF q hqlt]
        exact hold.2

theorem aerase_sublist {κ α : Type} [DecidableEq κ] (k : κ) :
    ∀ l : List (κ × α), List.Sublist (aerase k l) l := by
  intro l
  induction l with
  | nil => exact List.Sublist.refl _
  | cons p rest ih =>
      obtain ⟨a, b⟩ := p
      by_cases h : k = a
      · simp only [aerase, if_pos h]
        exact List.sublist_cons_self _ _
      · simp only [aerase, if_neg h]
        exact List.Sublist.cons₂ _ ih

theorem keys_aerase_nodup {κ α : Type} [DecidableEq κ] (k : κ)
    {l : List (κ × α)} (h : (l.map Prod.fst).Nodup) :
    ((aerase k l).map Prod.fst).Nodup :=
  List.Nodup.sublist ((aerase_sublist k l).map Prod.fst) h

/-- A slot that currently reads back `some _` in `ss` is in range, so a
write to it in any state `S` with the same geometry takes effect. -/
theorem fwd_setFwd_of_read {T : Type} (S ss : SortedSet T) (p : Option Nat) (i : Nat)
    {q0 : Nat} (v : Option Nat)
    (hhf : S.headForward.length = ss.headForward.length)
    (hnl : S.nodes.length = ss.nodes.length)
    (hlev : ∀ n, nodeLevel S n = nodeLevel ss n)
    (h : fwd ss p i = some q0) :
    fwd (setFwd S p i v) p i = v := by
  apply fwd_setFwd_self
  cases p with
  | none =>
      show i < S.headForward.length
      rw [hhf]
      simp only [fwd] at h
      by_contra hcon
      push_neg at hcon
      rw [List.get?_eq_none.mpr hcon] at h
      simp at h
  | some n =>
      show n < S.nodes.length ∧ i < nodeLevel S n
      cases hg : ss.nodes.get? n with
      | none =>
          exfalso
          have h2 : fwd ss (some n) i = none := by
            simp only [fwd, hg]
          rw [h2] at h
          cases h
      | some nd =>
          have h2 : fwd ss (some n) i = (nd.forward.get? i).getD none := by
            simp only [fwd, hg]
          rw [h2] at h
          have hn : n < ss.nodes.length := by
            by_contra hcon
            push_neg at hcon
            rw [List.get?_eq_none.mpr hcon] at hg
            cases hg
          have hi : i < nd.forward.length := by
            by_contra hcon
            push_neg at hcon
            rw [List.get?_eq_none.mpr hcon] at h
            simp at h
          refine ⟨by rw [hnl]; exact hn, ?_⟩
          rw [hlev n]
          unfold nodeLevel
          rw [hg]
          exact hi

theorem shrinkLevel_pos {T : Type} (ss : SortedSet T) :
    ∀ l, 1 ≤ l → 1 ≤ shrinkLevel ss l := by
  intro l
  induction l with
  | zero => intro h; omega
  | succ n ih =>
      intro _
      cases n with
      | zero => exact le_refl 1
      | succ m =>
          show 1 ≤ (if fwd ss none (m + 1) = none then shrinkLevel ss (m + 1) else m + 2)
          by_cases hc : fwd ss none (m + 1) = none
          · rw [if_pos hc]
            exact ih (by omega)
          · rw [if_neg hc]
            omega

theorem shrinkLevel_le {T : Type} (ss : SortedSet T) :
    ∀ l, shrinkLevel ss l ≤ l := by
  intro l
  induction l with
  | zero => exact le_refl 0
  | succ n ih =>
      cases n with
      | zero => exact le_refl 1
      | succ m =>
          show (if fwd ss none (m + 1) = none then shrinkLevel ss (m + 1) else m + 2) ≤ m + 2
          by_cases hc : fwd ss none (m + 1) = none
          · rw [if_pos hc]
            omega
          · rw [if_neg hc]

/-- Every level dropped by the shrink loop of `deleteNode` has an empty
header pointer. -/
theorem shrinkLevel_none {T : Type} (ss : SortedSet T) :
    ∀ l i, shrinkLevel ss l ≤ i → i < l → fwd ss none i = none := by
  intro l
  induction l with
  | zero => intro i h1 h2; omega
  | succ n ih =>
      intro i h1 h2
      cases n with
      | zero =>
          exfalso
          have h3 : shrinkLevel ss 1 = 1 := rfl
          rw [h3] at h1
          omega
      | succ m =>
          have hred : shrinkLevel ss (m + 2)
              = if fwd ss none (m + 1) = none then shrinkLevel ss (m + 1) else m + 2 := rfl
          by_cases hc : fwd ss none (m + 1) = none
          · rw [hred, if_pos hc] at h1
            by_cases hi : i = m + 1
            · rw [hi]
              exact hc
            · exact ih i h1 (by omega)
          · rw [hred, if_neg hc] at h1
            omega

/-- Characterisation of the unlinking fold of `deleteNode`: each slot
`update[i].forward[i]` that pointed at the node is rerouted to
`node.forward[i]`; every other slot, and every non-pointer field, is
untouched. -/
theorem delete_fold_spec {T : Type} [Inhabited T]
    (ss : SortedSet T) (upd : Nat → Option Nat) (nid : Nat)
    (hne : ∀ i, upd i ≠ some nid) :
    ∀ j,
    (((List.range j).foldl (fun acc i =>
        if fwd acc (upd i) i = some nid then setFwd acc (upd i) i (fwd acc (some nid) i)
        else acc) ss).nodes.length = ss.nodes.length ∧
     ((List.range j).foldl (fun acc i =>
        if fwd acc (upd i) i = some nid then setFwd acc (upd i) i (fwd acc (some nid) i)
        else acc) ss).headForward.length = ss.headForward.length ∧
     ((List.range j).foldl (fun acc i =>
        if fwd acc (upd i) i = some nid then setFwd acc (upd i) i (fwd acc (some nid) i)
        else acc) ss).dict = ss.dict ∧
     ((List.range j).foldl (fun acc i =>
        if fwd acc (upd i) i = some nid then setFwd acc (upd i) i (fwd acc (some nid) i)
        else acc) ss).level = ss.level ∧
     ((List.range j).foldl (fun acc i =>
        if fwd acc (upd i) i = some nid then setFwd acc (upd i) i (fwd acc (some nid) i)
        else acc) ss).length = ss.length ∧
     ((List.range j).foldl (fun acc i =>
        if fwd acc (upd i) i = some nid then setFwd acc (upd i) i (fwd acc (some nid) i)
        else acc) ss).rnd = ss.rnd) ∧
    (∀ n, nodeKey ((List.range j).foldl (fun acc i =>
        if fwd acc (upd i) i = some nid then setFwd acc (upd i) i (fwd acc (some nid) i)
        else acc) ss) n = nodeKey ss n) ∧
    (∀ n, nodeLevel ((List.range j).foldl (fun acc i =>
        if fwd acc (upd i) i = some nid then setFwd acc (upd i) i (fwd acc (some nid) i)
        else acc) ss) n = nodeLevel ss n) ∧
    (∀ i, i < j → fwd ((List.range j).foldl (fun acc i =>
        if fwd acc (upd i) i = some nid then setFwd acc (upd i) i (fwd acc (some nid) i)
        else acc) ss) (upd i) i =
      if fwd ss (upd i) i = some nid then fwd ss (some nid) i else fwd ss (upd i) i) ∧
    (∀ p' i', (j ≤ i' ∨ p' ≠ upd i') → fwd ((List.range j).foldl (fun acc i =>
        if fwd acc (upd i) i = some nid then setFwd acc (upd i) i (fwd acc (some nid) i)
        else acc) ss) p' i' = fwd ss p' i') := by
  intro j
  induction j with
  | zero =>
      exact ⟨⟨rfl, rfl, rfl, rfl, rfl, rfl⟩, fun n => rfl, fun n => rfl,
        fun i hi => absurd hi (by omega), fun p' i' _ => rfl⟩
  | succ j ih =>
      obtain ⟨hfields, hkeys, hlevels, hdone, hframe⟩ := ih
      set acc := (List.range j).foldl (fun acc i =>
        if fwd acc (upd i) i = some nid then setFwd acc (upd i) i (fwd acc (some nid) i)
        else acc) ss with hacc
      have hfoldstep : (List.range (j + 1)).foldl (fun acc i =>
          if fwd acc (upd i) i = some nid then setFwd acc (upd i) i (fwd acc (some nid) i)
          else acc) ss
          = if fwd acc (upd j) j = some nid then setFwd acc (upd j) j (fwd acc (some nid) j)
            else acc := by
        rw [List.range_succ, List.foldl_append]
        rfl
      have hcondeq : fwd acc (upd j) j = fwd ss (upd j) j :=
        hframe (upd j) j (Or.inl (le_refl j))
      have hvaleq : fwd acc (some nid) j = fwd ss (some nid) j :=
        hframe (some nid) j (Or.inr (Ne.symm (hne j)))
      by_cases hcond : fwd ss (upd j) j = some nid
      · have hstep : (List.range (j + 1)).foldl (fun acc i =>
            if fwd acc (upd i) i = some nid then setFwd acc (upd i) i (fwd acc (some nid) i)
            else acc) ss = setFwd acc (upd j) j (fwd acc (some nid) j) := by
          rw [hfoldstep, hcondeq, if_pos hcond]
        refine ⟨?_, ?_, ?_, ?_, ?_⟩
        · rw [hstep]
          refine ⟨?_, ?_, ?_, ?_, ?_, ?_⟩
          · rw [setFwd_nodes_length, hfields.1]
          · rw [setFwd_headForward_length, hfields.2.1]
          · rw [setFwd_dict, hfields.2.2.1]
          · rw [setFwd_level, hfields.2.2.2.1]
          · rw [setFwd_length, hfields.2.2.2.2.1]
          · rw [setFwd_rnd, hfields.2.2.2.2.2]
        · intro n
          rw [hstep, nodeKey_setFwd, hkeys n]
        · intro n
          rw [hstep, nodeLevel_setFwd, hlevels n]
        · intro i0 hi0
          rw [hstep]
          by_cases hij : i0 = j
          · rw [hij]
            have hself : fwd (setFwd acc (upd j) j (fwd acc (some nid) j)) (upd j) j
                = fwd acc (some nid) j :=
              fwd_setFwd_of_read acc ss (upd j) j (fwd acc (some nid) j)
                hfields.2.1 hfields.1 hlevels hcond
            rw [hself, hvaleq, if_pos hcond]
          · have h1 : fwd (setFwd acc (upd j) j (fwd acc (some nid) j)) (upd i0) i0
                = fwd acc (upd i0) i0 :=
              fwd_setFwd_other _ _ (Or.inr hij)
            rw [h1]
            exact hdone i0 (by omega)
        · intro p' i' hc
          rw [hstep]
          by_cases hij : i' = j
          · have hp' : p' ≠ upd i' := by
              rcases hc with hc | hc
              · omega
              · exact hc
            have h1 : fwd (setFwd acc (upd j) j (fwd acc (some nid) j)) p' i'
                = fwd acc p' i' := by
              apply fwd_setFwd_other
              left
              rw [hij] at hp'
              exact hp'
            rw [h1]
            exact hframe p' i' (Or.inr hp')
          · have h1 : fwd (setFwd acc (upd j) j (fwd acc (some nid) j)) p' i'
                = fwd acc p' i' :=
              fwd_setFwd_other _ _ (Or.inr hij)
            rw [h1]
            refine hframe p' i' ?_
            rcases hc with hc | hc
            · exact Or.inl (by omega)
            · exact Or.inr hc
      · have hstep : (List.range (j + 1)).foldl (fun acc i =>
            if fwd acc (upd i) i = some nid then setFwd acc (upd i) i (fwd acc (some nid) i)
            else acc) ss = acc := by
          rw [hfoldstep, hcondeq, if_neg hcond]
        refine ⟨?_, ?_, ?_, ?_, ?_⟩
        · rw [hstep]
          exact hfields
        · intro n
          rw [hstep]
          exact hkeys n
        · intro n
          rw [hstep]
          exact hlevels n
        · intro i0 hi0
          rw [hstep]
          by_cases hij : i0 = j
          · rw [hij, if_neg hcond]
            exact hcondeq
          · exact hdone i0 (by omega)
        · intro p' i' hc
          rw [hstep]
          refine hframe p' i' ?_
          rcases hc with hc | hc
          · exact Or.inl (by omega)
          · exact Or.inr hc

/-- Rebuild a level chain after unlinking `nid` (the level\'s predecessor
slot `u` now holds `nid`\'s old successor). -/
theorem build_deleted_chain {T : Type} {S ss : SortedSet T} {i : Nat}
    {A B : List Nat} {u : Option Nat} {nid : Nat}
    (hch : NodeChain ss i none (A ++ nid :: B))
    (hnd : (A ++ nid :: B).Nodup)
    (hu : u = ptrAfter none A)
    (hlink : fwd S u i = fwd ss (some nid) i)
    (hother : ∀ pp : Option Nat, pp ≠ u → fwd S pp i = fwd ss pp i) :
    NodeChain S i none (A ++ B) := by
  obtain ⟨z, hsegAll, hz⟩ := hch
  obtain ⟨y, hsegA, hsegNB⟩ := seg_split hsegAll
  have hy : y = u := by rw [seg_last hsegA, hu]
  subst hy
  obtain ⟨hfy, hsegB⟩ := seg_cons_inv hsegNB
  rcases List.nodup_append.mp hnd with ⟨hndA, hndNB, hdisj⟩
  have hndB := (List.nodup_cons.mp hndNB).2
  have hAnoty : ∀ n ∈ A, some n ≠ y → fwd S (some n) i = fwd ss (some n) i := by
    intro n _ hny
    exact hother (some n) hny
  have hSsegA : Seg S i none A y := by
    refine seg_transfer hsegA hndA ?_ hAnoty
    intro hne
    refine hother none ?_
    rw [seg_last hsegA]
    unfold ptrAfter
    cases hgl : A.getLast? with
    | none =>
        exfalso
        rw [List.getLast?_eq_getLast _ hne] at hgl
        cases hgl
    | some a => intro hc; cases hc
  have hnoty : ∀ n, n ∈ B → some n ≠ y := by
    intro n hn hc
    rw [seg_last hsegA] at hc
    unfold ptrAfter at hc
    cases hgl : A.getLast? with
    | none => rw [hgl] at hc; cases hc
    | some a =>
        rw [hgl] at hc
        rw [Option.some.injEq] at hc
        rw [← hc] at hgl
        exact hdisj (List.mem_of_mem_getLast? hgl) (List.mem_cons_of_mem _ hn)
  cases B with
  | nil =>
      have hznid : z = some nid := seg_nil_inv hsegB
      refine ⟨y, ?_, ?_⟩
      · simpa using hSsegA
      · rw [hlink, ← hznid]
        exact hz
  | cons b0 B2 =>
      obtain ⟨hfnid, hsegB2⟩ := seg_cons_inv hsegB
      have hSfy : fwd S y i = some b0 := by rw [hlink, hfnid]
      have hSsegB2 : Seg S i (some b0) B2 z := by
        refine seg_transfer hsegB2 (List.nodup_cons.mp hndB).2 ?_ ?_
        · intro _
          exact hother (some b0) (hnoty b0 (by simp))
        · intro n hn _
          exact hother (some n) (hnoty n (by simp [hn]))
      have hzS : fwd S z i = none := by
        have hzafter := seg_last hsegB2
        have hzmem : ∃ m, z = some m ∧ m ∈ b0 :: B2 := by
          rw [hzafter]
          unfold ptrAfter
          cases hgl : B2.getLast? with
          | none => exact ⟨b0, rfl, by simp⟩
          | some a =>
              refine ⟨a, rfl, ?_⟩
              exact List.mem_cons_of_mem _ (List.mem_of_mem_getLast? hgl)
        obtain ⟨m, hzm, hmmem⟩ := hzmem
        rw [hzm]
        rw [hother (some m) (hnoty m hmmem)]
        rw [← hzm]
        exact hz
      refine ⟨z, ?_, hzS⟩
      exact seg_append hSsegA (Seg.cons hSfy hSsegB2)

/-- `deleteNode` unlinks the node at every level, drops empty top levels,
and removes its member from the dict; the level lists lose exactly
`nid`. -/
theorem deleteNode_preserves {T : Type} [LinearOrder T] [Inhabited T]
    {ss : SortedSet T} {ls : Nat → List Nat} (W : WfAux ss ls)
    {nid : Nat} (hmem : nid ∈ ls 0) :
    ∃ ls', WfAux (deleteNode ss nid) ls' ∧
      ls' 0 = (ls 0).erase nid ∧
      (∀ n, nodeKey (deleteNode ss nid) n = nodeKey ss n) ∧
      (deleteNode ss nid).dict = aerase (nodeMember ss nid) ss.dict ∧
      (deleteNode ss nid).length = ss.length - 1 ∧
      (deleteNode ss nid).rnd = ss.rnd ∧
      (deleteNode ss nid).nodes.length = ss.nodes.length ∧
      (deleteNode ss nid).level ≤ ss.level := by
  set key : Int × T := nodeKey ss nid with hkeydef
  set pr : Nat → Bool := keyPred ss key with hprdef
  set S2 : SortedSet T := (List.range ss.level).foldl (fun acc i =>
      if fwd acc (updAt ss key i) i = some nid then
        setFwd acc (updAt ss key i) i (fwd acc (some nid) i)
      else acc) ss with hS2
  have hdel : deleteNode ss nid = { S2 with level := shrinkLevel S2 S2.level, dict := aerase (nodeMember ss nid) S2.dict, length := S2.length - 1 } := rfl
  have hlev0 : 0 < ss.level := by have := W.levelPos; omega
  have hupd_ne : ∀ i, updAt ss key i ≠ some nid := by
    intro i hc
    rcases updAt_valid W key i with h | ⟨m, hm, _, _, _, _, hklt⟩
    · rw [h] at hc
      cases hc
    · rw [hm] at hc
      rw [Option.some.injEq] at hc
      rw [hc] at hklt
      rw [← hkeydef] at hklt
      exact keyLt_irrefl key hklt
  obtain ⟨hfields, hkeys, hlevels, hdone, hframe⟩ :=
    delete_fold_spec ss (updAt ss key) nid hupd_ne ss.level
  rw [← hS2] at hfields hkeys hlevels hdone hframe
  set D : SortedSet T := { S2 with level := shrinkLevel S2 S2.level, dict := aerase (nodeMember ss nid) S2.dict, length := S2.length - 1 } with hD
  have hfwdD : ∀ pp i, fwd D pp i = fwd S2 pp i := fun _ _ => rfl
  have hkeyD : ∀ n, nodeKey D n = nodeKey ss n := by
    intro n
    have h1 : nodeKey D n = nodeKey S2 n := rfl
    rw [h1, hkeys n]
  have hlevelD : ∀ n, nodeLevel D n = nodeLevel ss n := by
    intro n
    have h1 : nodeLevel D n = nodeLevel S2 n := rfl
    rw [h1, hlevels n]
  have hDnodes : D.nodes.length = ss.nodes.length := hfields.1
  have hDhead : D.headForward.length = maxLevel := by
    have h1 : D.headForward.length = S2.headForward.length := rfl
    rw [h1, hfields.2.1]
    exact W.headLen
  have hDlevel : D.level = shrinkLevel S2 ss.level := by
    have h1 : D.level = shrinkLevel S2 S2.level := rfl
    rw [h1, hfields.2.2.2.1]
  have hDrnd : D.rnd = ss.rnd := by
    have h1 : D.rnd = S2.rnd := rfl
    rw [h1, hfields.2.2.2.2.2]
  have hDdict : D.dict = aerase (nodeMember ss nid) ss.dict := by
    have h1 : D.dict = aerase (nodeMember ss nid) S2.dict := rfl
    rw [h1, hfields.2.2.1]
  have hDlength : D.length = ss.length - 1 := by
    have h1 : D.length = S2.length - 1 := rfl
    rw [h1, hfields.2.2.2.2.1]
  have hshrink_pos : 1 ≤ shrinkLevel S2 ss.level := shrinkLevel_pos S2 ss.level (by omega)
  have hshrink_le : shrinkLevel S2 ss.level ≤ ss.level := shrinkLevel_le S2 ss.level
  have hnd0 : (ls 0).Nodup := chainOk_nodup (W.chainsOk 0 hlev0)
  -- splitting a level list that contains the node
  have hEraseSplit : ∀ i, i < ss.level → nid ∈ ls i →
      (ls i).dropWhile pr = nid :: ((ls i).dropWhile pr).tail ∧
      (ls i).erase nid = (ls i).takeWhile pr ++ ((ls i).dropWhile pr).tail := by
    intro i hi hmi
    obtain ⟨A, B, hAB⟩ := List.append_of_mem hmi
    have hpw := (W.chainsOk i hi).2.1
    rw [hAB] at hpw
    rcases List.pairwise_append.mp hpw with ⟨_, _, hcross⟩
    have hsatA : ∀ a ∈ A, pr a = true := by
      intro a ha
      have hlt := hcross a ha nid (List.mem_cons_self _ _)
      have hlt2 : keyLt (nodeKey ss a) key := by
        rw [hkeydef]
        exact hlt
      rw [hprdef]
      unfold keyPred
      exact decide_eq_true hlt2
    have hprnid : pr nid = false := by
      rw [hprdef]
      unfold keyPred
      rw [← hkeydef]
      exact decide_eq_false (keyLt_irrefl key)
    have htw : (ls i).takeWhile pr = A := by
      rw [hAB, takeWhile_append_sat pr A (nid :: B) hsatA]
      simp [List.takeWhile_cons, hprnid]
    have hdw : (ls i).dropWhile pr = nid :: B := by
      have hcat := List.takeWhile_append_dropWhile pr (ls i)
      rw [htw] at hcat
      conv_rhs at hcat => rw [hAB]
      exact List.append_cancel_left hcat
    constructor
    · rw [hdw]
      rfl
    · rw [htw, hdw]
      rw [hAB]
      have hnidA : nid ∉ A := by
        intro hcon
        have h1 := hsatA nid hcon
        rw [hprnid] at h1
        cases h1
      rw [List.erase_append_right _ hnidA, List.erase_cons_head]
      rfl
  -- slots of a level that does not contain the node are untouched
  have hfwd_pres : ∀ i, i < ss.level → nid ∉ ls i →
      ∀ pp, fwd S2 pp i = fwd ss pp i := by
    intro i hi hni pp
    by_cases hpp : pp = updAt ss key i
    · have hcond : fwd ss (updAt ss key i) i ≠ some nid := by
        have h1 := fwd_updAt W key i hi
        rw [← hprdef] at h1
        rw [h1]
        intro hc
        cases hdwl : (ls i).dropWhile pr with
        | nil => rw [hdwl] at hc; cases hc
        | cons b bs =>
            rw [hdwl] at hc
            simp only [List.head?_cons, Option.some.injEq] at hc
            rw [hc] at hdwl
            have hx : nid ∈ (ls i).dropWhile pr := by
              rw [hdwl]
              exact List.mem_cons_self _ _
            exact hni ((List.dropWhile_sublist _).subset hx)
      have h := hdone i hi
      rw [if_neg hcond] at h
      rw [hpp, h]
    · exact hframe pp i (Or.inr hpp)
  -- the rebuilt chains
  have hchainD : ∀ i, i < ss.level → NodeChain D i none ((ls i).erase nid) := by
    intro i hi
    by_cases hmi : nid ∈ ls i
    · obtain ⟨hdw, her⟩ := hEraseSplit i hi hmi
      rw [her]
      have hcat : (ls i).takeWhile pr ++ nid :: ((ls i).dropWhile pr).tail = ls i := by
        conv_rhs => rw [← List.takeWhile_append_dropWhile pr (ls i)]
        rw [← hdw]
      have hcond : fwd ss (updAt ss key i) i = some nid := by
        have h1 := fwd_updAt W key i hi
        rw [← hprdef] at h1
        rw [h1, hdw]
        rfl
      have hlink : fwd D (updAt ss key i) i = fwd ss (some nid) i := by
        rw [hfwdD]
        have h := hdone i hi
        rw [if_pos hcond] at h
        exact h
      have hother : ∀ pp : Option Nat, pp ≠ updAt ss key i → fwd D pp i = fwd ss pp i := by
        intro pp hpp
        rw [hfwdD]
        exact hframe pp i (Or.inr hpp)
      have hu : updAt ss key i = ptrAfter none ((ls i).takeWhile pr) := by
        have h1 := updAt_spec W key i hi
        rw [← hprdef] at h1
        exact h1
      have hch2 : NodeChain ss i none
          ((ls i).takeWhile pr ++ nid :: ((ls i).dropWhile pr).tail) := by
        rw [hcat]
        exact (W.chainsOk i hi).1
      have hnd2 : ((ls i).takeWhile pr ++ nid :: ((ls i).dropWhile pr).tail).Nodup := by
        rw [hcat]
        exact chainOk_nodup (W.chainsOk i hi)
      exact build_deleted_chain hch2 hnd2 hu hlink hother
    · rw [List.erase_of_not_mem hmi]
      refine transfer_chain (W.chainsOk i hi).1 (chainOk_nodup (W.chainsOk i hi)) ?_ ?_
      · rw [hfwdD]
        exact hfwd_pres i hi hmi none
      · intro n _
        rw [hfwdD]
        exact hfwd_pres i hi hmi (some n)
  set ls' : Nat → List Nat := fun i =>
    if i < ss.level then (ls i).erase nid else [] with hls'
  have hlsAt : ∀ i, ls' i = if i < ss.level then (ls i).erase nid else [] := fun _ => rfl
  have hl0 : ls' 0 = (ls 0).erase nid := by
    rw [hlsAt 0, if_pos hlev0]
  have hmemD : ∀ n, nodeMember D n = nodeMember ss n := by
    intro n
    have h1 := hkeyD n
    unfold nodeKey at h1
    exact congrArg Prod.snd h1
  refine ⟨ls', ?_, hl0, hkeyD, ?_, ?_, ?_, ?_, ?_⟩
  pick_goal 2
  · exact hDdict
  pick_goal 2
  · exact hDlength
  pick_goal 2
  · exact hDrnd
  pick_goal 2
  · exact hDnodes
  pick_goal 2
  · show D.level ≤ ss.level
    rw [hDlevel]
    exact hshrink_le
  show WfAux D ls'
  constructor
  · rw [hDlevel]
    exact hshrink_pos
  · rw [hDlevel]
    have := W.levelLe
    omega
  · exact hDhead
  · rw [hDrnd]
    exact W.rndOk
  · intro i hi
    rw [hDlevel] at hi
    rw [hfwdD]
    by_cases hiss : i < ss.level
    · exact shrinkLevel_none S2 ss.level i hi hiss
    · rw [hframe none i (Or.inl (by omega))]
      exact W.headAbove i (by omega)
  · intro i hi
    rw [hDlevel] at hi
    have hiss : i < ss.level := by omega
    rw [hlsAt _, if_pos hiss]
    refine ⟨hchainD i hiss, ?_, ?_⟩
    · have hpw : ((ls i).erase nid).Pairwise
          (fun a b => keyLt (nodeKey ss a) (nodeKey ss b)) :=
        List.Pairwise.sublist (List.erase_sublist _ _) (W.chainsOk i hiss).2.1
      apply List.Pairwise.imp ?_ hpw
      intro a b hab
      rw [hkeyD a, hkeyD b]
      exact hab
    · intro n hn
      have hnmem : n ∈ ls i := List.mem_of_mem_erase hn
      have hv := (W.chainsOk i hiss).2.2 n hnmem
      rw [hDnodes, hlevelD n]
      exact hv
  · intro i hi n hn
    rw [hDlevel] at hi
    have hi1 : i + 1 < ss.level := by omega
    rw [hlsAt _, if_pos hi1] at hn
    rw [hlsAt _, if_pos (by omega : i < ss.level)]
    have hnd1 : (ls (i + 1)).Nodup := chainOk_nodup (W.chainsOk (i + 1) hi1)
    rcases (List.Nodup.mem_erase_iff hnd1).mp hn with ⟨hne, hnmem⟩
    have hndi : (ls i).Nodup := chainOk_nodup (W.chainsOk i (by omega))
    exact (List.Nodup.mem_erase_iff hndi).mpr ⟨hne, W.subChain i hi1 n hnmem⟩
  · rw [hDlength, W.lengthEq, hl0, List.length_erase_of_mem hmem]
    have hpos : 1 ≤ (ls 0).length := List.length_pos_of_mem hmem
    omega
  · rw [hl0]
    unfold DictOk
    rw [hDdict]
    refine ⟨keys_aerase_nodup _ W.dictOk.1, ?_, ?_⟩
    · intro n hn
      rcases (List.Nodup.mem_erase_iff hnd0).mp hn with ⟨hne, hnmem⟩
      rw [hmemD n]
      have hmne : nodeMember ss n ≠ nodeMember ss nid := by
        intro hc
        exact hne (member_inj_on_l0 W n hnmem nid hmem hc)
      rw [alookup_aerase_ne ss.dict hmne]
      exact W.dictOk.2.1 n hnmem
    · intro m q hq
      have hmne : m ≠ nodeMember ss nid := by
        intro hc
        rw [hc, alookup_aerase_self (nodeMember ss nid) ss.dict W.dictOk.1] at hq
        cases hq
      rw [alookup_aerase_ne ss.dict hmne] at hq
      have hold := W.dictOk.2.2 m q hq
      have hqne : q ≠ nid := by
        intro hc
        rw [hc] at hold
        exact hmne hold.2.symm
      refine ⟨(List.Nodup.mem_erase_iff hnd0).mpr ⟨hqne, hold.1⟩, ?_⟩
      rw [hmemD q]
      exact hold.2

theorem newSortedSet_head_none {T : Type} (rnd : List Nat) (i : Nat) :
    fwd (NewSortedSet rnd : SortedSet T) none i = none := by
  show ((List.replicate maxLevel (none : Option Nat)).get? i).getD none = none
  cases h : (List.replicate maxLevel (none : Option Nat)).get? i with
  | none => rfl
  | some x =>
      have hx := List.get?_mem h
      rw [List.eq_of_mem_replicate hx]
      rfl

/-- The freshly created sorted set is well-formed (given the modelled
randomness stream only yields levels in `1..maxLevel`, as Go\'s
`randomLevel` does). -/
theorem NewSortedSet_wf {T : Type} [LinearOrder T] [Inhabited T]
    (rnd : List Nat) (hrnd : ∀ lv ∈ rnd, 1 ≤ lv ∧ lv ≤ maxLevel) :
    Wf (NewSortedSet rnd : SortedSet T) := by
  refine ⟨fun _ => [], ?_⟩
  constructor
  · exact le_refl 1
  · norm_num [NewSortedSet, maxLevel]
  · simp [NewSortedSet, maxLevel]
  · exact hrnd
  · intro i _
    exact newSortedSet_head_none rnd i
  · intro i _
    refine ⟨⟨none, Seg.nil, newSortedSet_head_none rnd i⟩, List.Pairwise.nil, ?_⟩
    intro n hn
    simp at hn
  · intro i hi
    simp [NewSortedSet] at hi
  · rfl
  · refine ⟨List.nodup_nil, ?_, ?_⟩
    · intro n hn
      simp at hn
    · intro m q hq
      simp [alookup] at hq

theorem insertNode_wf {T : Type} [LinearOrder T] [Inhabited T] {ss : SortedSet T}
    {member : T} (hwf : Wf ss) (hfresh : alookup member ss.dict = none) (score : Int) :
    Wf (insertNode ss score member) := by
  obtain ⟨ls, W⟩ := hwf
  obtain ⟨ls', hW, _⟩ := insertNode_preserves W score member hfresh
  exact ⟨ls', hW⟩

theorem deleteNode_wf {T : Type} [LinearOrder T] [Inhabited T] {ss : SortedSet T}
    {m : T} {nid : Nat} (hwf : Wf ss) (hlook : alookup m ss.dict = some nid) :
    Wf (deleteNode ss nid) := by
  obtain ⟨ls, W⟩ := hwf
  obtain ⟨ls', hW, _⟩ := deleteNode_preserves W (W.dictOk.2.2 m nid hlook).1
  exact ⟨ls', hW⟩

theorem reinsert_wf {T : Type} [LinearOrder T] [Inhabited T] {ss : SortedSet T}
    {m : T} {nid : Nat} (hwf : Wf ss) (hlook : alookup m ss.dict = some nid)
    (score : Int) : Wf (insertNode (deleteNode ss nid) score m) := by
  obtain ⟨ls, W⟩ := hwf
  have hnid := W.dictOk.2.2 m nid hlook
  obtain ⟨ls2, W2, hl0, hkeys, hdict, _⟩ := deleteNode_preserves W hnid.1
  have hfresh : alookup m (deleteNode ss nid).dict = none := by
    rw [hdict, hnid.2]
    exact alookup_aerase_self m ss.dict W.dictOk.1
  obtain ⟨ls3, W3, _⟩ := insertNode_preserves W2 score m hfresh
  exact ⟨ls3, W3⟩

theorem ZAdd_wf {T : Type} [LinearOrder T] [Inhabited T] (ss : SortedSet T)
    (pairs : List (T × Int)) (hwf : Wf ss) : Wf (ZAdd ss pairs).1 := by
  unfold ZAdd
  suffices h : ∀ acc : SortedSet T × Nat, Wf acc.1 →
      Wf ((pairs.foldl (fun acc p =>
        match alookup p.1 acc.1.dict with
        | some nid =>
            if nodeScore acc.1 nid ≠ p.2 then
              (insertNode (deleteNode acc.1 nid) p.2 p.1, acc.2)
            else acc
        | none => (insertNode acc.1 p.2 p.1, acc.2 + 1)) acc).1) by
    exact h (ss, 0) hwf
  induction pairs with
  | nil => intro acc h; exact h
  | cons p rest ih =>
      intro acc h
      rw [List.foldl_cons]
      apply ih
      show Wf (match alookup p.1 acc.1.dict with
        | some nid =>
            if nodeScore acc.1 nid ≠ p.2 then
              (insertNode (deleteNode acc.1 nid) p.2 p.1, acc.2)
            else acc
        | none => (insertNode acc.1 p.2 p.1, acc.2 + 1)).1
      cases halook : alookup p.1 acc.1.dict with
      | none =>
          exact insertNode_wf h halook p.2
      | some nid =>
          show Wf (if nodeScore acc.1 nid ≠ p.2 then
              (insertNode (deleteNode acc.1 nid) p.2 p.1, acc.2) else acc).1
          by_cases hsc : nodeScore acc.1 nid ≠ p.2
          · rw [if_pos hsc]
            exact reinsert_wf h halook p.2
          · rw [if_neg hsc]
            exact h

theorem ZRem_wf {T : Type} [LinearOrder T] [Inhabited T] (ss : SortedSet T)
    (members : List T) (hwf : Wf ss) : Wf (ZRem ss members).1 := by
  unfold ZRem
  suffices h : ∀ acc : SortedSet T × Nat, Wf acc.1 →
      Wf ((members.foldl (fun acc m =>
        match alookup m acc.1.dict with
        | some nid => (deleteNode acc.1 nid, acc.2 + 1)
        | none => acc) acc).1) by
    exact h (ss, 0) hwf
  induction members with
  | nil => intro acc h; exact h
  | cons m rest ih =>
      intro acc h
      rw [List.foldl_cons]
      apply ih
      show Wf (match alookup m acc.1.dict with
        | some nid => (deleteNode acc.1 nid, acc.2 + 1)
        | none => acc).1
      cases halook : alookup m acc.1.dict with
      | none =>
          exact h
      | some nid =>
          exact deleteNode_wf h halook

theorem applyOp_wf {T : Type} [LinearOrder T] [Inhabited T] (ss : SortedSet T)
    (op : SSOp T) (hwf : Wf ss) : Wf (applyOp ss op) := by
  cases op with
  | add pairs => exact ZAdd_wf ss pairs hwf
  | rem members => exact ZRem_wf ss members hwf

theorem applyOps_wf {T : Type} [LinearOrder T] [Inhabited T] (ss : SortedSet T)
    (ops : List (SSOp T)) (hwf : Wf ss) : Wf (applyOps ss ops) := by
  unfold applyOps
  induction ops generalizing ss with
  | nil => exact hwf
  | cons op rest ih =>
      rw [List.foldl_cons]
      exact ih (applyOp ss op) (applyOp_wf ss op hwf)

/-- The concrete scenario of the spec: `a`, `b`, `c` with scores 1, 2, 3
added one call each, against the seeded level stream `[1, 2, 1]`. -/
def demoOps : List (SSOp Char) :=
  [SSOp.add [('a', 1)], SSOp.add [('b', 2)], SSOp.add [('c', 3)]]

def demoSS : SortedSet Char := applyOps (NewSortedSet [1, 2, 1]) demoOps

/-- **C5.** For every sequence of `ZAdd`/`ZRem` operations on a sorted
set, an in-order traversal of the skip list at level 0 visits members in
strictly ascending `(score, member)` order — ties on equal score broken
by comparing the members. -/
theorem sortedset_level0_sorted {T : Type} [LinearOrder T] [Inhabited T]
    (rnd : List Nat) (hrnd : ∀ lv ∈ rnd, 1 ≤ lv ∧ lv ≤ maxLevel)
    (ops : List (SSOp T)) :
    (chain (applyOps (NewSortedSet rnd) ops) 0).Pairwise
      (fun a b => keyLt (nodeKey (applyOps (NewSortedSet rnd) ops) a)
        (nodeKey (applyOps (NewSortedSet rnd) ops) b)) := by
  obtain ⟨ls, W⟩ := applyOps_wf (NewSortedSet rnd) ops (NewSortedSet_wf rnd hrnd)
  have h0 : 0 < (applyOps (NewSortedSet rnd) ops).level := by
    have := W.levelPos
    omega
  rw [chain_eq_of_chainOk (W.chainsOk 0 h0)]
  exact (W.chainsOk 0 h0).2.1

theorem sortedset_level0_sorted_witness :
    (∀ lv ∈ [1, 2, 1], 1 ≤ lv ∧ lv ≤ maxLevel) ∧
    (chain (applyOps (NewSortedSet [1, 2, 1]) demoOps) 0).Pairwise
      (fun a b => keyLt (nodeKey (applyOps (NewSortedSet [1, 2, 1]) demoOps) a)
        (nodeKey (applyOps (NewSortedSet [1, 2, 1]) demoOps) b)) :=
  ⟨by decide, sortedset_level0_sorted [1, 2, 1] (by decide) demoOps⟩

/-- **C6.** After every sequence of `ZAdd`/`ZRem` operations, the
members on the level-0 traversal coincide with the keys of the member
index (each appearing exactly once in each), and the `length` field
equals both counts. -/
theorem sortedset_index_agreement {T : Type} [LinearOrder T] [Inhabited T]
    (rnd : List Nat) (hrnd : ∀ lv ∈ rnd, 1 ≤ lv ∧ lv ≤ maxLevel)
    (ops : List (SSOp T)) :
    ((chain (applyOps (NewSortedSet rnd) ops) 0).map
        (nodeMember (applyOps (NewSortedSet rnd) ops))).Nodup ∧
    ((applyOps (NewSortedSet rnd) ops).dict.map Prod.fst).Nodup ∧
    (∀ m, m ∈ (chain (applyOps (NewSortedSet rnd) ops) 0).map
        (nodeMember (applyOps (NewSortedSet rnd) ops)) ↔
      m ∈ (applyOps (NewSortedSet rnd) ops).dict.map Prod.fst) ∧
    (applyOps (NewSortedSet rnd) ops).length
      = ((chain (applyOps (NewSortedSet rnd) ops) 0).length : Int) ∧
    (applyOps (NewSortedSet rnd) ops).length
      = (((applyOps (NewSortedSet rnd) ops).dict.map Prod.fst).length : Int) := by
  obtain ⟨ls, W⟩ := applyOps_wf (NewSortedSet rnd) ops (NewSortedSet_wf rnd hrnd)
  have h0 : 0 < (applyOps (NewSortedSet rnd) ops).level := by
    have := W.levelPos
    omega
  have hch : chain (applyOps (NewSortedSet rnd) ops) 0 = ls 0 :=
    chain_eq_of_chainOk (W.chainsOk 0 h0)
  rw [hch]
  have hiff : ∀ m, m ∈ (ls 0).map (nodeMember (applyOps (NewSortedSet rnd) ops)) ↔
      m ∈ (applyOps (NewSortedSet rnd) ops).dict.map Prod.fst := by
    intro m
    constructor
    · intro hm
      rcases List.mem_map.mp hm with ⟨n, hn, hnm⟩
      have h1 := W.dictOk.2.1 n hn
      rw [hnm] at h1
      exact key_mem_of_alookup_some h1
    · intro hm
      have hsome := alookup_isSome_of_mem_keys hm
      cases hq : alookup m (applyOps (NewSortedSet rnd) ops).dict with
      | none => rw [hq] at hsome; cases hsome
      | some q =>
          have h2 := W.dictOk.2.2 m q hq
          exact List.mem_map.mpr ⟨q, h2.1, h2.2⟩
  have hperm := (List.perm_ext_iff_of_nodup (members_l0_nodup W) W.dictOk.1).mpr hiff
  have hlen := hperm.length_eq
  rw [List.length_map] at hlen
  refine ⟨members_l0_nodup W, W.dictOk.1, hiff, W.lengthEq, ?_⟩
  rw [W.lengthEq, hlen]

theorem sortedset_index_agreement_witness :
    (∀ lv ∈ [1, 2, 1], 1 ≤ lv ∧ lv ≤ maxLevel) ∧
    (((chain (applyOps (NewSortedSet [1, 2, 1]) demoOps) 0).map
        (nodeMember (applyOps (NewSortedSet [1, 2, 1]) demoOps))).Nodup ∧
    ((applyOps (NewSortedSet [1, 2, 1]) demoOps).dict.map Prod.fst).Nodup ∧
    (∀ m, m ∈ (chain (applyOps (NewSortedSet [1, 2, 1]) demoOps) 0).map
        (nodeMember (applyOps (NewSortedSet [1, 2, 1]) demoOps)) ↔
      m ∈ (applyOps (NewSortedSet [1, 2, 1]) demoOps).dict.map Prod.fst) ∧
    (applyOps (NewSortedSet [1, 2, 1]) demoOps).length
      = ((chain (applyOps (NewSortedSet [1, 2, 1]) demoOps) 0).length : Int) ∧
    (applyOps (NewSortedSet [1, 2, 1]) demoOps).length
      = (((applyOps (NewSortedSet [1, 2, 1]) demoOps).dict.map Prod.fst).length : Int)) :=
  ⟨by decide, sortedset_index_agreement [1, 2, 1] (by decide) demoOps⟩

/-- The `ZAdd` fold, tracked pair by pair against the starting state
`ss0`: the count increments exactly on previously-absent members, every
processed pair ends up bound to a node carrying its `(score, member)`,
an unchanged-score member keeps its node, and a changed or new member is
bound to a freshly allocated node (never an in-place mutation). -/
theorem zadd_fold_spec {T : Type} [LinearOrder T] [Inhabited T]
    {ss0 : SortedSet T} (hwf0 : Wf ss0) :
    ∀ (pairs done : List (T × Int)) (acc : SortedSet T × Nat),
      ((done ++ pairs).map Prod.fst).Nodup →
      Wf acc.1 →
      ss0.nodes.length ≤ acc.1.nodes.length →
      (∀ n, n < ss0.nodes.length → nodeKey acc.1 n = nodeKey ss0 n) →
      (∀ m, m ∉ done.map Prod.fst → alookup m acc.1.dict = alookup m ss0.dict) →
      (∀ p ∈ done, ∃ nid', alookup p.1 acc.1.dict = some nid' ∧
        nodeKey acc.1 nid' = (p.2, p.1) ∧
        ((∃ nid, alookup p.1 ss0.dict = some nid ∧ nodeScore ss0 nid = p.2 ∧ nid' = nid) ∨
         ((∀ nid, alookup p.1 ss0.dict = some nid → nodeScore ss0 nid ≠ p.2) ∧
           ss0.nodes.length ≤ nid'))) →
      acc.2 = (done.filter (fun q => (alookup q.1 ss0.dict).isNone)).length →
      Wf ((pairs.foldl (fun acc p =>
          match alookup p.1 acc.1.dict with
          | some nid =>
              if nodeScore acc.1 nid ≠ p.2 then
                (insertNode (deleteNode acc.1 nid) p.2 p.1, acc.2)
              else acc
          | none => (insertNode acc.1 p.2 p.1, acc.2 + 1)) acc).1) ∧
      ss0.nodes.length ≤ ((pairs.foldl (fun acc p =>
          match alookup p.1 acc.1.dict with
          | some nid =>
              if nodeScore acc.1 nid ≠ p.2 then
                (insertNode (deleteNode acc.1 nid) p.2 p.1, acc.2)
              else acc
          | none => (insertNode acc.1 p.2 p.1, acc.2 + 1)) acc).1).nodes.length ∧
      (∀ n, n < ss0.nodes.length → nodeKey ((pairs.foldl (fun acc p =>
          match alookup p.1 acc.1.dict with
          | some nid =>
              if nodeScore acc.1 nid ≠ p.2 then
                (insertNode (deleteNode acc.1 nid) p.2 p.1, acc.2)
              else acc
          | none => (insertNode acc.1 p.2 p.1, acc.2 + 1)) acc).1) n = nodeKey ss0 n) ∧
      (∀ m, m ∉ (done ++ pairs).map Prod.fst →
        alookup m ((pairs.foldl (fun acc p =>
          match alookup p.1 acc.1.dict with
          | some nid =>
              if nodeScore acc.1 nid ≠ p.2 then
                (insertNode (deleteNode acc.1 nid) p.2 p.1, acc.2)
              else acc
          | none => (insertNode acc.1 p.2 p.1, acc.2 + 1)) acc).1).dict = alookup m ss0.dict) ∧
      (∀ p ∈ done ++ pairs, ∃ nid', alookup p.1 ((pairs.foldl (fun acc p =>
          match alookup p.1 acc.1.dict with
          | some nid =>
              if nodeScore acc.1 nid ≠ p.2 then
                (insertNode (deleteNode acc.1 nid) p.2 p.1, acc.2)
              else acc
          | none => (insertNode acc.1 p.2 p.1, acc.2 + 1)) acc).1).dict = some nid' ∧
        nodeKey ((pairs.foldl (fun acc p =>
          match alookup p.1 acc.1.dict with
          | some nid =>
              if nodeScore acc.1 nid ≠ p.2 then
                (insertNode (deleteNode acc.1 nid) p.2 p.1, acc.2)
              else acc
          | none => (insertNode acc.1 p.2 p.1, acc.2 + 1)) acc).1) nid' = (p.2, p.1) ∧
        ((∃ nid, alookup p.1 ss0.dict = some nid ∧ nodeScore ss0 nid = p.2 ∧ nid' = nid) ∨
         ((∀ nid, alookup p.1 ss0.dict = some nid → nodeScore ss0 nid ≠ p.2) ∧
           ss0.nodes.length ≤ nid'))) ∧
      ((pairs.foldl (fun acc p =>
          match alookup p.1 acc.1.dict with
          | some nid =>
              if nodeScore acc.1 nid ≠ p.2 then
                (insertNode (deleteNode acc.1 nid) p.2 p.1, acc.2)
              else acc
          | none => (insertNode acc.1 p.2 p.1, acc.2 + 1)) acc).2)
        = ((done ++ pairs).filter (fun q => (alookup q.1 ss0.dict).isNone)).length := by
  obtain ⟨ls0L, W0⟩ := hwf0
  intro pairs
  induction pairs with
  | nil =>
      intro done acc hnd hwfA hlen hkeysA hframeA hdoneA hcount
      simp only [List.foldl_nil, List.append_nil]
      exact ⟨hwfA, hlen, hkeysA, hframeA, hdoneA, hcount⟩
  | cons p rest ih =>
      intro done acc hnd hwfA hlen hkeysA hframeA hdoneA hcount
      rw [List.foldl_cons]
      have hassoc : done ++ p :: rest = (done ++ [p]) ++ rest := by simp
      rw [hassoc]
      have hnd' : (((done ++ [p]) ++ rest).map Prod.fst).Nodup := by
        rw [← hassoc]
        exact hnd
      have hndflat := hnd
      rw [List.map_append] at hndflat
      rcases List.nodup_append.mp hndflat with ⟨hndD, hndPR, hdisj⟩
      have hp_not_done : p.1 ∉ done.map Prod.fst := by
        intro hc
        exact hdisj hc (by simp)
      have hlookup_eq : alookup p.1 acc.1.dict = alookup p.1 ss0.dict :=
        hframeA p.1 hp_not_done
      have hne_done : ∀ p0 ∈ done, p0.1 ≠ p.1 := by
        intro p0 hp0 hc
        have h1 : p0.1 ∈ done.map Prod.fst := List.mem_map_of_mem Prod.fst hp0
        have h2 : p0.1 ∈ (p :: rest).map Prod.fst := by
          rw [hc]
          simp
        exact hdisj h1 h2
      obtain ⟨lsA, WA⟩ := hwfA
      have hvalidA : ∀ m0 nid0, alookup m0 acc.1.dict = some nid0 →
          nid0 < acc.1.nodes.length := by
        intro m0 nid0 h
        have h1 := WA.dictOk.2.2 m0 nid0 h
        exact ((WA.chainsOk 0 (by have := WA.levelPos; omega)).2.2 nid0 h1.1).1
      cases halook : alookup p.1 acc.1.dict with
      | none =>
          have hlook0 : alookup p.1 ss0.dict = none := by
            rw [← hlookup_eq]
            exact halook
          obtain ⟨ls', hW', hl0', hknew, hkold, hdict', hlength', hrnd', hnlen'⟩ :=
            insertNode_preserves WA p.2 p.1 halook
          refine ih (done ++ [p]) _ hnd' ⟨ls', hW'⟩ ?_ ?_ ?_ ?_ ?_
          · show ss0.nodes.length ≤ (insertNode acc.1 p.2 p.1).nodes.length
            rw [hnlen']
            omega
          · intro n hn
            show nodeKey (insertNode acc.1 p.2 p.1) n = nodeKey ss0 n
            rw [hkold n (by omega), hkeysA n hn]
          · intro m hm
            rw [List.map_append] at hm
            simp only [List.mem_append, List.map_cons, List.map_nil,
              List.mem_singleton, not_or] at hm
            show alookup m (insertNode acc.1 p.2 p.1).dict = alookup m ss0.dict
            rw [hdict', alookup_ainsert_ne _ _ hm.2]
            exact hframeA m hm.1
          · intro p0 hp0
            rcases List.mem_append.mp hp0 with hp0d | hp0p
            · obtain ⟨nid0, hlk0, hkey0, hdisj0⟩ := hdoneA p0 hp0d
              have hb0 : nid0 < acc.1.nodes.length := hvalidA _ _ hlk0
              refine ⟨nid0, ?_, ?_, hdisj0⟩
              · show alookup p0.1 (insertNode acc.1 p.2 p.1).dict = some nid0
                rw [hdict', alookup_ainsert_ne _ _ (hne_done p0 hp0d)]
                exact hlk0
              · show nodeKey (insertNode acc.1 p.2 p.1) nid0 = (p0.2, p0.1)
                rw [hkold nid0 hb0]
                exact hkey0
            · have hp0e := List.mem_singleton.mp hp0p
              subst hp0e
              refine ⟨acc.1.nodes.length, ?_, hknew, Or.inr ⟨?_, by omega⟩⟩
              · show alookup p0.1 (insertNode acc.1 p0.2 p0.1).dict
                  = some acc.1.nodes.length
                rw [hdict']
                exact alookup_ainsert_self p0.1 acc.1.nodes.length acc.1.dict
              · intro nid0 hc
                rw [hlook0] at hc
                cases hc
          · show acc.2 + 1
              = ((done ++ [p]).filter (fun q => (alookup q.1 ss0.dict).isNone)).length
            rw [List.filter_append, List.length_append, hcount]
            have hpf : ([p].filter (fun q => (alookup q.1 ss0.dict).isNone)).length = 1 := by
              simp [List.filter, hlook0]
            omega
      | some nid =>
          have hlook0 : alookup p.1 ss0.dict = some nid := by
            rw [← hlookup_eq]
            exact halook
          have hmemnid := WA.dictOk.2.2 p.1 nid halook
          have hnid_ss0 := W0.dictOk.2.2 p.1 nid hlook0
          have hnid0_lt : nid < ss0.nodes.length :=
            ((W0.chainsOk 0 (by have := W0.levelPos; omega)).2.2 nid hnid_ss0.1).1
          have hscore_eq : nodeScore ss0 nid = nodeScore acc.1 nid := by
            have h1 := hkeysA nid hnid0_lt
            unfold nodeKey at h1
            exact (congrArg Prod.fst h1).symm
          by_cases hsc : nodeScore acc.1 nid ≠ p.2
          · have hstep : (match (some nid : Option Nat) with
                | some nid =>
                    if nodeScore acc.1 nid ≠ p.2 then
                      (insertNode (deleteNode acc.1 nid) p.2 p.1, acc.2)
                    else acc
                | none => (insertNode acc.1 p.2 p.1, acc.2 + 1))
                = (insertNode (deleteNode acc.1 nid) p.2 p.1, acc.2) := by
              show (if nodeScore acc.1 nid ≠ p.2 then
                  (insertNode (deleteNode acc.1 nid) p.2 p.1, acc.2) else acc)
                = (insertNode (deleteNode acc.1 nid) p.2 p.1, acc.2)
              rw [if_pos hsc]
            rw [hstep]
            obtain ⟨lsD, WD, hDl0, hDkeys, hDdict, hDlen, hDrnd, hDnodes, hDlevel⟩ :=
              deleteNode_preserves WA hmemnid.1
            have hfreshD : alookup p.1 (deleteNode acc.1 nid).dict = none := by
              rw [hDdict, hmemnid.2]
              exact alookup_aerase_self p.1 acc.1.dict WA.dictOk.1
            obtain ⟨ls', hW', hl0', hknew, hkold, hdict', hlength', hrnd', hnlen'⟩ :=
              insertNode_preserves WD p.2 p.1 hfreshD
            refine ih (done ++ [p]) _ hnd' ⟨ls', hW'⟩ ?_ ?_ ?_ ?_ ?_
            · show ss0.nodes.length
                ≤ (insertNode (deleteNode acc.1 nid) p.2 p.1).nodes.length
              rw [hnlen', hDnodes]
              omega
            · intro n hn
              show nodeKey (insertNode (deleteNode acc.1 nid) p.2 p.1) n = nodeKey ss0 n
              rw [hkold n (by rw [hDnodes]; omega), hDkeys n, hkeysA n hn]
            · intro m hm
              rw [List.map_append] at hm
              simp only [List.mem_append, List.map_cons, List.map_nil,
                List.mem_singleton, not_or] at hm
              show alookup m (insertNode (deleteNode acc.1 nid) p.2 p.1).dict
                = alookup m ss0.dict
              rw [hdict', alookup_ainsert_ne _ _ hm.2, hDdict, hmemnid.2,
                alookup_aerase_ne acc.1.dict hm.2]
              exact hframeA m hm.1
            · intro p0 hp0
              rcases List.mem_append.mp hp0 with hp0d | hp0p
              · obtain ⟨nid0, hlk0, hkey0, hdisj0⟩ := hdoneA p0 hp0d
                have hb0 : nid0 < acc.1.nodes.length := hvalidA _ _ hlk0
                refine ⟨nid0, ?_, ?_, hdisj0⟩
                · show alookup p0.1 (insertNode (deleteNode acc.1 nid) p.2 p.1).dict
                    = some nid0
                  rw [hdict', alookup_ainsert_ne _ _ (hne_done p0 hp0d), hDdict,
                    hmemnid.2, alookup_aerase_ne acc.1.dict (hne_done p0 hp0d)]
                  exact hlk0
                · show nodeKey (insertNode (deleteNode acc.1 nid) p.2 p.1) nid0
                    = (p0.2, p0.1)
                  rw [hkold nid0 (by rw [hDnodes]; omega), hDkeys nid0]
                  exact hkey0
              · have hp0e := List.mem_singleton.mp hp0p
                subst hp0e
                refine ⟨(deleteNode acc.1 nid).nodes.length, ?_, hknew,
                  Or.inr ⟨?_, by rw [hDnodes]; omega⟩⟩
                · show alookup p0.1 (insertNode (deleteNode acc.1 nid) p0.2 p0.1).dict
                    = some (deleteNode acc.1 nid).nodes.length
                  rw [hdict']
                  exact alookup_ainsert_self p0.1 _ _
                · intro nid0 hc
                  rw [hlook0, Option.some.injEq] at hc
                  rw [← hc, hscore_eq]
                  exact hsc
            · show acc.2
                = ((done ++ [p]).filter (fun q => (alookup q.1 ss0.dict).isNone)).length
              rw [List.filter_append, List.length_append, hcount]
              have hpf : ([p].filter (fun q => (alookup q.1 ss0.dict).isNone)).length = 0 := by
                simp [List.filter, hlook0]
              omega
          · have hsceq : nodeScore acc.1 nid = p.2 := by
              push_neg at hsc
              exact hsc
            have hstep : (match (some nid : Option Nat) with
                | some nid =>
                    if nodeScore acc.1 nid ≠ p.2 then
                      (insertNode (deleteNode acc.1 nid) p.2 p.1, acc.2)
                    else acc
                | none => (insertNode acc.1 p.2 p.1, acc.2 + 1)) = acc := by
              show (if nodeScore acc.1 nid ≠ p.2 then
                  (insertNode (deleteNode acc.1 nid) p.2 p.1, acc.2) else acc) = acc
              rw [if_neg hsc]
            rw [hstep]
            refine ih (done ++ [p]) acc hnd' ⟨lsA, WA⟩ hlen hkeysA ?_ ?_ ?_
            · intro m hm
              rw [List.map_append] at hm
              simp only [List.mem_append, List.map_cons, List.map_nil,
                List.mem_singleton, not_or] at hm
              exact hframeA m hm.1
            · intro p0 hp0
              rcases List.mem_append.mp hp0 with hp0d | hp0p
              · exact hdoneA p0 hp0d
              · have hp0e := List.mem_singleton.mp hp0p
                subst hp0e
                refine ⟨nid, halook, ?_, Or.inl ⟨nid, hlook0, ?_, rfl⟩⟩
                · show (nodeScore acc.1 nid, nodeMember acc.1 nid) = (p0.2, p0.1)
                  rw [hsceq, hmemnid.2]
                · rw [hscore_eq]
                  exact hsceq
            · show acc.2
                = ((done ++ [p]).filter (fun q => (alookup q.1 ss0.dict).isNone)).length
              rw [List.filter_append, List.length_append, hcount]
              have hpf : ([p].filter (fun q => (alookup q.1 ss0.dict).isNone)).length = 0 := by
                simp [List.filter, hlook0]
              omega

/-- **C7.** For every map of member/score pairs given to `ZAdd` (a Go map:
member keys pairwise distinct): every pair ends bound to a node holding
exactly its `(score, member)`; a member whose score was unchanged keeps
its node; a member that was absent, or whose score differs, is bound to a
freshly allocated node (removal plus reinsertion, never an in-place
mutation); and the returned count is exactly the number of members that
did not previously exist. -/
theorem zadd_spec {T : Type} [LinearOrder T] [Inhabited T] {ss : SortedSet T}
    (hwf : Wf ss) (pairs : List (T × Int))
    (hnd : (pairs.map Prod.fst).Nodup) :
    (ZAdd ss pairs).2
      = (pairs.filter (fun q => (alookup q.1 ss.dict).isNone)).length ∧
    ∀ p ∈ pairs, ∃ nid', alookup p.1 (ZAdd ss pairs).1.dict = some nid' ∧
      nodeKey (ZAdd ss pairs).1 nid' = (p.2, p.1) ∧
      ((∃ nid, alookup p.1 ss.dict = some nid ∧ nodeScore ss nid = p.2 ∧ nid' = nid) ∨
       ((∀ nid, alookup p.1 ss.dict = some nid → nodeScore ss nid ≠ p.2) ∧
         ss.nodes.length ≤ nid')) := by
  have h := zadd_fold_spec hwf pairs [] (ss, 0) hnd hwf (le_refl _)
    (fun n _ => rfl) (fun m _ => rfl)
    (fun p hp => absurd hp (List.not_mem_nil p)) rfl
  obtain ⟨_, _, _, _, h5, h6⟩ := h
  refine ⟨h6, ?_⟩
  intro p hp
  exact h5 p hp

theorem zadd_spec_witness :
    ((ZAdd (NewSortedSet [] : SortedSet Char) [('a', 1), ('b', 2)]).2
      = ([('a', 1), ('b', 2)].filter
          (fun q => (@alookup Char Nat (fun a b => instDecidableEq_mathlib a b) q.1
            (NewSortedSet [] : SortedSet Char).dict).isNone)).length ∧
     ∀ p ∈ [('a', 1), ('b', 2)], ∃ nid',
       @alookup Char Nat (fun a b => instDecidableEq_mathlib a b) p.1
           (ZAdd (NewSortedSet [] : SortedSet Char) [('a', 1), ('b', 2)]).1.dict
         = some nid' ∧
       nodeKey (ZAdd (NewSortedSet [] : SortedSet Char) [('a', 1), ('b', 2)]).1 nid'
         = (p.2, p.1) ∧
       ((∃ nid, @alookup Char Nat (fun a b => instDecidableEq_mathlib a b) p.1
             (NewSortedSet [] : SortedSet Char).dict = some nid ∧
           nodeScore (NewSortedSet [] : SortedSet Char) nid = p.2 ∧ nid' = nid) ∨
        ((∀ nid, @alookup Char Nat (fun a b => instDecidableEq_mathlib a b) p.1
             (NewSortedSet [] : SortedSet Char).dict = some nid →
           nodeScore (NewSortedSet [] : SortedSet Char) nid ≠ p.2) ∧
          (NewSortedSet [] : SortedSet Char).nodes.length ≤ nid'))) :=
  zadd_spec (NewSortedSet_wf [] (by decide)) [('a', 1), ('b', 2)] (by decide)

/-- In a sorted level list, the first node not strictly below
`nodeKey ss nid` is `nid` itself. -/
theorem dropWhile_self_head {T : Type} [LinearOrder T] [Inhabited T] {ss : SortedSet T}
    {l : List Nat} (hpw : l.Pairwise (fun a b => keyLt (nodeKey ss a) (nodeKey ss b)))
    {nid : Nat} (hmem : nid ∈ l) :
    (l.dropWhile (keyPred ss (nodeKey ss nid))).head? = some nid := by
  obtain ⟨A, B, hAB⟩ := List.append_of_mem hmem
  rw [hAB] at hpw
  rcases List.pairwise_append.mp hpw with ⟨_, _, hcross⟩
  have hsatA : ∀ a ∈ A, keyPred ss (nodeKey ss nid) a = true := by
    intro a ha
    show decide (keyLt (nodeKey ss a) (nodeKey ss nid)) = true
    exact decide_eq_true (hcross a ha nid (List.mem_cons_self _ _))
  have hprnid : keyPred ss (nodeKey ss nid) nid = false := by
    show decide (keyLt (nodeKey ss nid) (nodeKey ss nid)) = false
    exact decide_eq_false (keyLt_irrefl _)
  have htw : (A ++ nid :: B).takeWhile (keyPred ss (nodeKey ss nid)) = A := by
    rw [takeWhile_append_sat _ A (nid :: B) hsatA]
    simp [List.takeWhile_cons, hprnid]
  have hcat := List.takeWhile_append_dropWhile (keyPred ss (nodeKey ss nid)) (A ++ nid :: B)
  rw [htw] at hcat
  have hdw : (A ++ nid :: B).dropWhile (keyPred ss (nodeKey ss nid)) = nid :: B :=
    List.append_cancel_left hcat
  rw [hAB, hdw]
  rfl

/-- `findNodeIndex` on a member of the set always lands on the node, so
it returns the (level-0 move) count, never `-1`. -/
theorem findNodeIndex_present {T : Type} [LinearOrder T] [Inhabited T] {ss : SortedSet T}
    {ls : Nat → List Nat} (W : WfAux ss ls) {nid : Nat} (hmem : nid ∈ ls 0) :
    findNodeIndex ss nid
      = ((searchLevelSteps ss (nodeKey ss nid) 0 (fuelOf ss)
          (updAt ss (nodeKey ss nid) 1) 0).2 : Int) := by
  have h0 : 0 < ss.level := by have := W.levelPos; omega
  have hland : searchLevel ss (nodeKey ss nid) 0 (fuelOf ss)
      (updAt ss (nodeKey ss nid) 1) = updAt ss (nodeKey ss nid) 0 := by
    by_cases h : 1 < ss.level
    · exact (updAt_step ss _ 0 h).symm
    · have hup : updAt ss (nodeKey ss nid) 1 = none := updAt_above ss _ 1 (by omega)
      rw [hup]
      have htop := updAt_top ss (nodeKey ss nid) (by omega)
      have hl1 : ss.level - 1 = 0 := by omega
      rw [hl1] at htop
      exact htop.symm
  have hfst := searchLevelSteps_fst ss (nodeKey ss nid) 0 (fuelOf ss)
    (updAt ss (nodeKey ss nid) 1) 0
  have hhit : fwd ss (searchLevelSteps ss (nodeKey ss nid) 0 (fuelOf ss)
      (updAt ss (nodeKey ss nid) 1) 0).1 0 = some nid := by
    rw [hfst, hland, fwd_updAt W _ 0 h0]
    exact dropWhile_self_head (W.chainsOk 0 h0).2.1 hmem
  show (if fwd ss (searchLevelSteps ss (nodeKey ss nid) 0 (fuelOf ss)
      (updAt ss (nodeKey ss nid) 1) 0).1 0 = some nid
    then ((searchLevelSteps ss (nodeKey ss nid) 0 (fuelOf ss)
      (updAt ss (nodeKey ss nid) 1) 0).2 : Int) else -1)
    = ((searchLevelSteps ss (nodeKey ss nid) 0 (fuelOf ss)
      (updAt ss (nodeKey ss nid) 1) 0).2 : Int)
  rw [if_pos hhit]

/-- **C8 (amended).** For a member of the set, `ZRank` and `ZRevRank`
both report `exists = true`, their ranks are computed from one and the
same traversal count `r ≥ 0`, `RevRank = card - r - 1`, and hence
`Rank + RevRank = card - 1`; for an absent member both report
`exists = false`.  (The claim\'s reading of `r` as the zero-based position
in ascending order is refuted by `zrank_position_counterexample`.) -/
theorem zrank_zrevrank_amended {T : Type} [LinearOrder T] [Inhabited T]
    {ss : SortedSet T} (hwf : Wf ss) (m : T) :
    (∀ nid, alookup m ss.dict = some nid →
      ∃ r : Int, 0 ≤ r ∧ ZRank ss m = (r, true) ∧
        ZRevRank ss m = (ZCard ss - r - 1, true) ∧
        r + (ZCard ss - r - 1) = ZCard ss - 1) ∧
    (alookup m ss.dict = none →
      ZRank ss m = (0, false) ∧ ZRevRank ss m = (0, false)) := by
  obtain ⟨ls, W⟩ := hwf
  constructor
  · intro nid hlk
    have hmem := (W.dictOk.2.2 m nid hlk).1
    have hidx := findNodeIndex_present W hmem
    set r : Int := ((searchLevelSteps ss (nodeKey ss nid) 0 (fuelOf ss)
      (updAt ss (nodeKey ss nid) 1) 0).2 : Int) with hr
    have hrpos : 0 ≤ r := by
      rw [hr]
      exact Int.natCast_nonneg _
    have hne : findNodeIndex ss nid ≠ -1 := by
      rw [hidx, hr]
      intro hc
      omega
    have hzr : ZRank ss m = (r, true) := by
      unfold ZRank
      rw [hlk]
      show (if findNodeIndex ss nid = -1 then ((0 : Int), false)
        else (findNodeIndex ss nid, true)) = (r, true)
      rw [if_neg hne, hidx]
    have hzrev : ZRevRank ss m = (ss.length - r - 1, true) := by
      unfold ZRevRank
      rw [hlk]
      show (if findNodeIndex ss nid = -1 then ((0 : Int), false)
        else (ss.length - findNodeIndex ss nid - 1, true))
        = (ss.length - r - 1, true)
      rw [if_neg hne, hidx]
    exact ⟨r, hrpos, hzr, hzrev, by ring⟩
  · intro hlk
    constructor
    · unfold ZRank
      rw [hlk]
    · unfold ZRevRank
      rw [hlk]

theorem zrank_zrevrank_amended_witness :
    ∃ r : Int, 0 ≤ r ∧ ZRank demoSS 'c' = (r, true) ∧
      ZRevRank demoSS 'c' = (ZCard demoSS - r - 1, true) ∧
      r + (ZCard demoSS - r - 1) = ZCard demoSS - 1 :=
  (zrank_zrevrank_amended (applyOps_wf (NewSortedSet [1, 2, 1]) demoOps
    (NewSortedSet_wf [1, 2, 1] (by decide))) 'c').1 2 (by decide)

/-- **C8 (counterexample).** In the three-member set `a < b < c` (scores
1, 2, 3, levels 1, 2, 1), `c` sits at zero-based ascending position 2,
yet `ZRank` returns 0 — the walk reaches `c` through the level-1 shortcut
over `a` and `b` and only counts level-0 moves; `ZRevRank` returns
`3 - 0 - 1 = 2` instead of the claimed `3 - 2 - 1 = 0`. -/
theorem zrank_position_counterexample :
    ZRank demoSS 'c' = (0, true) ∧
    ZRevRank demoSS 'c' = (2, true) ∧
    (chain demoSS 0).map (nodeMember demoSS) = ['a', 'b', 'c'] ∧
    ZCard demoSS = 3 := by
  refine ⟨?_, ?_, ?_, ?_⟩ <;> decide

/-- The spec\'s description of `RangeByIndex`, over the ascending level-0
traversal: adjust negative indices from the end, clamp, return the empty
sequence for a void window, and otherwise list the members at positions
`start..stop`, each followed by its score when `withScores` is set. -/
def rangeSpec {T : Type} [Inhabited T] (ss : SortedSet T) (start stop : Int)
    (withScores : Bool) : List (T ⊕ Int) :=
  let p := adjustRangeIndices start stop ss.length
  if p.1 > p.2 ∨ p.1 ≥ ss.length then []
  else
    (((chain ss 0).drop p.1.toNat).take (p.2.toNat - p.1.toNat + 1)).bind
      (fun n => Sum.inl (nodeMember ss n) ::
        (if withScores then [Sum.inr (nodeScore ss n)] else []))

theorem adjustRangeIndices_fst_nonneg (start stop L : Int) :
    0 ≤ (adjustRangeIndices start stop L).1 := by
  simp only [adjustRangeIndices]
  split_ifs <;> omega

/-- The collection loop of `ZRange`, walking the level-0 chain suffix
`sfx` from index `k`. -/
theorem zrangeLoop_spec {T : Type} [LinearOrder T] [Inhabited T] (ss : SortedSet T)
    (ws : Bool) (s e : Nat) :
    ∀ (sfx : List Nat) (xprev : Option Nat) (k fuel : Nat),
      NodeChain ss 0 xprev sfx → sfx.length < fuel →
      zrangeLoop ss (s : Int) (e : Int) ws fuel (fwd ss xprev 0) (k : Int)
        = ((sfx.take (e + 1 - k)).drop (s - k)).bind
            (fun n => Sum.inl (nodeMember ss n) ::
              (if ws then [Sum.inr (nodeScore ss n)] else [])) := by
  intro sfx
  induction sfx with
  | nil =>
      intro xprev k fuel hch hfuel
      obtain ⟨z, hseg, hz⟩ := hch
      rw [seg_nil_inv hseg] at hz
      rw [hz]
      cases fuel with
      | zero => omega
      | succ f =>
          show ([] : List (T ⊕ Int))
            = ((([] : List Nat).take (e + 1 - k)).drop (s - k)).bind
              (fun n => Sum.inl (nodeMember ss n) ::
                (if ws then [Sum.inr (nodeScore ss n)] else []))
          simp
  | cons n rest ih =>
      intro xprev k fuel hch hfuel
      obtain ⟨z, hseg, hz⟩ := hch
      obtain ⟨hf, hrest⟩ := seg_cons_inv hseg
      rw [hf]
      cases fuel with
      | zero => simp at hfuel
      | succ f =>
          have hch' : NodeChain ss 0 (some n) rest := ⟨z, hrest, hz⟩
          have hlen' : rest.length < f := by
            simp at hfuel
            omega
          show (if (k : Int) ≤ (e : Int) then
              (if (s : Int) ≤ (k : Int) then
                Sum.inl (nodeMember ss n) ::
                  (if ws then [Sum.inr (nodeScore ss n)] else [])
              else []) ++ zrangeLoop ss (s : Int) (e : Int) ws f
                (fwd ss (some n) 0) ((k : Int) + 1)
            else []) = _
          by_cases hk : k ≤ e
          · rw [if_pos (by exact_mod_cast hk : (k : Int) ≤ (e : Int))]
            have hrec := ih (some n) (k + 1) f hch' hlen'
            have hcast : ((k + 1 : Nat) : Int) = (k : Int) + 1 := by push_cast; ring
            rw [hcast] at hrec
            rw [hrec]
            have he1 : e + 1 - k = (e - k) + 1 := by omega
            rw [he1, List.take_succ_cons]
            have he2 : e + 1 - (k + 1) = e - k := by omega
            rw [he2]
            by_cases hs : s ≤ k
            · rw [if_pos (by exact_mod_cast hs : (s : Int) ≤ (k : Int))]
              have hs1 : s - k = 0 := by omega
              have hs2 : s - (k + 1) = 0 := by omega
              rw [hs1, hs2, List.drop_zero, List.drop_zero]
              simp [List.flatMap_cons]
            · rw [if_neg (by exact_mod_cast hs : ¬ (s : Int) ≤ (k : Int))]
              have hs3 : s - k = (s - (k + 1)) + 1 := by omega
              rw [hs3, List.drop_succ_cons]
              simp only [List.nil_append]
          · rw [if_neg (by exact_mod_cast hk : ¬ (k : Int) ≤ (e : Int))]
            have he0 : e + 1 - k = 0 := by omega
            rw [he0]
            simp

/-- **C9.** `ZRange` refines the spec\'s description: negative indices are
counted from the end, `stop` is clamped to `length - 1`, a void window
(after adjustment `start > stop` or `start ≥ length`) yields the empty
sequence, and otherwise the members at positions `start..stop` of the
ascending order are returned, each followed by its score when
`withScores` is set. -/
theorem zrange_spec {T : Type} [LinearOrder T] [Inhabited T] {ss : SortedSet T}
    (hwf : Wf ss) (start stop : Int) (withScores : Bool) :
    ZRange ss start stop withScores = rangeSpec ss start stop withScores := by
  obtain ⟨ls, W⟩ := hwf
  have h0 : 0 < ss.level := by have := W.levelPos; omega
  simp only [ZRange, rangeSpec]
  by_cases hguard : (adjustRangeIndices start stop ss.length).1
        > (adjustRangeIndices start stop ss.length).2
      ∨ (adjustRangeIndices start stop ss.length).1 ≥ ss.length
  · rw [if_pos hguard, if_pos hguard]
  · rw [if_neg hguard, if_neg hguard]
    push_neg at hguard
    have hp1 : 0 ≤ (adjustRangeIndices start stop ss.length).1 :=
      adjustRangeIndices_fst_nonneg start stop ss.length
    have hp2 : 0 ≤ (adjustRangeIndices start stop ss.length).2 :=
      le_trans hp1 hguard.1
    have hps : (adjustRangeIndices start stop ss.length).1
        = (((adjustRangeIndices start stop ss.length).1.toNat : Nat) : Int) :=
      (Int.toNat_of_nonneg hp1).symm
    have hpe : (adjustRangeIndices start stop ss.length).2
        = (((adjustRangeIndices start stop ss.length).2.toNat : Nat) : Int) :=
      (Int.toNat_of_nonneg hp2).symm
    have hse : (adjustRangeIndices start stop ss.length).1.toNat
        ≤ (adjustRangeIndices start stop ss.length).2.toNat := by
      have := hguard.1
      omega
    have hchain : chain ss 0 = ls 0 := chain_eq_of_chainOk (W.chainsOk 0 h0)
    rw [hchain]
    conv_lhs => rw [hps, hpe]
    have hloop := zrangeLoop_spec ss withScores
      (adjustRangeIndices start stop ss.length).1.toNat
      (adjustRangeIndices start stop ss.length).2.toNat
      (ls 0) none 0 (fuelOf ss)
      (W.chainsOk 0 h0).1 (chainOk_len_lt_fuel (W.chainsOk 0 h0))
    have hz : ((0 : Nat) : Int) = (0 : Int) := rfl
    rw [hz] at hloop
    rw [hloop]
    congr 1
    have h1 : (adjustRangeIndices start stop ss.length).2.toNat + 1 - 0
        = (adjustRangeIndices start stop ss.length).2.toNat + 1 := rfl
    have h2 : (adjustRangeIndices start stop ss.length).1.toNat - 0
        = (adjustRangeIndices start stop ss.length).1.toNat := rfl
    rw [h1, h2, List.drop_take]
    congr 1
    omega

theorem zrange_spec_witness :
    ZRange demoSS 0 (-1) false = rangeSpec demoSS 0 (-1) false ∧
    ZRange demoSS 0 (-1) false = [Sum.inl 'a', Sum.inl 'b', Sum.inl 'c'] :=
  ⟨zrange_spec (applyOps_wf (NewSortedSet [1, 2, 1]) demoOps
      (NewSortedSet_wf [1, 2, 1] (by decide))) 0 (-1) false,
   by decide⟩
